import Mathlib

/-!
Shallow embedding of `chemlib/chemistry.py` (formula parsing, compounds,
reactions, balancing, oxidation numbers, stoichiometry helpers) together
with theorems settling the specification claims.

Exact rational arithmetic (Python's `sympy.Rational` and the exact cases of
its float arithmetic) is embedded as unreduced `Int` fractions (`Frac`),
which the Lean kernel can evaluate; `Frac.toQ` maps them to `ℚ` for the
algebraic reasoning.
-/

namespace Chemlib

/-- An exact rational number represented as an unreduced fraction of
integers.  All fractions produced by the embedding keep a positive
denominator (`Frac.Ok`). -/
structure Frac where
  num : Int
  den : Int
  deriving DecidableEq, Repr

/-- Embed an integer as a fraction. -/
def Frac.ofInt (n : Int) : Frac := ⟨n, 1⟩

instance : OfNat Frac n := ⟨Frac.ofInt n⟩

def Frac.add (a b : Frac) : Frac := ⟨a.num * b.den + b.num * a.den, a.den * b.den⟩

def Frac.mul (a b : Frac) : Frac := ⟨a.num * b.num, a.den * b.den⟩

def Frac.neg (a : Frac) : Frac := ⟨-a.num, a.den⟩

def Frac.sub (a b : Frac) : Frac := a.add b.neg

/-- Reciprocal; keeps the denominator positive for nonzero arguments. -/
def Frac.inv (a : Frac) : Frac := if a.num < 0 then ⟨-a.den, -a.num⟩ else ⟨a.den, a.num⟩

def Frac.div (a b : Frac) : Frac := a.mul b.inv

/-- Zero test (valid for fractions with nonzero denominator). -/
def Frac.isZero (a : Frac) : Bool := a.num = 0

def Frac.pow (a : Frac) : Nat → Frac
  | 0 => Frac.ofInt 1
  | n + 1 => (Frac.pow a n).mul a

/-- The invariant maintained by the embedding: positive denominator. -/
def Frac.Ok (a : Frac) : Prop := 0 < a.den

instance (a : Frac) : Decidable a.Ok := inferInstanceAs (Decidable (0 < a.den))

/-- Interpretation into `ℚ`. -/
def Frac.toQ (a : Frac) : ℚ := (a.num : ℚ) / (a.den : ℚ)

/-- The denominator of the fraction in lowest terms — `sympy`'s `.q`
attribute of a `Rational`. -/
def Frac.q (a : Frac) : Nat := a.den.natAbs / Nat.gcd a.num.natAbs a.den.natAbs

/-!
## Strings, dictionaries and `parse_formula`

Element symbols are lists of characters; a parsed formula is an
insertion-ordered association list (symbol, count), mirroring a Python
`dict` built with `d[k] = v` / `d[k] += v` / `d.update(...)`.
-/

/-- An element symbol, as the list of its characters. -/
abbrev Sym := List Char

/-- Insertion-ordered dictionary from symbols to atom counts. -/
abbrev Dict := List (Sym × Nat)

/-- The regex class `[A-Z]` (ASCII uppercase). -/
def pyUpper (c : Char) : Bool := 'A' ≤ c && c ≤ 'Z'

/-- The regex class `[a-z]` (ASCII lowercase). -/
def pyLower (c : Char) : Bool := 'a' ≤ c && c ≤ 'z'

/-- The regex class `\d`.  Python's `\d` matches any Unicode
decimal-digit (category Nd) character; on the alphabet reachable in this
development (ASCII formulas and subscript-rendered formulas, whose
subscript digits U+2080–U+2089 are category No, not Nd) it coincides with
the ASCII digits. -/
def pyDigit (c : Char) : Bool := '0' ≤ c && c ≤ '9'

/-- Python `dict` lookup. -/
def dictGet? : Dict → Sym → Option Nat
  | [], _ => none
  | (k', v) :: rest, k => if k' = k then some v else dictGet? rest k

/-- Python `d[k] = v`: overwrite in place if present, else append. -/
def dictSet : Dict → Sym → Nat → Dict
  | [], k, v => [(k, v)]
  | (k', v') :: rest, k, v =>
      if k' = k then (k', v) :: rest else (k', v') :: dictSet rest k v

/-- The `if elem in form_dict: += else: =` idiom of the REST pass. -/
def dictAdd : Dict → Sym → Nat → Dict
  | [], k, v => [(k, v)]
  | (k', v') :: rest, k, v =>
      if k' = k then (k', v' + v) :: rest else (k', v') :: dictAdd rest k v

/-- Python `d.update(g)`: overwrite values of existing keys (keeping their
position), append new keys in `g`'s order. -/
def dictUpdate (d g : Dict) : Dict := g.foldl (fun d kv => dictSet d kv.1 kv.2) d

/-- The `multiply` helper of `parse_formula`: multiply every count. -/
def dictMulAll (d : Dict) (m : Nat) : Dict := d.map (fun kv => (kv.1, kv.2 * m))

/-- Value of Python `int` on a nonempty string of ASCII digits. -/
def digitsToNat (s : List Char) : Nat :=
  s.foldl (fun a c => 10 * a + (c.toNat - '0'.toNat)) 0

/-- Split a string at its first `')'`: the non-greedy interior of the
group regex `\((.*?)\)` and the remainder after the `')'`. -/
def splitAtRParen : List Char → Option (List Char × List Char)
  | [] => none
  | c :: rest =>
      if c = ')' then some ([], rest)
      else match splitAtRParen rest with
        | none => none
        | some (int', aft) => some (c :: int', aft)

/-- The maximal leading digit run (the `(\d*)` group) and the remainder. -/
def takeDigitsRun : List Char → List Char × List Char
  | [] => ([], [])
  | c :: rest =>
      if pyDigit c then
        let (ds, aft) := takeDigitsRun rest
        (c :: ds, aft)
      else ([], c :: rest)

/-- The optional lowercase letter after the uppercase letter of an
element token (`[A-Z][a-z]?`). -/
def afterUpper (u : Char) : List Char → Sym × List Char
  | [] => ([u], [])
  | c :: rest => if pyLower c then ([u, c], rest) else ([u], c :: rest)

/-- The optional `(\)?)` group. -/
def takeRParen : List Char → Bool × List Char
  | [] => (false, [])
  | c :: rest => if c = ')' then (true, rest) else (false, c :: rest)

/-- The PARENS pass of `parse_formula`: scan for non-overlapping matches
of `\((.*?)\)(\d*)`, parse each interior with the supplied parser,
multiply by the trailing integer (default 1), and merge with
`dict.update` (overwrite) semantics.  The structural fuel is adequate
whenever it is at least the string length (each step consumes at least
one character). -/
def parensPass (p : List Char → Dict) : Nat → List Char → Dict → Dict
  | 0, _, d => d
  | _ + 1, [], d => d
  | fuel + 1, c :: rest, d =>
      if c = '(' then
        match splitAtRParen rest with
        | none => d
        | some (interior, aft) =>
            parensPass p fuel (takeDigitsRun aft).2
              (dictUpdate d (dictMulAll (p interior)
                (if (takeDigitsRun aft).1 = [] then 1
                 else digitsToNat (takeDigitsRun aft).1)))
      else parensPass p fuel rest d

/-- The tail of the scan after one element-token match starting at the
uppercase letter `c`: past the optional lowercase letter, the digit run
and the optional right parenthesis. -/
def tokenTail (c : Char) (rest : List Char) : List Char :=
  (takeRParen (takeDigitsRun (afterUpper c rest).2).2).2

/-- The REST pass of `parse_formula`: scan for matches of
`(\(?)([A-Z][a-z]?)(\d*)(\)?)`; a token adjacent to a parenthesis is
consumed but skipped, others are merged by summation.  Fuel as in
`parensPass`. -/
def restPass : Nat → List Char → Dict → Dict
  | 0, _, d => d
  | _ + 1, [], d => d
  | fuel + 1, c :: rest, d =>
      if pyUpper c then
        restPass fuel (tokenTail c rest)
          (if (takeRParen (takeDigitsRun (afterUpper c rest).2).2).1 then d
           else dictAdd d (afterUpper c rest).1
             (if (takeDigitsRun (afterUpper c rest).2).1 = [] then 1
              else digitsToNat (takeDigitsRun (afterUpper c rest).2).1))
      else if c = '(' then
        -- `\(?` may consume the parenthesis when an uppercase letter
        -- follows; otherwise the scan advances one position.
        match rest with
        | [] => d
        | c2 :: rest2 =>
            if pyUpper c2 then restPass fuel (tokenTail c2 rest2) d
            else restPass fuel rest d
      else restPass fuel rest d

/-- Fueled recursion for `parse_formula`; the outer fuel strictly bounds
the parenthesis nesting depth. -/
def parseFuel : Nat → List Char → Dict
  | 0, _ => []
  | n + 1, s => restPass s.length s (parensPass (parseFuel n) s.length s [])

/-- `parse_formula` of `chemistry.py`. -/
def parse_formula (s : List Char) : Dict := parseFuel s.length s

/-!
## Rendering (`Compound.formula`) and the element provider
-/

/-- The `SUB = str.maketrans("0123456789", "₀₁₂₃₄₅₆₇₈₉")` table. -/
def subChar (c : Char) : Char :=
  if c = '0' then '₀' else if c = '1' then '₁' else if c = '2' then '₂'
  else if c = '3' then '₃' else if c = '4' then '₄' else if c = '5' then '₅'
  else if c = '6' then '₆' else if c = '7' then '₇' else if c = '8' then '₈'
  else if c = '9' then '₉' else c

/-- A subscript digit character (U+2080–U+2089). -/
def isSubDigit (c : Char) : Bool := '₀' ≤ c && c ≤ '₉'

/-- Python `str.isdigit` on the alphabet of this development: ASCII
digits and subscript digits. -/
def pyIsdigit (c : Char) : Bool := pyDigit c || isSubDigit c

/-- The ASCII digit character of a value below ten. -/
def digitChar (k : Nat) : Char := Char.ofNat ('0'.toNat + k)

/-- Decimal digits of a natural number, most significant first
(Python `f"{count}"`): fueled auxiliary. -/
def natDigitsAux : Nat → Nat → List Char
  | 0, _ => []
  | fuel + 1, n =>
      if n < 10 then [digitChar n]
      else natDigitsAux fuel (n / 10) ++ [digitChar (n % 10)]

/-- Decimal digits of a natural number, most significant first. -/
def natDigits (n : Nat) : List Char := natDigitsAux (n + 1) n

/-- One `f"{symbol}{count}"` part of the rebuilt formula. -/
def renderPair (kv : Sym × Nat) : List Char := kv.1 ++ natDigits kv.2

/-- The rebuilt canonical formula
`"".join(parts).translate(SUB)` of `Compound.__init__`. -/
def renderFormula (d : Dict) : List Char := ((d.map renderPair).flatten).map subChar

/-- Physical properties of an element used by the embedding. -/
structure ElemProps where
  AtomicMass : Frac
  Group : Int
  deriving DecidableEq, Repr

/-- Modelled from the spec: the external ElementProvider (§6, the
periodic-table CSV under `chemlib/resources`, not part of the core
source), restricted to the element records this development uses.
Atomic masses and group numbers follow the standard periodic table. -/
def elementTable : List (Sym × ElemProps) :=
  [ (['H'], ⟨⟨1008, 1000⟩, 1⟩),
    (['N'], ⟨⟨14007, 1000⟩, 15⟩),
    (['O'], ⟨⟨15999, 1000⟩, 16⟩),
    (['F'], ⟨⟨18998, 1000⟩, 17⟩),
    (['N', 'a'], ⟨⟨22990, 1000⟩, 1⟩),
    (['M', 'g'], ⟨⟨24305, 1000⟩, 2⟩),
    (['C', 'l'], ⟨⟨35450, 1000⟩, 17⟩),
    (['F', 'e'], ⟨⟨55845, 1000⟩, 8⟩),
    (['I'], ⟨⟨126904, 1000⟩, 17⟩),
    (['C'], ⟨⟨12011, 1000⟩, 14⟩) ]

/-- `pte` lookup by symbol; `none` is the provider's not-found error. -/
def lookupElem (s : Sym) : Option ElemProps :=
  elementTable.lookup s

/-- Total accessor for element properties; only evaluated at known
symbols in every theorem below (an unknown symbol is a constructor-time
error in the source). -/
def elemProps (s : Sym) : ElemProps := (lookupElem s).getD ⟨Frac.ofInt 0, 0⟩

/-!
## `Compound`
-/

/-- A constructed `Compound`: element-count map, rebuilt formula and the
(always 1, see claim C6) leading coefficient. -/
structure Compound where
  occurences : Dict
  formula : List Char
  coefficient : Nat
  deriving DecidableEq, Repr

/-- The `self.elements` list of a compound, reduced to the symbols of
its per-atom `Element` objects. -/
def Compound.elementsSyms (c : Compound) : List Sym :=
  (c.occurences.map (fun kv => List.replicate kv.2 kv.1)).flatten

/-- `Compound.__init__`: parse, check every symbol with a positive count
against the element provider (one `Element(symbol)` per atom), rebuild
the subscript-rendered formula, and read the leading coefficient off the
rebuilt formula.  `none` is an exception: an unknown element symbol, an
empty rebuilt formula (`self.formula[0]` raises `IndexError`), or a
digit-leading rebuilt formula (`int` applied to a regex match object
raises `TypeError`). -/
def Compound.make (s : List Char) : Option Compound :=
  let occ := parse_formula s
  if occ.any (fun kv => 0 < kv.2 && (lookupElem kv.1).isNone) then none
  else
    match renderFormula occ with
    | [] => none
    | c :: cs => if pyIsdigit c then none else some ⟨occ, c :: cs, 1⟩

/-- `Compound.molar_mass`: sum of atomic masses over the per-atom
element list. -/
def Compound.molarMass (c : Compound) : Frac :=
  c.elementsSyms.foldl (fun a s => a.add (elemProps s).AtomicMass) (Frac.ofInt 0)

/-- A compound's count for a symbol; 0 when absent (the `except
KeyError` of the balancing matrix construction). -/
def occVal (c : Compound) (k : Sym) : Nat := (dictGet? c.occurences k).getD 0

/-!
## `Reaction`: state and derived data

A `Reaction` is its reactant and product sequences; every other field of
the Python object is recomputed from them by `reinit`/`update_formula`,
so the embedding derives them functionally.  (In `reinit`, the source
dispatches on `i == self.reactants`, an identity comparison separating
the two loop passes; the embedding sums each side directly.)
-/

structure Reaction where
  reactants : List Compound
  products : List Compound
  deriving DecidableEq, Repr

def Reaction.compounds (r : Reaction) : List Compound := r.reactants ++ r.products

def Reaction.reactant_formulas (r : Reaction) : List (List Char) :=
  r.reactants.map (·.formula)

def Reaction.product_formulas (r : Reaction) : List (List Char) :=
  r.products.map (·.formula)

/-- Per-side element totals (`reinit`'s occurrence accumulation). -/
def buildOcc (l : List Compound) : Dict :=
  l.foldl (fun d c => c.occurences.foldl (fun d kv => dictAdd d kv.1 kv.2) d) []

def Reaction.reactant_occurences (r : Reaction) : Dict := buildOcc r.reactants

def Reaction.product_occurences (r : Reaction) : Dict := buildOcc r.products

/-- Python `dict` equality: same key set, same values. -/
def pyDictEq (d1 d2 : Dict) : Bool :=
  d1.all (fun kv => dictGet? d2 kv.1 = some kv.2) &&
    d2.all (fun kv => dictGet? d1 kv.1 = some kv.2)

/-- The `is_balanced` property. -/
def Reaction.is_balanced (r : Reaction) : Bool :=
  pyDictEq r.reactant_occurences r.product_occurences

/-- First-occurrence deduplication (`dict.fromkeys` and the
`if x not in seen` idiom), with an accumulator of already-seen items. -/
def dedupAcc [DecidableEq α] (seen : List α) : List α → List α
  | [] => []
  | x :: rest =>
      if x ∈ seen then dedupAcc seen rest
      else x :: dedupAcc (x :: seen) rest

/-- The `" --> "` separator placed in `update_formula`'s list. -/
def sepArrow : List Char := [' ', '-', '-', '>', ' ']

/-- `update_formula`'s raw formula list: reactant formulas, separator,
product formulas. -/
def Reaction.formulaList (r : Reaction) : List (List Char) :=
  r.reactant_formulas ++ [sepArrow] ++ r.product_formulas

/-- `self.coefficients[f]`: the occurrence count of a formula in the
raw formula list. -/
def Reaction.coeffOf (r : Reaction) (f : List Char) : Nat :=
  (r.formulaList).count f

/-- `self.constituents`: distinct formulas, first-occurrence order,
separator removed. -/
def Reaction.constituents (r : Reaction) : List (List Char) :=
  (dedupAcc [] r.formulaList).filter (· ≠ sepArrow)

/-- Distinct compounds by formula, first occurrence kept (used by
`balance` and `get_amounts`). -/
def dedupByFormula (seen : List (List Char)) : List Compound → List Compound
  | [] => []
  | c :: rest =>
      if c.formula ∈ seen then dedupByFormula seen rest
      else c :: dedupByFormula (c.formula :: seen) rest

def Reaction.distinctCompounds (r : Reaction) : List Compound :=
  dedupByFormula [] r.compounds

/-- Flattened per-atom symbol sequence of a compound list. -/
def flatSyms (l : List Compound) : List Sym :=
  (l.map Compound.elementsSyms).flatten

/-- `balance`'s `seen_formulas`: distinct element symbols in first-seen
order over reactants then products. -/
def Reaction.seenSyms (r : Reaction) : List Sym :=
  dedupAcc [] (flatSyms r.compounds)

/-!
## Row-reduced echelon form over exact rationals

Rows are total functions from column index to entry, mirroring the
`sympy` matrix built from the per-compound columns.  `rref` is standard
Gauss–Jordan elimination, producing the (unique) reduced row-echelon
form and the list of pivot columns, exactly `sympy.Matrix(...).rref()`.
-/

/-- A matrix row: entries indexed by column. -/
abbrev Row := Nat → Frac

def zeroRow : Row := fun _ => Frac.ofInt 0

def getRow (rows : List Row) (k : Nat) : Row := (rows.get? k).getD zeroRow

/-- Index of the first row at or below `r0` with a nonzero entry in
column `j`. -/
def findPivot (rows : List Row) (j r0 : Nat) : Option Nat :=
  ((List.range rows.length).drop r0).find?
    (fun k => (getRow rows k j).isZero = false)

/-- Index-aware map over a row list (structural, so that matrix
computations reduce in the kernel). -/
def mapRows (f : Nat → Row → Row) : Nat → List Row → List Row
  | _, [] => []
  | k, row :: rest => f k row :: mapRows f (k + 1) rest

/-- Swap rows `a` and `b`. -/
def swapRows (rows : List Row) (a b : Nat) : List Row :=
  mapRows (fun k row =>
    if k = a then getRow rows b else if k = b then getRow rows a else row) 0 rows

/-- Multiply row `a` by the scalar `c`. -/
def scaleRow (rows : List Row) (a : Nat) (c : Frac) : List Row :=
  mapRows (fun k row => if k = a then fun j => c.mul (row j) else row) 0 rows

/-- Subtract from every row other than `r` its column-`j` entry times
row `r` (full column elimination). -/
def clearCol (rows : List Row) (r j : Nat) : List Row :=
  mapRows (fun k row =>
    if k = r then row
    else fun jj => (row jj).sub ((row j).mul (getRow rows r jj))) 0 rows

/-- Gauss–Jordan elimination: process columns `j, j+1, …` (the fuel is
the number of columns left), keeping `r` as the next pivot row. -/
def rrefGo : Nat → Nat → Nat → List Row → List Nat → List Row × List Nat
  | 0, _, _, rows, piv => (rows, piv)
  | fuel + 1, j, r, rows, piv =>
      match findPivot rows j r with
      | none => rrefGo fuel (j + 1) r rows piv
      | some i =>
          let rows1 := swapRows rows r i
          let p := getRow rows1 r j
          let rows2 := scaleRow rows1 r p.inv
          let rows3 := clearCol rows2 r j
          rrefGo fuel (j + 1) (r + 1) rows3 (piv ++ [j])

/-- `sympy.Matrix(...).rref()` on a matrix with `n` columns. -/
def rref (rows : List Row) (n : Nat) : List Row × List Nat :=
  rrefGo n 0 0 rows []

/-!
## `Reaction.balance`
-/

/-- The per-compound column of the balancing matrix: the compound's
count of each seen element, negated for compounds whose formula is
among the product formulas. -/
def Reaction.colOf (r : Reaction) (c : Compound) : List Frac :=
  r.seenSyms.map (fun m =>
    if c.formula ∈ r.product_formulas then Frac.ofInt (-(occVal c m : Int))
    else Frac.ofInt (occVal c m))

/-- The balancing matrix after `np.array(matrix).transpose()`: one row
per seen element, one column per distinct compound. -/
def Reaction.matrixOf (r : Reaction) : List Row :=
  let cols := r.distinctCompounds.map r.colOf
  (List.range r.seenSyms.length).map (fun i =>
    fun j => (((cols.get? j).map (fun col => (col.get? i).getD (Frac.ofInt 0)))).getD
      (Frac.ofInt 0))

/-- The solution column read off the RREF (`solutions` before
scaling): the last column of each row of the reduced matrix. -/
def Reaction.solsOf (r : Reaction) : List Frac :=
  ((rref r.matrixOf r.distinctCompounds.length).1).map
    (fun row => row (r.distinctCompounds.length - 1))

/-- The least common multiple of the solution denominators. -/
def Reaction.lcmOf (r : Reaction) : Nat :=
  r.solsOf.foldr (fun f a => Nat.lcm f.q a) 1

/-- The nonzero scaled integer coefficients (`solutions` after
`* lcm`, `abs` and the zero filter). -/
def Reaction.nzOf (r : Reaction) : List Nat :=
  ((r.solsOf.map (fun f => ((r.lcmOf : Int) * f.num).tdiv f.den)).map
    Int.natAbs).filter (· ≠ 0)

/-- The final coefficient list: the nonzero scaled solutions, padded
with the lcm when one short. -/
def Reaction.finOf (r : Reaction) : List Nat :=
  if r.distinctCompounds.length > r.nzOf.length then r.nzOf ++ [r.lcmOf]
  else r.nzOf

/-- The balancing computation after the `is_balanced` early return:
solve, scale to integers, drop zeros, pad with the lcm, and rebuild both
sides.  `none` is the `IndexError` raised when fewer coefficients than
compounds remain. -/
def Reaction.balanceSolve (r : Reaction) : Option Reaction :=
  let ds := r.distinctCompounds
  let fin := r.finOf
  if ds.length ≤ fin.length then
    let pairs := List.zip ds fin
    let fr := ((pairs.filter (fun pc => pc.1.formula ∈ r.reactant_formulas)).map
      (fun pc => List.replicate pc.2 pc.1)).flatten
    let fp := ((pairs.filter (fun pc => pc.1.formula ∈ r.product_formulas)).map
      (fun pc => List.replicate pc.2 pc.1)).flatten
    some ⟨fr, fp⟩
  else none

/-- `Reaction.balance`. -/
def Reaction.balance (r : Reaction) : Option Reaction :=
  if r.is_balanced then some r else r.balanceSolve

/-!
## `Reaction.by_formula`
-/

/-- Python `str.split(sep)` for a single-character separator. -/
def splitOnChar (ch : Char) : List Char → List (List Char)
  | [] => [[]]
  | c :: rest =>
      match splitOnChar ch rest with
      | [] => [[]]
      | g :: gs => if c = ch then [] :: g :: gs else (c :: g) :: gs

/-- Python `str.strip(" -")`. -/
def stripChars (s : List Char) : List Char :=
  ((s.dropWhile (fun c => c = ' ' || c = '-')).reverse.dropWhile
    (fun c => c = ' ' || c = '-')).reverse

/-- `Reaction.by_formula`: split on `'>'` (the tuple unpacking requires
exactly two parts), split each side on `'+'`, strip `" -"`, and build
the compounds. -/
def Reaction.by_formula (s : List Char) : Option Reaction :=
  match splitOnChar '>' s with
  | [rs, ps] => do
      let rcs ← ((splitOnChar '+' rs).map stripChars).mapM Compound.make
      let pcs ← ((splitOnChar '+' ps).map stripChars).mapM Compound.make
      some ⟨rcs, pcs⟩
  | _ => none

/-!
## `Compound.oxidation_numbers`
-/

/-- Association-list lookup for integer-valued dictionaries. -/
def alookup : List (Sym × Int) → Sym → Option Int
  | [], _ => none
  | (k', v) :: rest, k => if k' = k then some v else alookup rest k

/-- Python `d[k] = v` for integer-valued dictionaries. -/
def aset : List (Sym × Int) → Sym → Int → List (Sym × Int)
  | [], k, v => [(k, v)]
  | (k', v') :: rest, k, v =>
      if k' = k then (k', v) :: rest else (k', v') :: aset rest k v

/-- The errors `oxidation_numbers` can raise: `NotImplementedError` when
more than one element stays undetermined, `IndexError` from `left[0]`
when none does, `ValueError` from a second `list.remove` of the same
symbol, the provider's error for an unknown symbol (also an
`IndexError` in pandas), and `ZeroDivisionError` for a zero occurrence
count. -/
inductive OxErr
  | notImpl
  | index
  | value
  | lookupFail
  | zeroDiv
  deriving DecidableEq, Repr

/-- The fixed-oxidation-state `table = {"F": -1, "O": -2}`. -/
def oxTable : List (Sym × Int) := [(['F'], -1), (['O'], -2)]

/-- The assignment loop of `oxidation_numbers`: fixed states for F/O,
then group numbers below 3; assigned symbols are removed from `left`. -/
def oxLoop : List Sym → List (Sym × Int) → List Sym →
    Except OxErr (List (Sym × Int) × List Sym)
  | [], ox, left => .ok (ox, left)
  | sym :: rest, ox, left =>
      let st1 : Except OxErr (List (Sym × Int) × List Sym) :=
        match alookup oxTable sym with
        | some v =>
            if sym ∈ left then .ok (aset ox sym v, left.erase sym)
            else .error .value
        | none => .ok (ox, left)
      match st1 with
      | .error e => .error e
      | .ok (ox1, left1) =>
          match lookupElem sym with
          | none => .error .lookupFail
          | some p =>
              if p.Group < 3 then
                if sym ∈ left1 then oxLoop rest (aset ox1 sym p.Group) (left1.erase sym)
                else .error .value
              else oxLoop rest ox1 left1

/-- `current()`: the accumulated weighted charge of the assigned
oxidation numbers. -/
def oxCurrent (c : Compound) (ox : List (Sym × Int)) : Int :=
  ox.foldl (fun a kv => a + kv.2 * (occVal c kv.1 : Int)) 0

/-- `Compound.oxidation_numbers`.  The final solve uses Python's
`int(float_division)`, i.e. truncation toward zero (`Int.tdiv`). -/
def Compound.oxidation_numbers (c : Compound) : Except OxErr (List (Sym × Int)) :=
  if c.occurences.length = 1 then .ok []
  else
    match oxLoop (c.occurences.map (·.1)) [] (c.occurences.map (·.1)) with
    | .error e => .error e
    | .ok (ox, left) =>
        if left.length > 1 then .error .notImpl
        else
          match left with
          | [] => .error .index
          | l0 :: _ =>
              let ocnt := occVal c l0
              if ocnt = 0 then .error .zeroDiv
              else .ok (aset ox l0 ((-(oxCurrent c ox)).tdiv ocnt))

/-!
## Amount conversion and stoichiometry
-/

/-- The complete quantity mapping returned by a conversion ring. -/
structure Amounts where
  grams : Frac
  moles : Frac
  molecules : Frac
  deriving DecidableEq, Repr

/-- The recognized amount keywords. -/
inductive AmtKey
  | grams
  | moles
  | molecules
  deriving DecidableEq, Repr

def Amounts.get (a : Amounts) : AmtKey → Frac
  | .grams => a.grams
  | .moles => a.moles
  | .molecules => a.molecules

/-- Avogadro's number, `6.02214076e23`. -/
def AVOGADRO : Frac := ⟨602214076000000000000000, 1⟩

/-- Modelled from the spec: `DimensionalAnalyzer` (`chemlib.utils`, not
under `src/`) as used by `Compound.get_amounts` — a conversion ring §4.3
with edges `grams = moles * molar_mass`, `moles = molecules / N_A`,
`molecules = grams / molar_mass * N_A`; `plug` walks the cycle from the
known quantity, computing each remaining quantity from the previous one
and never recomputing the known one. -/
def Compound.get_amounts (c : Compound) (key : AmtKey) (v : Frac) : Amounts :=
  match key with
  | .grams =>
      let molecules := (v.div c.molarMass).mul AVOGADRO
      let moles := molecules.div AVOGADRO
      ⟨v, moles, molecules⟩
  | .moles =>
      let grams := v.mul c.molarMass
      let molecules := (grams.div c.molarMass).mul AVOGADRO
      ⟨grams, v, molecules⟩
  | .molecules =>
      let moles := v.div AVOGADRO
      let grams := moles.mul c.molarMass
      ⟨grams, moles, v⟩

/-- `Reaction.get_amounts(compound_number, key=v)`: balance, validate
the 1-indexed compound number against the distinct-compound list, and
propagate the index compound's moles through the coefficient ratios.
`none` is the `ValueError` for an out-of-range number (or a balance
failure). -/
def Reaction.get_amounts (r0 : Reaction) (num : Nat) (key : AmtKey) (v : Frac) :
    Option (List Amounts) :=
  (if r0.is_balanced then some r0 else r0.balanceSolve).bind (fun r =>
    let cl := r.distinctCompounds
    if num > cl.length ∨ num < 1 then none
    else
      match cl.get? (num - 1) with
      | none => none
      | some ic =>
          let freq := fun (f : List Char) => (r.compounds.map (·.formula)).count f
          let iam := ic.get_amounts key v
          let imult := freq ic.formula
          let amounts := cl.map (fun c =>
            c.get_amounts .moles
              (iam.moles.mul (Frac.div (Frac.ofInt (freq c.formula)) (Frac.ofInt imult))))
          some (amounts.set (num - 1) iam))

/-- Strict comparison of fractions (valid for positive denominators). -/
def Frac.blt (a b : Frac) : Bool := a.num * b.den < b.num * a.den

def argminAux : List Frac → Nat → Nat → Frac → Nat
  | [], _, bi, _ => bi
  | x :: rest, i, bi, bv =>
      if x.blt bv then argminAux rest (i + 1) i x
      else argminAux rest (i + 1) bi bv

/-- `np.argmin`: index of the first minimum. -/
def argminList : List Frac → Nat
  | [] => 0
  | x :: rest => argminAux rest 1 0 x

/-- `Reaction.limiting_reagent(*args, mode=...)`: balance, dedup the
reactants by formula, require one argument per distinct reactant,
convert each to moles, anchor `get_amounts` at each reactant and read
the last compound's amount under `mode`; the first minimum wins. -/
def Reaction.limiting_reagent (r0 : Reaction) (args : List Frac) (mode : AmtKey) :
    Option Compound :=
  (if r0.is_balanced then some r0 else r0.balanceSolve).bind (fun r =>
    let rs := dedupByFormula [] r.reactants
    if args.length ≠ rs.length then none
    else
      let amounts := (List.zip rs args).map (fun p => p.1.get_amounts mode p.2)
      let moles := amounts.map (·.moles)
      ((List.range args.length).mapM (fun i =>
          r.get_amounts (i + 1) .moles ((moles.get? i).getD (Frac.ofInt 0)))).bind
        (fun eqs =>
          let data := eqs.map (fun a =>
            ((a.getLast?).map (fun am => am.get mode)).getD (Frac.ofInt 0))
          rs.get? (argminList data)))

/-!
## `Reaction.equilibrium_concentrations`
-/

/-- Positivity of a fraction, in a form valid for any nonzero
denominator: `0 < n/d` iff `0 < n*d`. -/
def Frac.gtZero (a : Frac) : Bool := 0 < a.num * a.den

/-- Index of the last known entry (the source's `chosen` loop keeps
overwriting). -/
def findLastSome (l : List (Option Frac)) : Option Nat :=
  l.enum.foldl (fun acc p => if p.2.isSome then some p.1 else acc) none

/-- The concentration the resolution loop assigns to constituent `i`:
the original ending value at the anchor, and
`starting + change * (coeff_i / coeff_anchor) * side * direction`
elsewhere. -/
def Reaction.resolvedVal (r : Reaction) (starting ending : List (Option Frac))
    (ch : Nat) (change mult : Frac) (chCoef : Nat) (i : Nat) : Option Frac :=
  match r.constituents.get? i with
  | none => none
  | some cmpd =>
      if i = ch then (ending.get? i).bind id
      else
        match (starting.get? i).bind id with
        | none => none
        | some si =>
            some (si.add (((change.mul
              (Frac.div (Frac.ofInt (r.coeffOf cmpd)) (Frac.ofInt chCoef))).mul
              (if cmpd ∈ r.reactant_formulas then Frac.ofInt (-1)
               else Frac.ofInt 1)).mul mult))

/-- One step of the resolution/Kc loop of
`equilibrium_concentrations`. -/
def eqStep (r : Reaction) (starting ending : List (Option Frac)) (ch : Nat)
    (change mult : Frac) (chCoef : Nat) :
    Option (List Frac × Frac) → Nat → Option (List Frac × Frac)
  | none, _ => none
  | some (acc, kc), i =>
      match r.constituents.get? i with
      | none => none
      | some cmpd =>
          match r.resolvedVal starting ending ch change mult chCoef i with
          | none => none
          | some val =>
              let pw := val.pow (r.coeffOf cmpd)
              if cmpd ∈ r.reactant_formulas then
                if pw.isZero then none else some (acc ++ [val], kc.mul pw.inv)
              else some (acc ++ [val], kc.mul pw)

/-- `Reaction.equilibrium_concentrations(starting, ending)`: the
resolved per-constituent concentrations and `Kc`.  `none` is any raised
error (length mismatch, missing data, out-of-range index, or a zero
reactant concentration in the Kc product). -/
def Reaction.equilibrium_concentrations (r0 : Reaction)
    (starting ending : List (Option Frac)) :
    Option (List ((List Char) × Frac) × Frac) :=
  (if r0.is_balanced then some r0 else r0.balanceSolve).bind (fun r =>
    if starting.length ≠ ending.length ∧ ending.length ≠ r.constituents.length then
      none
    else if starting.any (·.isNone) then none
    else if ending.all (·.isNone) then none
    else
      match findLastSome ending with
      | none => none
      | some ch =>
          match (ending.get? ch).bind id, (starting.get? ch).bind id,
              r.constituents.get? ch with
          | some ec, some sc, some chCmpd =>
              let change := ec.sub sc
              let mult : Frac := if change.gtZero then Frac.ofInt 1
                else Frac.ofInt (-1)
              let chCoef := r.coeffOf chCmpd
              match (List.range ending.length).foldl
                  (eqStep r starting ending ch change mult chCoef)
                  (some ([], Frac.ofInt 1)) with
              | none => none
              | some (ne, kc) => some (r.constituents.zip ne, kc)
          | _, _, _ => none)

/-!
## Concrete objects used by the claim theorems
-/

/-- `Compound("H2")`. -/
def cH2 : Compound := ⟨[(['H'], 2)], ['H', '₂'], 1⟩

/-- `Compound("O2")`. -/
def cO2 : Compound := ⟨[(['O'], 2)], ['O', '₂'], 1⟩

/-- `Compound("H2O")`. -/
def cH2O : Compound := ⟨[(['H'], 2), (['O'], 1)], ['H', '₂', 'O', '₁'], 1⟩

/-- `Compound("O")`. -/
def cO1 : Compound := ⟨[(['O'], 1)], ['O', '₁'], 1⟩

/-- `Compound("OF2")`. -/
def cOF2 : Compound := ⟨[(['O'], 1), (['F'], 2)], ['O', '₁', 'F', '₂'], 1⟩

/-- `Compound("CO2")`. -/
def cCO2 : Compound := ⟨[(['C'], 1), (['O'], 2)], ['C', '₁', 'O', '₂'], 1⟩

/-- `Compound("Fe3O4")` (magnetite, a genuine mixed-valence compound). -/
def cFe3O4 : Compound := ⟨[(['F', 'e'], 3), (['O'], 4)], ['F', 'e', '₃', 'O', '₄'], 1⟩

/-- `Compound("I2")`. -/
def cI2 : Compound := ⟨[(['I'], 2)], ['I', '₂'], 1⟩

/-- `Compound("HI")`. -/
def cHI : Compound := ⟨[(['H'], 1), (['I'], 1)], ['H', '₁', 'I', '₁'], 1⟩

/-- The reaction of `Reaction.by_formula("H2 + I2 --> HI")` after
`balance()`: `H₂ + I₂ --> 2 HI`. -/
def rHI : Reaction := ⟨[cH2, cI2], [cHI, cHI]⟩

/-- The already-balanced reaction `2 H₂ + O₂ --> 2 H₂O`. -/
def rHHO : Reaction := ⟨[cH2, cH2, cO2], [cH2O, cH2O]⟩

/-- `rHHO` with its two distinct reactants swapped (`O₂` first). -/
def rOHH : Reaction := ⟨[cO2, cH2, cH2], [cH2O, cH2O]⟩

/-- The reaction of `Reaction.by_formula("H2O + H2 > O")`: its
conservation system has a single free variable but a mixed-sign kernel
vector. -/
def rMixed : Reaction := ⟨[cH2O, cH2], [cO1]⟩

/-!
## Claim C10
-/

/-- A symbol receives a fixed oxidation state from the built-in rules:
it is known to the element provider and either listed in the F/O table
or in a group below 3. -/
def oxAutoAssigned (k : Sym) : Prop :=
  (lookupElem k).isSome ∧ ((alookup oxTable k).isSome ∨ (elemProps k).Group < 3)

instance (k : Sym) : Decidable (oxAutoAssigned k) :=
  inferInstanceAs (Decidable (_ ∧ (_ ∨ _)))

/-!
## Claim C8
-/

/-- The weighted sum of a compound's assigned oxidation numbers:
occurrence count times assigned number, summed over all elements. -/
def oxWeightedSum (c : Compound) (m : List (Sym × Int)) : Int :=
  c.occurences.foldl (fun a kv => a + (kv.2 : Int) * ((alookup m kv.1).getD 0)) 0

/-- Weighted sum of an integer-valued function over a count dictionary. -/
def wsumList (l : Dict) (f : Sym → Int) : Int :=
  l.foldl (fun a kv => a + (kv.2 : Int) * f kv.1) 0

/-- Weighted sum over an integer association list. -/
def isumList (l : List (Sym × Int)) (f : Sym → Int) : Int :=
  l.foldl (fun a kv => a + kv.2 * f kv.1) 0

/-- A dictionary's value with default 0. -/
def dictVal (d : Dict) (k : Sym) : Nat := (dictGet? d k).getD 0

/-!
## Claim C4: character classes and parser invariants
-/

/-- A string matched by the element-token class `[A-Z][a-z]?`. -/
def validSym : Sym → Bool
  | [u] => pyUpper u
  | [u, l] => pyUpper u && pyLower l
  | _ => false

/-- The well-formedness every `parse_formula` result satisfies: valid
symbols as keys, no duplicate keys. -/
def dictWF (d : Dict) : Prop :=
  (∀ k ∈ d.map (·.1), validSym k = true) ∧ (d.map (·.1)).Nodup

/-- The ten subscript digit characters. -/
def subDigits : List Char := ['₀', '₁', '₂', '₃', '₄', '₅', '₆', '₇', '₈', '₉']

/-!
## Conservation through the balancing pipeline (C1)

The RREF computation is exact Gauss–Jordan elimination, so every row
operation preserves the rational kernel of the matrix.  The lemmas
below track well-formedness (`Ok` denominators) and kernel membership
through `rrefGo`, then through the scaling/filter/padding steps of
`balanceSolve`.
-/

/-- Cross-multiplication equality test on fraction representations. -/
def Frac.eqv (a b : Frac) : Bool := decide (a.num * b.den = b.num * a.den)

/-- Row dot product against a rational assignment over the first `n`
columns. -/
def dotQ (n : Nat) (row : Row) (x : Nat → ℚ) : ℚ :=
  ∑ j in Finset.range n, (row j).toQ * x j

/-- Membership of `x` in the rational kernel of a row list. -/
def KernQ (rows : List Row) (n : Nat) (x : Nat → ℚ) : Prop :=
  ∀ row ∈ rows, dotQ n row x = 0

/-- All entries of all rows have positive denominators. -/
def RowsOk (rows : List Row) : Prop := ∀ row ∈ rows, ∀ j, (row j).Ok

/-- Row `i` of the reduced balancing matrix. -/
def Reaction.srow (r : Reaction) (i : Nat) : Row :=
  getRow (rref r.matrixOf r.distinctCompounds.length).1 i

/-- Solution entry `i`: the last-column value of reduced row `i`. -/
def Reaction.sfrac (r : Reaction) (i : Nat) : Frac :=
  r.srow i (r.distinctCompounds.length - 1)

/-- The scaled integer solution entry `i` (before `abs`). -/
def Reaction.scaledAt (r : Reaction) (i : Nat) : Int :=
  ((r.lcmOf : Int) * (r.sfrac i).num).tdiv (r.sfrac i).den

/-- The rational assignment packing the final coefficient list. -/
def Reaction.xQ (r : Reaction) (j : Nat) : ℚ :=
  (((r.finOf.get? j).getD 0 : Nat) : ℚ)

/-- The single-free-variable assumption on the computed RREF: with `n`
distinct compounds, the reduced matrix consists of `n - 1` identity
rows over the first `n - 1` columns (each with an arbitrary
free-variable entry in the last column) followed by all-zero rows. -/
def Reaction.sfvShape (r : Reaction) : Bool :=
  let n := r.distinctCompounds.length
  let R := (rref r.matrixOf n).1
  decide (1 ≤ n) && decide (n - 1 ≤ R.length) &&
    ((List.range (n - 1)).all (fun i =>
      (List.range n).all (fun j =>
        if j = i then (getRow R i j).eqv (Frac.ofInt 1)
        else if j = n - 1 then true
        else (getRow R i j).eqv (Frac.ofInt 0)))) &&
    (((List.range R.length).drop (n - 1)).all (fun i =>
      (List.range n).all (fun j => (getRow R i j).eqv (Frac.ofInt 0))))

/-- Sign coherence of the solution column: every entry is nonpositive,
so taking absolute values after scaling does not destroy the kernel
relation. -/
def Reaction.sfvSignOk (r : Reaction) : Bool :=
  let n := r.distinctCompounds.length
  let R := (rref r.matrixOf n).1
  (List.range R.length).all (fun i =>
    decide ((getRow R i (n - 1)).num * (getRow R i (n - 1)).den ≤ 0))

/-- The reaction H2O + H2 --> O used to refute C1 as stated, and the
well-balanced water synthesis used for the C1 witness. -/
def rWater : Reaction := ⟨[cH2, cO2], [cH2O]⟩

def rBal : Reaction := ⟨[cH2, cH2, cO2], [cH2O, cH2O]⟩

/-!
## Idempotence of `balance` (C5)

Rebuilding the reaction from the distinct compounds with positive
coefficients leaves the distinct-compound list, the seen-symbol list
and the side membership of every distinct compound unchanged, so a
second `balance` recomputes exactly the same pipeline.
-/

/-- The seen-accumulator after one pass of `dedupAcc`. -/
def accAfter [DecidableEq α] (seen : List α) : List α → List α
  | [] => seen
  | x :: rest => if x ∈ seen then accAfter seen rest else accAfter (x :: seen) rest

/-- The seen-formulas accumulator after one pass of `dedupByFormula`. -/
def formAfter (seen : List (List Char)) : List Compound → List (List Char)
  | [] => seen
  | c :: rest =>
      if c.formula ∈ seen then formAfter seen rest
      else formAfter (c.formula :: seen) rest

/-- The reaction rebuilt by `balanceSolve` from the solved
coefficients. -/
def Reaction.rebuilt (r : Reaction) : Reaction :=
  ⟨(((r.distinctCompounds.zip r.finOf).filter
      (fun pc => pc.1.formula ∈ r.reactant_formulas)).map
    (fun pc => List.replicate pc.2 pc.1)).flatten,
   (((r.distinctCompounds.zip r.finOf).filter
      (fun pc => pc.1.formula ∈ r.product_formulas)).map
    (fun pc => List.replicate pc.2 pc.1)).flatten⟩

/-!
## Limiting-reagent reordering (C7)
-/

/-- Transposition of two indices. -/
def swapIdx (p q i : Nat) : Nat := if i = p then q else if i = q then p else i

/-- The amounts list computed by a successful `Reaction.get_amounts`. -/
def Reaction.gaList (r : Reaction) (num : Nat) (key : AmtKey) (v : Frac) :
    List Amounts :=
  match r.distinctCompounds.get? (num - 1) with
  | none => []
  | some ic =>
      ((r.distinctCompounds.map (fun c => c.get_amounts AmtKey.moles
        (((ic.get_amounts key v).moles).mul (Frac.div
          (Frac.ofInt ((r.compounds.map (fun c => c.formula)).count c.formula))
          (Frac.ofInt
            ((r.compounds.map (fun c => c.formula)).count ic.formula)))))).set
        (num - 1) (ic.get_amounts key v))

/-- The scalar read off for one anchor index by `limiting_reagent`:
the last distinct compound's amount under `mode` when `get_amounts` is
anchored at index `i` with `v` moles. -/
def Reaction.lrDatum (r : Reaction) (mode : AmtKey) (i : Nat) (v : Frac) :
    Frac :=
  ((r.get_amounts (i + 1) AmtKey.moles v).bind
    (fun a => (a.getLast?).map (fun am => am.get mode))).getD (Frac.ofInt 0)

/-- The comparison vector of `limiting_reagent`. -/
def Reaction.lrData (r : Reaction) (args : List Frac) (mode : AmtKey) :
    List Frac :=
  (List.range args.length).map (fun i =>
    r.lrDatum mode i
      (((((List.zip (dedupByFormula [] r.reactants) args).map
        (fun p => p.1.get_amounts mode p.2)).map
          (fun a => a.moles)).get? i).getD (Frac.ofInt 0)))

/-! ## Theorems -/

theorem Frac.toQ_ofInt (n : Int) : (Frac.ofInt n).toQ = (n : ℚ) := by
  simp [Frac.ofInt, Frac.toQ]

theorem Frac.Ok.ofInt (n : Int) : (Frac.ofInt n).Ok := by
  simp [Frac.ofInt, Frac.Ok]

theorem Frac.Ok.add {a b : Frac} (ha : a.Ok) (hb : b.Ok) : (a.add b).Ok :=
  mul_pos ha hb

theorem Frac.Ok.mul {a b : Frac} (ha : a.Ok) (hb : b.Ok) : (a.mul b).Ok :=
  mul_pos ha hb

theorem Frac.Ok.neg {a : Frac} (ha : a.Ok) : a.neg.Ok := ha

theorem Frac.Ok.sub {a b : Frac} (ha : a.Ok) (hb : b.Ok) : (a.sub b).Ok :=
  ha.add hb.neg

theorem Frac.Ok.inv {a : Frac} (ha : a.Ok) (hz : a.num ≠ 0) : a.inv.Ok := by
  unfold Frac.inv Frac.Ok
  rcases lt_trichotomy a.num 0 with h | h | h
  · rw [if_pos h]
    show (0 : Int) < -a.num
    omega
  · exact absurd h hz
  · rw [if_neg (not_lt.mpr (le_of_lt h))]
    exact h

theorem Frac.Ok.div {a b : Frac} (ha : a.Ok) (hb : b.Ok) (hz : b.num ≠ 0) :
    (a.div b).Ok := ha.mul (hb.inv hz)

theorem Frac.Ok.pow {a : Frac} (ha : a.Ok) (n : Nat) : (a.pow n).Ok := by
  induction n with
  | zero => exact Frac.Ok.ofInt 1
  | succ n ih => exact ih.mul ha

theorem Frac.toQ_add {a b : Frac} (ha : a.Ok) (hb : b.Ok) :
    (a.add b).toQ = a.toQ + b.toQ := by
  unfold Frac.add Frac.toQ
  have ha' : (a.den : ℚ) ≠ 0 := Int.cast_ne_zero.mpr (ne_of_gt ha)
  have hb' : (b.den : ℚ) ≠ 0 := Int.cast_ne_zero.mpr (ne_of_gt hb)
  rw [div_add_div _ _ ha' hb']
  push_cast
  ring_nf

theorem Frac.toQ_mul (a b : Frac) : (a.mul b).toQ = a.toQ * b.toQ := by
  unfold Frac.mul Frac.toQ
  rw [div_mul_div_comm]
  push_cast
  ring_nf

theorem Frac.toQ_neg (a : Frac) : a.neg.toQ = -a.toQ := by
  unfold Frac.neg Frac.toQ
  push_cast
  ring

theorem Frac.toQ_sub {a b : Frac} (ha : a.Ok) (hb : b.Ok) :
    (a.sub b).toQ = a.toQ - b.toQ := by
  unfold Frac.sub
  rw [Frac.toQ_add ha hb.neg, Frac.toQ_neg]
  ring

theorem Frac.toQ_inv (a : Frac) : a.inv.toQ = a.toQ⁻¹ := by
  obtain ⟨n, d⟩ := a
  by_cases h : n < 0
  · rw [Frac.inv, if_pos h]
    simp only [Frac.toQ]
    push_cast
    rw [inv_div, neg_div_neg_eq]
  · rw [Frac.inv, if_neg h]
    simp only [Frac.toQ]
    rw [inv_div]

theorem Frac.toQ_div {a b : Frac} (ha : a.Ok) (hb : b.Ok) (hz : b.num ≠ 0) :
    (a.div b).toQ = a.toQ / b.toQ := by
  unfold Frac.div
  rw [Frac.toQ_mul, Frac.toQ_inv, div_eq_mul_inv]

theorem Frac.toQ_eq_zero {a : Frac} (ha : a.Ok) : a.toQ = 0 ↔ a.num = 0 := by
  unfold Frac.toQ
  constructor
  · intro h
    have hd : (a.den : ℚ) ≠ 0 := Int.cast_ne_zero.mpr (ne_of_gt ha)
    have := div_eq_zero_iff.mp h
    rcases this with h1 | h1
    · exact_mod_cast h1
    · exact absurd h1 hd
  · intro h; rw [h]; simp

theorem Frac.toQ_pos {a : Frac} (ha : a.Ok) : 0 < a.toQ ↔ 0 < a.num := by
  unfold Frac.toQ
  rw [div_pos_iff]
  constructor
  · rintro (⟨h1, _⟩ | ⟨_, h2⟩)
    · exact_mod_cast h1
    · exact absurd (Int.cast_pos.mpr ha) (not_lt.mpr (le_of_lt h2))
  · intro h
    exact Or.inl ⟨by exact_mod_cast h, Int.cast_pos.mpr ha⟩

theorem Frac.toQ_pow {a : Frac} (n : Nat) : (a.pow n).toQ = a.toQ ^ n := by
  induction n with
  | zero => simp [Frac.pow, Frac.toQ_ofInt]
  | succ n ih => rw [Frac.pow, Frac.toQ_mul, ih, pow_succ]

theorem splitAtRParen_lengths {s int' aft : List Char}
    (h : splitAtRParen s = some (int', aft)) :
    int'.length < s.length ∧ aft.length < s.length := by
  induction s generalizing int' aft with
  | nil => simp [splitAtRParen] at h
  | cons c rest ih =>
      unfold splitAtRParen at h
      by_cases hc : c = ')'
      · rw [if_pos hc] at h
        cases h
        simp
      · rw [if_neg hc] at h
        cases hr : splitAtRParen rest with
        | none => rw [hr] at h; cases h
        | some p =>
            obtain ⟨i2, a2⟩ := p
            rw [hr] at h
            cases h
            obtain ⟨h1, h2⟩ := ih hr
            constructor
            · simpa using h1
            · simp
              omega

theorem takeDigitsRun_length (s : List Char) :
    (takeDigitsRun s).2.length ≤ s.length := by
  induction s with
  | nil => simp [takeDigitsRun]
  | cons c rest ih =>
      unfold takeDigitsRun
      by_cases hc : pyDigit c
      · simp only [hc, if_true]
        calc (takeDigitsRun rest).2.length ≤ rest.length := ih
          _ ≤ (c :: rest).length := by simp
      · simp [hc]

theorem afterUpper_length (u : Char) (s : List Char) :
    (afterUpper u s).2.length ≤ s.length := by
  cases s with
  | nil => simp [afterUpper]
  | cons c rest =>
      unfold afterUpper
      by_cases hc : pyLower c
      · simp [hc]
      · simp [hc]

theorem takeRParen_length (s : List Char) :
    (takeRParen s).2.length ≤ s.length := by
  cases s with
  | nil => simp [takeRParen]
  | cons c rest =>
      unfold takeRParen
      by_cases h : c = ')' <;> simp [h]

theorem rMixed_reachable :
    Reaction.by_formula "H2O + H2 > O".toList = some rMixed := by rfl

theorem rHI_reachable :
    (Reaction.by_formula "H2 + I2 --> HI".toList).bind Reaction.balance =
      some rHI := by rfl

/-!
## Claim C2
-/

/-- C2. The spec says the counts of parenthesized groups sharing a
symbol are merged by summation; the code merges them with
`dict.update`, which overwrites.  On `"(OH)2(OH)3"` the summed counts
would be `{O: 5, H: 5}`; the code returns the last group's multiplied
counts `{O: 3, H: 3}` (the REST pass of the same function does sum
repeated top-level symbols, so the spec describes the intent and the
`update` is the slip). -/
theorem claim_C2 :
    parse_formula "(OH)2(OH)3".toList = [(['O'], 3), (['H'], 3)] := by decide

/-!
## Claim C3
-/

/-- C3. Balancing `Reaction.by_formula("H2 + O2 > H2O")` yields the
reactant sequence `[H₂, H₂, O₂]` and product sequence `[H₂O, H₂O]`:
coefficients `{H2: 2, O2: 1}` and `{H2O: 2}` as occurrence counts in
the rebuilt sequences. -/
theorem claim_C3 :
    (Reaction.by_formula "H2 + O2 > H2O".toList).bind Reaction.balance =
        some ⟨[cH2, cH2, cO2], [cH2O, cH2O]⟩ ∧
      [cH2, cH2, cO2].count cH2 = 2 ∧ [cH2, cH2, cO2].count cO2 = 1 ∧
      [cH2O, cH2O].count cH2O = 2 := by
  refine ⟨by rfl, by decide, by decide, by decide⟩

/-!
## Claim C6
-/

/-- C6. The spec says `coefficient` is the leading integer multiplier of
the original formula string (2 for `"2H2O"`); the code reads the digit
test off the rebuilt subscript-rendered formula, which always starts
with an element symbol, so the coefficient is always 1 (and the digit
branch would raise `TypeError` — `int` of a match object — if it could
fire).  At the failing input `"2H2O"` the constructed coefficient is 1,
not 2. -/
theorem claim_C6 :
    (Compound.make "2H2O".toList).map (·.coefficient) = some 1 ∧
      (Compound.make "2H2O".toList).map (·.occurences) =
        some [(['H'], 2), (['O'], 1)] := by
  exact ⟨by rfl, by rfl⟩

theorem alookup_oxTable {sym : Sym} {v : Int} (h : alookup oxTable sym = some v) :
    (sym = ['F'] ∧ v = -1) ∨ (sym = ['O'] ∧ v = -2) := by
  by_cases hF : sym = ['F']
  · subst hF
    simp [oxTable, alookup] at h
    exact Or.inl ⟨rfl, h.symm⟩
  · by_cases hO : sym = ['O']
    · subst hO
      simp [oxTable, alookup] at h
      exact Or.inr ⟨rfl, h.symm⟩
    · exfalso
      simp only [oxTable, alookup] at h
      rw [if_neg (fun he => hF he.symm), if_neg (fun he => hO he.symm)] at h
      cases h

/-- When every processed symbol is auto-assignable and still pending,
the assignment loop succeeds and removes exactly the processed symbols
from `left`. -/
theorem oxLoop_empties :
    ∀ (l : List Sym) (ox : List (Sym × Int)) (left : List Sym),
    l.Nodup → left.Nodup → (∀ s ∈ l, s ∈ left) → (∀ s ∈ l, oxAutoAssigned s) →
    ∃ ox', oxLoop l ox left = .ok (ox', left.filter (fun s => !(l.contains s)))
  | [], ox, left, _, _, _, _ => by
      refine ⟨ox, ?_⟩
      simp [oxLoop]
  | sym :: rest, ox, left, hnd, hlnd, hsub, hauto => by
      have hsym : sym ∈ left := hsub sym (by simp)
      have hsymauto := hauto sym (by simp)
      obtain ⟨p, hp⟩ := Option.isSome_iff_exists.mp hsymauto.1
      have hrestnd : rest.Nodup := hnd.of_cons
      have hsymrest : sym ∉ rest := by
        intro hmem
        exact (List.nodup_cons.mp hnd).1 hmem
      have hsubrest : ∀ s ∈ rest, s ∈ left.erase sym := by
        intro s hs
        refine List.mem_erase_of_ne ?_ |>.mpr (hsub s (by simp [hs]))
        intro he
        exact hsymrest (he ▸ hs)
      have hlnd' : (left.erase sym).Nodup := hlnd.erase sym
      have hautorest : ∀ s ∈ rest, oxAutoAssigned s :=
        fun s hs => hauto s (by simp [hs])
      have hfilter : ∀ tail : List Sym,
          (left.erase sym).filter (fun s => !(tail.contains s)) =
            left.filter (fun s => !((sym :: tail).contains s)) := by
        intro tail
        rw [hlnd.erase_eq_filter sym, List.filter_filter]
        apply List.filter_congr
        intro x _
        by_cases hx : x = sym
        · subst hx
          simp
        · simp [hx, Ne.symm]
      cases htbl : alookup oxTable sym with
      | some v =>
          have hgroup : ¬ p.Group < 3 := by
            rcases alookup_oxTable htbl with ⟨hs, _⟩ | ⟨hs, _⟩
            · subst hs
              have he : lookupElem ['F'] = some ⟨⟨18998, 1000⟩, 17⟩ := by rfl
              rw [he] at hp
              have hpe := Option.some.inj hp
              subst hpe
              decide
            · subst hs
              have he : lookupElem ['O'] = some ⟨⟨15999, 1000⟩, 16⟩ := by rfl
              rw [he] at hp
              have hpe := Option.some.inj hp
              subst hpe
              decide
          obtain ⟨ox', hox'⟩ := oxLoop_empties rest (aset ox sym v) (left.erase sym)
            hrestnd hlnd' hsubrest hautorest
          refine ⟨ox', ?_⟩
          unfold oxLoop
          rw [htbl]
          simp only [hsym, if_true, hp]
          rw [if_neg hgroup, hox', hfilter]
      | none =>
          have hgroup : p.Group < 3 := by
            rcases hsymauto.2 with h | h
            · rw [htbl] at h
              cases h
            · rw [elemProps, lookupElem] at h
              rw [lookupElem] at hp
              rw [hp] at h
              exact h
          obtain ⟨ox', hox'⟩ := oxLoop_empties rest (aset ox sym p.Group) (left.erase sym)
            hrestnd hlnd' hsubrest hautorest
          refine ⟨ox', ?_⟩
          unfold oxLoop
          rw [htbl]
          simp only [hp]
          rw [if_pos hgroup]
          simp only [hsym, if_true]
          rw [hox', hfilter]

/-- C10. For a compound with more than one distinct element in which
every element receives a fixed oxidation state from the built-in rules
(F ↦ −1, O ↦ −2, or group number < 3), no element remains undetermined
and `oxidation_numbers` raises `IndexError` (`left[0]` on an empty
list) instead of returning the assigned map. -/
theorem claim_C10 (c : Compound)
    (hn : 1 < c.occurences.length)
    (hnodup : (c.occurences.map (·.1)).Nodup)
    (hauto : ∀ kv ∈ c.occurences, oxAutoAssigned kv.1) :
    c.oxidation_numbers = .error .index := by
  unfold Compound.oxidation_numbers
  rw [if_neg (by omega)]
  have hauto' : ∀ s ∈ c.occurences.map (·.1), oxAutoAssigned s := by
    intro s hs
    obtain ⟨kv, hkv, hkve⟩ := List.mem_map.mp hs
    exact hkve ▸ hauto kv hkv
  obtain ⟨ox', hox⟩ := oxLoop_empties (c.occurences.map (·.1)) []
    (c.occurences.map (·.1)) hnodup hnodup (fun s h => h) hauto'
  rw [hox]
  have hnil : (c.occurences.map (·.1)).filter
      (fun s => !((c.occurences.map (·.1)).contains s)) = [] := by
    apply List.filter_eq_nil.mpr
    intro x hx
    simp [hx]
  rw [hnil]
  simp

/-- Witness for C10 at `Compound("OF2")`. -/
theorem claim_C10_witness :
    1 < cOF2.occurences.length ∧ cOF2.oxidation_numbers = .error .index :=
  ⟨by decide, claim_C10 cOF2 (by decide) (by decide) (by decide)⟩

theorem alookup_aset (d : List (Sym × Int)) (k : Sym) (v : Int) (k' : Sym) :
    alookup (aset d k v) k' = if k = k' then some v else alookup d k' := by
  induction d with
  | nil =>
      by_cases h : k = k' <;> simp [aset, alookup, h]
  | cons kv rest ih =>
      obtain ⟨k0, v0⟩ := kv
      by_cases h0 : k0 = k
      · subst h0
        by_cases h : k0 = k' <;> simp [aset, alookup, h, ih]
      · by_cases h : k0 = k'
        · subst h
          have hkk : ¬ k = k0 := fun he => h0 he.symm
          simp [aset, alookup, h0, hkk]
        · simp [aset, alookup, h0, h, ih]

theorem dictGet?_isSome (d : Dict) (k : Sym) :
    (dictGet? d k).isSome ↔ k ∈ d.map (·.1) := by
  induction d with
  | nil => simp [dictGet?]
  | cons kv rest ih =>
      by_cases h : kv.1 = k
      · simp [dictGet?, h]
      · simp only [dictGet?, if_neg h, List.map_cons, List.mem_cons]
        rw [ih]
        constructor
        · exact Or.inr
        · rintro (he | hm)
          · exact absurd he.symm h
          · exact hm

theorem alookup_isSome (d : List (Sym × Int)) (k : Sym) :
    (alookup d k).isSome ↔ k ∈ d.map (·.1) := by
  induction d with
  | nil => simp [alookup]
  | cons kv rest ih =>
      by_cases h : kv.1 = k
      · simp [alookup, h]
      · simp only [alookup, if_neg h, List.map_cons, List.mem_cons]
        rw [ih]
        constructor
        · exact Or.inr
        · rintro (he | hm)
          · exact absurd he.symm h
          · exact hm

theorem foldl_add_init (l : List α) (g : α → Int) (i : Int) :
    l.foldl (fun a x => a + g x) i = i + l.foldl (fun a x => a + g x) 0 := by
  induction l generalizing i with
  | nil => simp
  | cons x rest ih =>
      simp only [List.foldl_cons]
      rw [ih (i + g x), ih (0 + g x)]
      ring

theorem wsumList_cons (kv : Sym × Nat) (l : Dict) (f : Sym → Int) :
    wsumList (kv :: l) f = (kv.2 : Int) * f kv.1 + wsumList l f := by
  unfold wsumList
  simp only [List.foldl_cons]
  rw [foldl_add_init (i := 0 + (kv.2 : Int) * f kv.1)]
  ring_nf

theorem isumList_cons (kv : Sym × Int) (l : List (Sym × Int)) (f : Sym → Int) :
    isumList (kv :: l) f = kv.2 * f kv.1 + isumList l f := by
  unfold isumList
  simp only [List.foldl_cons]
  rw [foldl_add_init (i := 0 + kv.2 * f kv.1)]
  ring_nf

theorem wsumList_congr (l : Dict) (f g : Sym → Int)
    (h : ∀ k ∈ l.map (·.1), f k = g k) : wsumList l f = wsumList l g := by
  induction l with
  | nil => rfl
  | cons kv rest ih =>
      rw [wsumList_cons, wsumList_cons, h kv.1 (by simp),
        ih (fun k hk => h k (by simp [hk]))]

theorem wsumList_zero (l : Dict) : wsumList l (fun _ => 0) = 0 := by
  induction l with
  | nil => rfl
  | cons kv rest ih => rw [wsumList_cons, ih]; ring

/-- Splitting a weighted sum at a key occurring exactly once. -/
theorem wsumList_split (l : Dict) (k0 : Sym) (q : Int) (g : Sym → Int)
    (hnd : (l.map (·.1)).Nodup) (hmem : k0 ∈ l.map (·.1)) :
    wsumList l (fun k => if k0 = k then q else g k) =
      wsumList l (fun k => if k0 = k then 0 else g k) + (dictVal l k0 : Int) * q := by
  induction l with
  | nil => simp at hmem
  | cons kv rest ih =>
      have hnd' : (rest.map (·.1)).Nodup := (List.nodup_cons.mp hnd).2
      by_cases h : kv.1 = k0
      · have hk0 : k0 ∉ rest.map (·.1) := h ▸ (List.nodup_cons.mp hnd).1
        rw [wsumList_cons, wsumList_cons]
        have hc : wsumList rest (fun k => if k0 = k then q else g k) =
            wsumList rest (fun k => if k0 = k then 0 else g k) := by
          apply wsumList_congr
          intro k hk
          have : k0 ≠ k := fun he => hk0 (he ▸ hk)
          simp [this]
        rw [hc]
        have hv : dictVal (kv :: rest) k0 = kv.2 := by
          simp [dictVal, dictGet?, h]
        rw [hv, if_pos h.symm, if_pos h.symm]
        ring
      · have hmem' : k0 ∈ rest.map (·.1) := by
          rcases List.mem_cons.mp hmem with he | hm
          · exact absurd he.symm h
          · exact hm
        rw [wsumList_cons, wsumList_cons, ih hnd' hmem']
        have hv : dictVal (kv :: rest) k0 = dictVal rest k0 := by
          simp [dictVal, dictGet?, h]
        have hne : ¬ k0 = kv.1 := fun he => h he.symm
        rw [hv, if_neg hne, if_neg hne]
        ring

/-- The weighted sum of looked-up assignments equals the assignment
loop's accumulated charge. -/
theorem wsum_lookup_eq_isum (l : Dict) :
    ∀ (ox : List (Sym × Int)),
    (l.map (·.1)).Nodup → ((ox.map (·.1)).Nodup) →
    (∀ kv ∈ ox, kv.1 ∈ l.map (·.1)) →
    wsumList l (fun k => (alookup ox k).getD 0) =
      isumList ox (fun k => (dictVal l k : Int))
  | [], hld, _, _ => by
      rw [wsumList_congr l _ (fun _ => 0) (fun k _ => by simp [alookup]),
        wsumList_zero]
      rfl
  | (k0, v0) :: ox', hld, hoxnd, hoxsub => by
      have hk0 : k0 ∉ ox'.map (·.1) := (List.nodup_cons.mp (by exact hoxnd)).1
      have hox'nd : (ox'.map (·.1)).Nodup := (List.nodup_cons.mp (by exact hoxnd)).2
      have hmem : k0 ∈ l.map (·.1) := hoxsub (k0, v0) (by simp)
      have hstep : wsumList l (fun k => (alookup ((k0, v0) :: ox') k).getD 0) =
          wsumList l (fun k => if k0 = k then v0 else (alookup ox' k).getD 0) := by
        apply wsumList_congr
        intro k _
        by_cases h : k0 = k <;> simp [alookup, h]
      rw [hstep, wsumList_split l k0 v0 _ hld hmem]
      have hzero : wsumList l (fun k => if k0 = k then 0 else (alookup ox' k).getD 0) =
          wsumList l (fun k => (alookup ox' k).getD 0) := by
        apply wsumList_congr
        intro k _
        by_cases h : k0 = k
        · subst h
          have : alookup ox' k0 = none := by
            cases ha : alookup ox' k0 with
            | none => rfl
            | some v =>
                exfalso
                exact hk0 ((alookup_isSome ox' k0).mp (by rw [ha]; rfl))
          simp [this]
        · rw [if_neg h]
      rw [hzero, wsum_lookup_eq_isum l ox' hld hox'nd
        (fun kv hkv => hoxsub kv (by simp [hkv])), isumList_cons]
      ring

theorem aset_keys_nodup (d : List (Sym × Int)) (k : Sym) (v : Int)
    (h : (d.map (·.1)).Nodup) : ((aset d k v).map (·.1)).Nodup := by
  induction d with
  | nil => simp [aset]
  | cons kv rest ih =>
      by_cases hk : kv.1 = k
      · simpa [aset, hk] using h
      · have h' := List.nodup_cons.mp h
        have hmem : kv.1 ∉ (aset rest k v).map (·.1) := by
          intro hmem
          rcases Option.isSome_iff_exists.mp ((alookup_isSome _ _).mpr hmem)
            with ⟨w, hw⟩
          rw [alookup_aset] at hw
          rw [if_neg (fun he => hk he.symm)] at hw
          exact h'.1 ((alookup_isSome _ _).mp (by rw [hw]; rfl))
        simpa [aset, hk] using List.nodup_cons.mpr ⟨hmem, ih h'.2⟩

/-- The `oxLoop` success invariants used by claim C8: pending symbols
are never assigned, assignments only cover processed symbols, and key
nodup-ness is preserved. -/
theorem oxLoop_ok_inv :
    ∀ (l : List Sym) (ox : List (Sym × Int)) (left : List Sym)
      (ox' : List (Sym × Int)) (left' : List Sym),
    oxLoop l ox left = .ok (ox', left') →
    left.Nodup → (∀ s ∈ left, alookup ox s = none) →
    ( (∀ s ∈ left', s ∈ left ∧ alookup ox' s = none) ∧
      (∀ k v, alookup ox' k = some v → (alookup ox k = some v ∨ k ∈ l)) ∧
      ((ox.map (·.1)).Nodup → (ox'.map (·.1)).Nodup) ∧ left'.Nodup )
  | [], ox, left, ox', left', h, hlnd, hnone => by
      simp only [oxLoop, Except.ok.injEq, Prod.mk.injEq] at h
      obtain ⟨h1, h2⟩ := h
      subst h1
      subst h2
      exact ⟨fun s hs => ⟨hs, hnone s hs⟩, fun k v hk => Or.inl hk,
        fun hx => hx, hlnd⟩
  | sym :: rest, ox, left, ox', left', h, hlnd, hnone => by
      have hstep : ∀ (ox1 : List (Sym × Int)),
          oxLoop rest ox1 (left.erase sym) = .ok (ox', left') →
          (∀ s ∈ left.erase sym, alookup ox1 s = none) →
          (∀ k v, alookup ox1 k = some v →
            (alookup ox k = some v ∨ k = sym)) →
          ((ox.map (·.1)).Nodup → (ox1.map (·.1)).Nodup) →
          ( (∀ s ∈ left', s ∈ left ∧ alookup ox' s = none) ∧
            (∀ k v, alookup ox' k = some v →
              (alookup ox k = some v ∨ k ∈ sym :: rest)) ∧
            ((ox.map (·.1)).Nodup → (ox'.map (·.1)).Nodup) ∧ left'.Nodup ) := by
        intro ox1 hrec hnone1 hlift hnd1
        obtain ⟨i1, i2, i3, i4⟩ := oxLoop_ok_inv rest ox1 (left.erase sym)
          ox' left' hrec (hlnd.erase sym) hnone1
        refine ⟨?_, ?_, fun hx => i3 (hnd1 hx), i4⟩
        · intro s hs
          obtain ⟨hs1, hs2⟩ := i1 s hs
          exact ⟨List.mem_of_mem_erase hs1, hs2⟩
        · intro k v hk
          rcases i2 k v hk with hk' | hk'
          · rcases hlift k v hk' with hk'' | hk''
            · exact Or.inl hk''
            · exact Or.inr (by simp [hk''])
          · exact Or.inr (by simp [hk'])
      have herase_none : ∀ (v : Int), ∀ s ∈ left.erase sym,
          alookup (aset ox sym v) s = none := by
        intro v s hs
        have hne : s ≠ sym := (hlnd.mem_erase_iff.mp hs).1
        rw [alookup_aset, if_neg (fun he => hne he.symm)]
        exact hnone s (List.mem_of_mem_erase hs)
      have hlift_aset : ∀ (w : Int), ∀ k v, alookup (aset ox sym w) k = some v →
          (alookup ox k = some v ∨ k = sym) := by
        intro w k v hk
        rw [alookup_aset] at hk
        by_cases he : sym = k
        · exact Or.inr he.symm
        · rw [if_neg he] at hk
          exact Or.inl hk
      unfold oxLoop at h
      cases htbl : alookup oxTable sym with
      | some v =>
          rw [htbl] at h
          simp only [] at h
          by_cases hmem : sym ∈ left
          · simp only [hmem, if_true] at h
            cases hel : lookupElem sym with
            | none => rw [hel] at h; simp only [] at h; cases h
            | some p =>
                rw [hel] at h
                simp only [] at h
                by_cases hgr : p.Group < 3
                · rw [if_pos hgr] at h
                  have : sym ∉ left.erase sym := by
                    intro hc
                    exact (hlnd.mem_erase_iff.mp hc).1 rfl
                  simp only [this, if_false] at h
                  cases h
                · rw [if_neg hgr] at h
                  exact hstep (aset ox sym v) h (herase_none v)
                    (hlift_aset v) (aset_keys_nodup ox sym v)
          · simp only [hmem, if_false] at h
            cases h
      | none =>
          rw [htbl] at h
          simp only [] at h
          cases hel : lookupElem sym with
          | none => rw [hel] at h; simp only [] at h; cases h
          | some p =>
              rw [hel] at h
              simp only [] at h
              by_cases hgr : p.Group < 3
              · rw [if_pos hgr] at h
                by_cases hmem : sym ∈ left
                · simp only [hmem, if_true] at h
                  exact hstep (aset ox sym p.Group) h (herase_none p.Group)
                    (hlift_aset p.Group) (aset_keys_nodup ox sym p.Group)
                · simp only [hmem, if_false] at h
                  cases h
              · rw [if_neg hgr] at h
                obtain ⟨i1, i2, i3, i4⟩ := oxLoop_ok_inv rest ox left ox' left'
                  h hlnd hnone
                exact ⟨i1, fun k v hk => (i2 k v hk).imp id (by simp +contextual),
                  i3, i4⟩

/-- C8 counterexample: the claim as stated fails on `Compound("Fe3O4")`
(magnetite).  `oxidation_numbers` assigns O ↦ −2 and then truncates
`8/3` to 2 for Fe, so the weighted sum is `3·2 + 4·(−2) = −2 ≠ 0`. -/
theorem claim_C8_counterexample :
    ¬ (∀ (c : Compound) (m : List (Sym × Int)), 1 < c.occurences.length →
        c.oxidation_numbers = .ok m → oxWeightedSum c m = 0) := by
  intro h
  have hc := h cFe3O4 [(['O'], -2), (['F', 'e'], 2)] (by decide) (by rfl)
  have : oxWeightedSum cFe3O4 [(['O'], -2), (['F', 'e'], 2)] = -2 := by decide
  rw [this] at hc
  cases hc

/-- C8 (amended).  For a compound with more than one distinct element
on which `oxidation_numbers` returns a map, the weighted sum of
oxidation number × occurrence count over all elements is zero provided
the remaining element's occurrence count divides the accumulated charge
(the code truncates the quotient with `int()`, so non-divisible systems
such as Fe₃O₄ violate the claim as stated). -/
theorem claim_C8 (c : Compound) (ox : List (Sym × Int)) (l0 : Sym)
    (m : List (Sym × Int))
    (hnodup : (c.occurences.map (·.1)).Nodup)
    (hn : c.occurences.length ≠ 1)
    (hpre : oxLoop (c.occurences.map (·.1)) [] (c.occurences.map (·.1)) =
      .ok (ox, [l0]))
    (hdvd : ((occVal c l0 : Int)) ∣ oxCurrent c ox)
    (hres : c.oxidation_numbers = .ok m) :
    oxWeightedSum c m = 0 := by
  unfold Compound.oxidation_numbers at hres
  rw [if_neg hn, hpre] at hres
  dsimp only at hres
  rw [if_neg (by simp)] at hres
  by_cases hz : occVal c l0 = 0
  · rw [if_pos hz] at hres
    cases hres
  · rw [if_neg hz] at hres
    have hm := Except.ok.inj hres
    subst hm
    obtain ⟨i1, i2, i3, _⟩ := oxLoop_ok_inv (c.occurences.map (·.1)) []
      (c.occurences.map (·.1)) ox [l0] hpre hnodup (fun s _ => rfl)
    have hl0mem : l0 ∈ c.occurences.map (·.1) := (i1 l0 (by simp)).1
    have hl0none : alookup ox l0 = none := (i1 l0 (by simp)).2
    have hoxnd : (ox.map (·.1)).Nodup := i3 (by simp)
    have hoxsub : ∀ kv ∈ ox, kv.1 ∈ c.occurences.map (·.1) := by
      intro kv hkv
      have hmem : kv.1 ∈ ox.map (·.1) := List.mem_map.mpr ⟨kv, hkv, rfl⟩
      obtain ⟨v, hv⟩ := Option.isSome_iff_exists.mp ((alookup_isSome ox kv.1).mpr hmem)
      rcases i2 kv.1 v hv with h' | h'
      · cases h'
      · exact h'
    show wsumList c.occurences
      (fun k => (alookup (aset ox l0 ((-(oxCurrent c ox)).tdiv (occVal c l0))) k).getD 0) = 0
    rw [wsumList_congr c.occurences _
      (fun k => if l0 = k then (-(oxCurrent c ox)).tdiv (occVal c l0)
        else (alookup ox k).getD 0)
      (fun k _ => by rw [alookup_aset]; by_cases hk : l0 = k <;> simp [hk])]
    rw [wsumList_split c.occurences l0 _ _ hnodup hl0mem]
    rw [wsumList_congr c.occurences _ (fun k => (alookup ox k).getD 0)
      (fun k _ => by
        by_cases hk : l0 = k
        · subst hk
          simp [hl0none]
        · rw [if_neg hk])]
    rw [wsum_lookup_eq_isum c.occurences ox hnodup hoxnd hoxsub]
    have hiso : isumList ox (fun k => (dictVal c.occurences k : Int)) =
        oxCurrent c ox := rfl
    have hdv : dictVal c.occurences l0 = occVal c l0 := rfl
    rw [hiso, hdv]
    have hdvd' : (occVal c l0 : Int) ∣ (-(oxCurrent c ox)) := Dvd.dvd.neg_right hdvd
    rw [Int.mul_tdiv_cancel' hdvd']
    ring

/-- Witness for C8 at `Compound("CO2")`: O ↦ −2 twice gives charge −4,
divisible by carbon's count 1, so C ↦ 4 and the weighted sum is 0. -/
theorem claim_C8_witness :
    oxWeightedSum cCO2 [(['O'], -2), (['C'], 4)] = 0 :=
  claim_C8 cCO2 [(['O'], -2)] ['C'] [(['O'], -2), (['C'], 4)]
    (by decide) (by decide) (by rfl) (by decide) (by rfl)

theorem pyDigit_digitChar {k : Nat} (hk : k < 10) :
    digitChar k ∈ ['0', '1', '2', '3', '4', '5', '6', '7', '8', '9'] := by
  interval_cases k <;> decide

theorem natDigitsAux_digits (fuel n : Nat) :
    ∀ c ∈ natDigitsAux fuel n,
      c ∈ ['0', '1', '2', '3', '4', '5', '6', '7', '8', '9'] := by
  induction fuel generalizing n with
  | zero => intro c hc; simp [natDigitsAux] at hc
  | succ fuel ih =>
      intro c hc
      unfold natDigitsAux at hc
      by_cases h : n < 10
      · rw [if_pos h] at hc
        simp only [List.mem_singleton] at hc
        exact hc ▸ pyDigit_digitChar h
      · rw [if_neg h] at hc
        rcases List.mem_append.mp hc with hm | hm
        · exact ih (n / 10) c hm
        · simp only [List.mem_singleton] at hm
          exact hm ▸ pyDigit_digitChar (Nat.mod_lt n (by omega))

theorem natDigits_digits (n : Nat) :
    ∀ c ∈ natDigits n, c ∈ ['0', '1', '2', '3', '4', '5', '6', '7', '8', '9'] :=
  natDigitsAux_digits (n + 1) n

theorem natDigits_ne_nil (n : Nat) : natDigits n ≠ [] := by
  unfold natDigits natDigitsAux
  by_cases h : n < 10
  · rw [if_pos h]
    simp
  · rw [if_neg h]
    simp

theorem subChar_digit {c : Char}
    (hc : c ∈ ['0', '1', '2', '3', '4', '5', '6', '7', '8', '9']) :
    subChar c ∈ subDigits := by
  fin_cases hc <;> decide

/-- Properties of subscript digits needed by the scan: they are not
uppercase, not lowercase, not ASCII digits, and not parentheses. -/
theorem subDigit_classes {c : Char} (hc : c ∈ subDigits) :
    pyUpper c = false ∧ pyLower c = false ∧ pyDigit c = false ∧
      c ≠ '(' ∧ c ≠ ')' := by
  fin_cases hc <;> exact ⟨rfl, rfl, rfl, by decide, by decide⟩

theorem upper_not_digit {c : Char} (h : pyUpper c = true) : pyDigit c = false := by
  unfold pyUpper at h
  simp only [Bool.and_eq_true, decide_eq_true_eq] at h
  unfold pyDigit
  by_contra hd
  rw [Bool.not_eq_false] at hd
  simp only [Bool.and_eq_true, decide_eq_true_eq] at hd
  have : ('A' : Char) ≤ '9' := le_trans h.1 hd.2
  exact absurd this (by decide)

theorem lower_not_digit {c : Char} (h : pyLower c = true) : pyDigit c = false := by
  unfold pyLower at h
  simp only [Bool.and_eq_true, decide_eq_true_eq] at h
  unfold pyDigit
  by_contra hd
  rw [Bool.not_eq_false] at hd
  simp only [Bool.and_eq_true, decide_eq_true_eq] at hd
  have : ('a' : Char) ≤ '9' := le_trans h.1 hd.2
  exact absurd this (by decide)

theorem upper_ne_lparen {c : Char} (h : pyUpper c = true) : c ≠ '(' := by
  intro he
  subst he
  exact absurd h (by decide)

theorem lower_ne_lparen {c : Char} (h : pyLower c = true) : c ≠ '(' := by
  intro he
  subst he
  exact absurd h (by decide)

theorem upper_ne_rparen {c : Char} (h : pyUpper c = true) : c ≠ ')' := by
  intro he
  subst he
  exact absurd h (by decide)

theorem lower_ne_rparen {c : Char} (h : pyLower c = true) : c ≠ ')' := by
  intro he
  subst he
  exact absurd h (by decide)

theorem subChar_of_not_digit {c : Char} (h : pyDigit c = false) : subChar c = c := by
  have mk : ∀ x : Char, pyDigit x = true → c ≠ x := by
    intro x hx he
    subst he
    rw [h] at hx
    cases hx
  unfold subChar
  rw [if_neg (mk '0' (by decide)), if_neg (mk '1' (by decide)),
    if_neg (mk '2' (by decide)), if_neg (mk '3' (by decide)),
    if_neg (mk '4' (by decide)), if_neg (mk '5' (by decide)),
    if_neg (mk '6' (by decide)), if_neg (mk '7' (by decide)),
    if_neg (mk '8' (by decide)), if_neg (mk '9' (by decide))]

theorem keys_dictAdd (d : Dict) (k : Sym) (v : Nat) :
    (dictAdd d k v).map (·.1) =
      if k ∈ d.map (·.1) then d.map (·.1) else d.map (·.1) ++ [k] := by
  induction d with
  | nil => simp [dictAdd]
  | cons kv rest ih =>
      by_cases h : kv.1 = k
      · simp [dictAdd, h]
      · have hne : ¬ (k = kv.1) := fun he => h he.symm
        simp only [dictAdd, if_neg h, List.map_cons, ih, List.mem_cons, hne,
          false_or]
        by_cases hm : k ∈ rest.map (·.1) <;> simp [hm]

theorem keys_dictSet (d : Dict) (k : Sym) (v : Nat) :
    (dictSet d k v).map (·.1) =
      if k ∈ d.map (·.1) then d.map (·.1) else d.map (·.1) ++ [k] := by
  induction d with
  | nil => simp [dictSet]
  | cons kv rest ih =>
      by_cases h : kv.1 = k
      · simp [dictSet, h]
      · have hne : ¬ (k = kv.1) := fun he => h he.symm
        simp only [dictSet, if_neg h, List.map_cons, ih, List.mem_cons, hne,
          false_or]
        by_cases hm : k ∈ rest.map (·.1) <;> simp [hm]

theorem dictWF_extend {keys : List Sym} {k : Sym}
    (hwf : (∀ x ∈ keys, validSym x = true) ∧ keys.Nodup)
    (hk : validSym k = true) :
    (∀ x ∈ (if k ∈ keys then keys else keys ++ [k]), validSym x = true) ∧
      (if k ∈ keys then keys else keys ++ [k]).Nodup := by
  by_cases hm : k ∈ keys
  · simpa [hm] using hwf
  · rw [if_neg hm]
    constructor
    · intro x hx
      rcases List.mem_append.mp hx with h | h
      · exact hwf.1 x h
      · simp only [List.mem_singleton] at h
        exact h ▸ hk
    · rw [List.nodup_append]
      exact ⟨hwf.2, List.nodup_singleton k, by simpa using hm⟩

theorem dictWF_dictAdd {d : Dict} {k : Sym} {v : Nat}
    (hwf : dictWF d) (hk : validSym k = true) : dictWF (dictAdd d k v) := by
  unfold dictWF at hwf ⊢
  rw [keys_dictAdd]
  exact dictWF_extend hwf hk

theorem dictWF_dictSet {d : Dict} {k : Sym} {v : Nat}
    (hwf : dictWF d) (hk : validSym k = true) : dictWF (dictSet d k v) := by
  unfold dictWF at hwf ⊢
  rw [keys_dictSet]
  exact dictWF_extend hwf hk

theorem dictWF_dictUpdate {g : List (Sym × Nat)} :
    ∀ {d : Dict}, dictWF d → (∀ kv ∈ g, validSym kv.1 = true) →
    dictWF (dictUpdate d g) := by
  induction g with
  | nil => intro d hd _; exact hd
  | cons kv rest ih =>
      intro d hd hg
      unfold dictUpdate at ih ⊢
      simp only [List.foldl_cons]
      exact ih (dictWF_dictSet hd (hg kv (by simp)))
        (fun kv' h => hg kv' (by simp [h]))

theorem keys_dictMulAll (d : Dict) (m : Nat) :
    (dictMulAll d m).map (·.1) = d.map (·.1) := by
  simp [dictMulAll]

theorem afterUpper_valid {c : Char} (s : List Char) (h : pyUpper c = true) :
    validSym (afterUpper c s).1 = true := by
  cases s with
  | nil => simpa [afterUpper, validSym] using h
  | cons c2 rest =>
      unfold afterUpper
      by_cases h2 : pyLower c2
      · simp [h2, validSym, h]
      · simp [h2, validSym, h]

theorem restPass_WF : ∀ (fuel : Nat) (s : List Char) (d : Dict),
    dictWF d → dictWF (restPass fuel s d)
  | 0, _, d, hd => hd
  | _ + 1, [], d, hd => hd
  | fuel + 1, c :: rest, d, hd => by
      unfold restPass
      by_cases h : pyUpper c
      · rw [if_pos h]
        apply restPass_WF
        by_cases hrp : (takeRParen (takeDigitsRun (afterUpper c rest).2).2).1
        · rwa [if_pos hrp]
        · rw [if_neg hrp]
          exact dictWF_dictAdd hd (afterUpper_valid rest h)
      · rw [if_neg h]
        by_cases hp : c = '('
        · rw [if_pos hp]
          cases rest with
          | nil => exact hd
          | cons c2 rest2 =>
              dsimp only
              by_cases h2 : pyUpper c2
              · rw [if_pos h2]
                exact restPass_WF fuel _ d hd
              · rw [if_neg h2]
                exact restPass_WF fuel _ d hd
        · rw [if_neg hp]
          exact restPass_WF fuel _ d hd

theorem parensPass_WF (p : List Char → Dict) (hp : ∀ t, dictWF (p t)) :
    ∀ (fuel : Nat) (s : List Char) (d : Dict), dictWF d →
    dictWF (parensPass p fuel s d)
  | 0, _, d, hd => hd
  | _ + 1, [], d, hd => hd
  | fuel + 1, c :: rest, d, hd => by
      unfold parensPass
      by_cases h : c = '('
      · rw [if_pos h]
        cases hs : splitAtRParen rest with
        | none => exact hd
        | some pr =>
            obtain ⟨interior, aft⟩ := pr
            apply parensPass_WF p hp
            apply dictWF_dictUpdate hd
            intro kv hkv
            have : kv.1 ∈ (dictMulAll (p interior) _).map (·.1) :=
              List.mem_map.mpr ⟨kv, hkv, rfl⟩
            rw [keys_dictMulAll] at this
            obtain ⟨kv', hkv', hkve⟩ := List.mem_map.mp this
            exact hkve ▸ (hp interior).1 kv'.1 (List.mem_map.mpr ⟨kv', hkv', rfl⟩)
      · rw [if_neg h]
        exact parensPass_WF p hp fuel rest d hd

theorem parseFuel_WF : ∀ (n : Nat) (s : List Char), dictWF (parseFuel n s)
  | 0, s => by
      constructor
      · intro k hk
        simp [parseFuel] at hk
      · simp [parseFuel]
  | n + 1, s => by
      unfold parseFuel
      exact restPass_WF _ _ _
        (parensPass_WF _ (fun t => parseFuel_WF n t) _ _ _ ⟨by simp, List.nodup_nil⟩)

theorem parse_formula_WF (s : List Char) : dictWF (parse_formula s) :=
  parseFuel_WF s.length s

theorem restPass_nil (fuel : Nat) (d : Dict) : restPass fuel [] d = d := by
  cases fuel <;> rfl

theorem tokenTail_length (c : Char) (rest : List Char) :
    (tokenTail c rest).length ≤ rest.length := by
  unfold tokenTail
  calc (takeRParen (takeDigitsRun (afterUpper c rest).2).2).2.length
      ≤ (takeDigitsRun (afterUpper c rest).2).2.length := takeRParen_length _
    _ ≤ (afterUpper c rest).2.length := takeDigitsRun_length _
    _ ≤ rest.length := afterUpper_length c rest

/-- The REST scan is insensitive to extra fuel beyond the string
length. -/
theorem restPass_fuel :
    ∀ (n : Nat) (s : List Char), s.length ≤ n →
    ∀ (f f' : Nat) (d : Dict), s.length ≤ f → s.length ≤ f' →
    restPass f s d = restPass f' s d := by
  intro n
  induction n with
  | zero =>
      intro s hs f f' d _ _
      have : s = [] := List.length_eq_zero.mp (Nat.le_zero.mp hs)
      subst this
      rw [restPass_nil, restPass_nil]
  | succ n ih =>
      intro s hs f f' d hf hf'
      cases s with
      | nil => rw [restPass_nil, restPass_nil]
      | cons c rest =>
          simp only [List.length_cons] at hs hf hf'
          cases f with
          | zero => omega
          | succ f0 =>
              cases f' with
              | zero => omega
              | succ f0' =>
                  unfold restPass
                  by_cases h : pyUpper c
                  · rw [if_pos h, if_pos h]
                    exact ih (tokenTail c rest)
                      (le_trans (tokenTail_length c rest) (by omega)) f0 f0' _
                      (le_trans (tokenTail_length c rest) (by omega))
                      (le_trans (tokenTail_length c rest) (by omega))
                  · rw [if_neg h, if_neg h]
                    by_cases hp : c = '('
                    · rw [if_pos hp, if_pos hp]
                      cases rest with
                      | nil => rfl
                      | cons c2 rest2 =>
                          dsimp only
                          simp only [List.length_cons] at hs hf hf'
                          by_cases h2 : pyUpper c2
                          · rw [if_pos h2, if_pos h2]
                            exact ih (tokenTail c2 rest2)
                              (le_trans (tokenTail_length c2 rest2) (by omega))
                              f0 f0' _
                              (le_trans (tokenTail_length c2 rest2) (by omega))
                              (le_trans (tokenTail_length c2 rest2) (by omega))
                          · rw [if_neg h2, if_neg h2]
                            exact ih (c2 :: rest2) (by simp; omega) f0 f0' _
                              (by simp; omega) (by simp; omega)
                    · rw [if_neg hp, if_neg hp]
                      exact ih rest (by omega) f0 f0' _ (by omega) (by omega)

/-- A character that is neither uppercase nor `'('` is skipped by one
scan step. -/
theorem restPass_skip1 {c : Char} (hup : pyUpper c = false) (hlp : c ≠ '(')
    (fuel : Nat) (rest : List Char) (d : Dict) :
    restPass (fuel + 1) (c :: rest) d = restPass fuel rest d := by
  conv_lhs => unfold restPass
  rw [if_neg (by simp [hup]), if_neg hlp]

/-- A run of skippable characters is consumed one scan step each. -/
theorem restPass_skip_subs :
    ∀ (subs : List Char) (s : List Char) (d : Dict) (fuel : Nat),
    (∀ c ∈ subs, pyUpper c = false ∧ c ≠ '(') →
    restPass (subs.length + fuel) (subs ++ s) d = restPass fuel s d
  | [], s, d, fuel, _ => by simp
  | c :: subs, s, d, fuel, h => by
      have hc := h c (by simp)
      have : (c :: subs).length + fuel = (subs.length + fuel) + 1 := by
        simp
        omega
      rw [this, List.cons_append, restPass_skip1 hc.1 hc.2,
        restPass_skip_subs subs s d fuel (fun x hx => h x (by simp [hx]))]

/-- Without any `'('` the PARENS pass leaves its dictionary unchanged. -/
theorem parensPass_noop (p : List Char → Dict) :
    ∀ (fuel : Nat) (s : List Char) (d : Dict), '(' ∉ s →
    parensPass p fuel s d = d
  | 0, _, _, _ => rfl
  | _ + 1, [], _, _ => rfl
  | fuel + 1, c :: rest, d, hnp => by
      unfold parensPass
      rw [if_neg (fun he => hnp (by simp [he]))]
      exact parensPass_noop p fuel rest d (fun hm => hnp (by simp [hm]))

theorem renderFormula_nil : renderFormula [] = [] := rfl

theorem renderFormula_cons (kv : Sym × Nat) (m : Dict) :
    renderFormula (kv :: m) =
      kv.1.map subChar ++ (natDigits kv.2).map subChar ++ renderFormula m := by
  simp [renderFormula, renderPair, List.map_append]

theorem symMap_id {sym : Sym} (h : validSym sym = true) :
    sym.map subChar = sym := by
  match sym, h with
  | [u], h =>
      simp only [List.map_cons, List.map_nil]
      rw [subChar_of_not_digit (upper_not_digit (by simpa [validSym] using h))]
  | [u, l], h =>
      simp only [validSym, Bool.and_eq_true] at h
      simp only [List.map_cons, List.map_nil]
      rw [subChar_of_not_digit (upper_not_digit h.1),
        subChar_of_not_digit (lower_not_digit h.2)]

/-- Characters of a rendered formula: symbol letters and subscript
digits only. -/
theorem render_chars {m : Dict} (hv : ∀ k ∈ m.map (·.1), validSym k = true) :
    ∀ c ∈ renderFormula m,
      pyUpper c = true ∨ pyLower c = true ∨ c ∈ subDigits := by
  induction m with
  | nil => intro c hc; simp [renderFormula_nil] at hc
  | cons kv rest ih =>
      intro c hc
      rw [renderFormula_cons] at hc
      have hkv : validSym kv.1 = true := hv kv.1 (by simp)
      rcases List.mem_append.mp hc with hm | hm
      · rcases List.mem_append.mp hm with hs | hs
        · rw [symMap_id hkv] at hs
          match kv.1, hkv, hs with
          | [u], hkv, hs =>
              simp only [List.mem_singleton] at hs
              exact Or.inl (hs ▸ by simpa [validSym] using hkv)
          | [u, l], hkv, hs =>
              simp only [validSym, Bool.and_eq_true] at hkv
              rcases List.mem_cons.mp hs with he | he
              · exact Or.inl (he ▸ hkv.1)
              · simp only [List.mem_singleton] at he
                exact Or.inr (Or.inl (he ▸ hkv.2))
        · obtain ⟨c0, hc0, hc0e⟩ := List.mem_map.mp hs
          exact Or.inr (Or.inr (hc0e ▸ subChar_digit (natDigits_digits kv.2 c0 hc0)))
      · exact ih (fun k hk => hv k (by simp [hk])) c hm

theorem render_no_lparen {m : Dict} (hv : ∀ k ∈ m.map (·.1), validSym k = true) :
    '(' ∉ renderFormula m := by
  intro hc
  rcases render_chars hv '(' hc with h | h | h
  · exact absurd h (by decide)
  · exact absurd h (by decide)
  · exact absurd ((subDigit_classes h).2.2.2.1) (by simp)

/-- One scan step over a one-letter element token followed by a
subscript digit adds the symbol with count 1. -/
theorem restPass_token1_sub (f : Nat) (u : Char) (hu : pyUpper u = true)
    (sc : Char) (t : List Char) (d : Dict)
    (hsc : pyLower sc = false ∧ pyDigit sc = false ∧ sc ≠ ')') :
    restPass (f + 1) (u :: sc :: t) d = restPass f (sc :: t) (dictAdd d [u] 1) := by
  have h1 : afterUpper u (sc :: t) = ([u], sc :: t) := by
    unfold afterUpper
    dsimp only
    rw [if_neg (by simp [hsc.1])]
  have h2 : takeDigitsRun (sc :: t) = ([], sc :: t) := by
    unfold takeDigitsRun
    dsimp only
    rw [if_neg (by simp [hsc.2.1])]
  have h3 : takeRParen (sc :: t) = (false, sc :: t) := by
    unfold takeRParen
    dsimp only
    rw [if_neg hsc.2.2]
  have ht : tokenTail u (sc :: t) = sc :: t := by
    unfold tokenTail
    rw [h1]
    dsimp only
    rw [h2]
    dsimp only
    rw [h3]
  conv_lhs => unfold restPass
  rw [if_pos hu, ht, h1]
  dsimp only
  rw [h2]
  dsimp only
  rw [h3]
  dsimp only
  rw [if_neg (by simp), if_pos rfl]

/-- One scan step over a two-letter element token followed by a
subscript digit adds the symbol with count 1. -/
theorem restPass_token2_sub (f : Nat) (u l : Char)
    (hu : pyUpper u = true) (hl : pyLower l = true)
    (sc : Char) (t : List Char) (d : Dict)
    (hsc : pyLower sc = false ∧ pyDigit sc = false ∧ sc ≠ ')') :
    restPass (f + 1) (u :: l :: sc :: t) d =
      restPass f (sc :: t) (dictAdd d [u, l] 1) := by
  have h1 : afterUpper u (l :: sc :: t) = ([u, l], sc :: t) := by
    unfold afterUpper
    dsimp only
    rw [if_pos hl]
  have h2 : takeDigitsRun (sc :: t) = ([], sc :: t) := by
    unfold takeDigitsRun
    dsimp only
    rw [if_neg (by simp [hsc.2.1])]
  have h3 : takeRParen (sc :: t) = (false, sc :: t) := by
    unfold takeRParen
    dsimp only
    rw [if_neg hsc.2.2]
  have ht : tokenTail u (l :: sc :: t) = sc :: t := by
    unfold tokenTail
    rw [h1]
    dsimp only
    rw [h2]
    dsimp only
    rw [h3]
  conv_lhs => unfold restPass
  rw [if_pos hu, ht, h1]
  dsimp only
  rw [h2]
  dsimp only
  rw [h3]
  dsimp only
  rw [if_neg (by simp), if_pos rfl]

/-- Class facts about a mapped subscript run. -/
theorem subs_classes {n : Nat} :
    ∀ c ∈ (natDigits n).map subChar,
      pyUpper c = false ∧ pyLower c = false ∧ pyDigit c = false ∧
        c ≠ '(' ∧ c ≠ ')' := by
  intro c hc
  obtain ⟨c0, hc0, hc0e⟩ := List.mem_map.mp hc
  exact hc0e ▸ subDigit_classes (subChar_digit (natDigits_digits n c0 hc0))

/-- Shapes of a valid element symbol. -/
theorem validSym_shape {k : Sym} (h : validSym k = true) :
    (∃ u, k = [u] ∧ pyUpper u = true) ∨
      (∃ u l, k = [u, l] ∧ pyUpper u = true ∧ pyLower l = true) := by
  match k with
  | [] => exact absurd h (by simp [validSym])
  | [u] => exact Or.inl ⟨u, rfl, by simpa [validSym] using h⟩
  | [u, l] =>
      refine Or.inr ⟨u, l, rfl, ?_⟩
      simpa [validSym, Bool.and_eq_true] using h
  | u :: l :: c :: rest => exact absurd h (by simp [validSym])

/-- Scanning a rendered formula adds every symbol once with count 1. -/
theorem restPass_render :
    ∀ (m : Dict) (d : Dict) (f : Nat),
    (∀ k ∈ m.map (·.1), validSym k = true) →
    (renderFormula m).length ≤ f →
    restPass f (renderFormula m) d = m.foldl (fun d kv => dictAdd d kv.1 1) d
  | [], d, f, _, _ => by
      rw [renderFormula_nil, restPass_nil]
      rfl
  | kv :: m', d, f, hv, hf => by
      obtain ⟨k, n⟩ := kv
      have hkv : validSym k = true := hv k (by simp)
      have hv' : ∀ x ∈ m'.map (·.1), validSym x = true :=
        fun x hx => hv x (by simp [hx])
      obtain ⟨sc, subs', hsubs⟩ :
          ∃ sc subs', (natDigits n).map subChar = sc :: subs' := by
        cases hnd : (natDigits n).map subChar with
        | nil => exact absurd (List.map_eq_nil_iff.mp hnd) (natDigits_ne_nil n)
        | cons a b => exact ⟨a, b, rfl⟩
      have hsubsprops := hsubs ▸ subs_classes (n := n)
      have hscp := hsubsprops sc (by simp)
      rw [renderFormula_cons] at hf ⊢
      dsimp only at hf ⊢
      rw [symMap_id hkv] at hf ⊢
      rw [hsubs] at hf ⊢
      simp only [List.length_append, List.length_cons] at hf
      rcases validSym_shape hkv with ⟨u, hk, hu⟩ | ⟨u, l, hk, hu, hl⟩
      · subst hk
        simp only [List.length_cons, List.length_nil] at hf
        obtain ⟨f0, rfl⟩ : ∃ f0, f = f0 + 1 := ⟨f - 1, by omega⟩
        simp only [List.cons_append, List.nil_append]
        rw [restPass_token1_sub f0 u hu sc (subs' ++ renderFormula m') d
          ⟨hscp.2.1, hscp.2.2.1, hscp.2.2.2.2⟩]
        rw [show (sc :: (subs' ++ renderFormula m')) =
          ((sc :: subs') ++ renderFormula m') by simp]
        obtain ⟨f1, hf1⟩ : ∃ f1, f0 = (sc :: subs').length + f1 :=
          ⟨f0 - (sc :: subs').length, by simp only [List.length_cons]; omega⟩
        rw [hf1, restPass_skip_subs (sc :: subs') (renderFormula m') _ _
          (fun c hc => ⟨(hsubsprops c hc).1, (hsubsprops c hc).2.2.2.1⟩)]
        rw [restPass_render m' (dictAdd d [u] 1) f1 hv'
          (by simp only [List.length_cons] at hf1; omega)]
        rfl
      · subst hk
        simp only [List.length_cons, List.length_nil] at hf
        obtain ⟨f0, rfl⟩ : ∃ f0, f = f0 + 1 := ⟨f - 1, by omega⟩
        simp only [List.cons_append, List.nil_append]
        rw [restPass_token2_sub f0 u l hu hl sc (subs' ++ renderFormula m') d
          ⟨hscp.2.1, hscp.2.2.1, hscp.2.2.2.2⟩]
        rw [show (sc :: (subs' ++ renderFormula m')) =
          ((sc :: subs') ++ renderFormula m') by simp]
        obtain ⟨f1, hf1⟩ : ∃ f1, f0 = (sc :: subs').length + f1 :=
          ⟨f0 - (sc :: subs').length, by simp only [List.length_cons]; omega⟩
        rw [hf1, restPass_skip_subs (sc :: subs') (renderFormula m') _ _
          (fun c hc => ⟨(hsubsprops c hc).1, (hsubsprops c hc).2.2.2.1⟩)]
        rw [restPass_render m' (dictAdd d [u, l] 1) f1 hv'
          (by simp only [List.length_cons] at hf1; omega)]
        rfl

theorem dictAdd_not_mem {d : Dict} {k : Sym} (v : Nat)
    (h : k ∉ d.map (·.1)) : dictAdd d k v = d ++ [(k, v)] := by
  induction d with
  | nil => rfl
  | cons kv rest ih =>
      have hne : kv.1 ≠ k := fun he => h (by simp [he])
      simp only [dictAdd, if_neg hne, List.cons_append, List.cons.injEq, true_and]
      exact ih (fun hm => h (by simp [hm]))

theorem foldl_dictAdd_ones :
    ∀ (m : Dict) (d : Dict),
    (∀ k ∈ m.map (·.1), k ∉ d.map (·.1)) → (m.map (·.1)).Nodup →
    m.foldl (fun d kv => dictAdd d kv.1 1) d = d ++ m.map (fun kv => (kv.1, 1))
  | [], d, _, _ => by simp
  | kv :: m', d, hdisj, hnd => by
      simp only [List.foldl_cons]
      rw [dictAdd_not_mem 1 (hdisj kv.1 (by simp))]
      rw [foldl_dictAdd_ones m' (d ++ [(kv.1, 1)])
        (by
          intro k hk
          simp only [List.map_append, List.map_cons, List.map_nil,
            List.mem_append, List.mem_singleton]
          rintro (hm | he)
          · exact hdisj k (by simp [hk]) hm
          · have : kv.1 ∉ m'.map (·.1) := (List.nodup_cons.mp (by simpa using hnd)).1
            exact this (he ▸ hk))
        (List.nodup_cons.mp (by simpa using hnd)).2]
      simp

/-- Parsing a rendered well-formed dictionary returns the same symbols
in order, each with count 1. -/
theorem parse_render (m : Dict)
    (hv : ∀ k ∈ m.map (·.1), validSym k = true) (hnd : (m.map (·.1)).Nodup) :
    parse_formula (renderFormula m) = m.map (fun kv => (kv.1, 1)) := by
  cases m with
  | nil => rfl
  | cons kv m' =>
      have hnonnil : renderFormula (kv :: m') ≠ [] := by
        rw [renderFormula_cons]
        intro he
        rcases List.append_eq_nil.mp he with ⟨he1, _⟩
        rcases List.append_eq_nil.mp he1 with ⟨hs, _⟩
        have := hv kv.1 (by simp)
        rw [List.map_eq_nil_iff.mp hs] at this
        exact absurd this (by simp [validSym])
      obtain ⟨L, hL⟩ : ∃ L, (renderFormula (kv :: m')).length = L + 1 := by
        cases hls : (renderFormula (kv :: m')).length with
        | zero => exact absurd (List.length_eq_zero.mp hls) hnonnil
        | succ L => exact ⟨L, rfl⟩
      unfold parse_formula
      rw [hL]
      unfold parseFuel
      rw [parensPass_noop _ _ _ _ (render_no_lparen hv)]
      rw [restPass_render (kv :: m') [] _ hv (le_refl _)]
      exact foldl_dictAdd_ones (kv :: m') [] (by simp) hnd

/-- Success characterization of the `Compound` constructor. -/
theorem make_some {s : List Char} {c : Compound} (h : Compound.make s = some c) :
    c.occurences = parse_formula s ∧
      c.formula = renderFormula (parse_formula s) ∧ c.coefficient = 1 := by
  unfold Compound.make at h
  by_cases ha : (parse_formula s).any
      (fun kv => 0 < kv.2 && (lookupElem kv.1).isNone)
  · rw [if_pos ha] at h
    cases h
  · rw [if_neg ha] at h
    cases hr : renderFormula (parse_formula s) with
    | nil => rw [hr] at h; cases h
    | cons c0 cs =>
        rw [hr] at h
        dsimp only at h
        by_cases hd : pyIsdigit c0
        · rw [if_pos hd] at h
          cases h
        · rw [if_neg hd] at h
          have := Option.some.inj h
          subst this
          exact ⟨rfl, rfl, rfl⟩

/-!
## Claim C4
-/

/-- C4 counterexample: the round trip fails already at `"H2O"` — the
rebuilt formula `H₂O₁` uses subscript digits, which the parser's `\d`
does not match, so re-parsing yields `{H: 1, O: 1}` instead of
`{H: 2, O: 1}`. -/
theorem claim_C4_counterexample :
    ¬ (∀ (s : List Char) (c : Compound), Compound.make s = some c →
        parse_formula c.formula = parse_formula s) := by
  intro h
  have hc := h "H2O".toList cH2O (by rfl)
  have h1 : parse_formula cH2O.formula = [(['H'], 1), (['O'], 1)] := by decide
  have h2 : parse_formula "H2O".toList = [(['H'], 2), (['O'], 1)] := by decide
  rw [h1, h2] at hc
  cases hc

/-- C4 (amended).  Re-parsing the rebuilt canonical formula of any
successfully constructed compound yields the same element symbols in
the same order, but every count is 1 (the subscript-rendered counts are
invisible to the parser's `\d`); hence the round trip
`parse(render(parse(f))) = parse(f)` holds exactly when every count in
`parse(f)` is 1. -/
theorem claim_C4 (s : List Char) (c : Compound) (h : Compound.make s = some c) :
    parse_formula c.formula = c.occurences.map (fun kv => (kv.1, 1)) := by
  obtain ⟨hocc, hform, _⟩ := make_some h
  rw [hform, hocc]
  have hwf := parse_formula_WF s
  exact parse_render _ hwf.1 hwf.2

/-- Witness for C4 at `Compound("H2O")`. -/
theorem claim_C4_witness :
    parse_formula cH2O.formula = cH2O.occurences.map (fun kv => (kv.1, 1)) :=
  claim_C4 "H2O".toList cH2O (by rfl)

/-!
## Claim C9
-/

theorem dedupAcc_subset [DecidableEq α] :
    ∀ (l : List α) (seen : List α) (x : α), x ∈ dedupAcc seen l → x ∈ l
  | [], _, x, h => by simp [dedupAcc] at h
  | a :: rest, seen, x, h => by
      unfold dedupAcc at h
      by_cases hm : a ∈ seen
      · rw [if_pos hm] at h
        exact List.mem_cons.mpr (Or.inr (dedupAcc_subset rest seen x h))
      · rw [if_neg hm] at h
        rcases List.mem_cons.mp h with he | hm'
        · exact he ▸ List.mem_cons_self a rest
        · exact List.mem_cons.mpr (Or.inr (dedupAcc_subset rest (a :: seen) x hm'))

theorem constituents_coeff_pos (r : Reaction) (f : List Char)
    (h : f ∈ r.constituents) : 1 ≤ r.coeffOf f := by
  unfold Reaction.constituents at h
  have hmem : f ∈ r.formulaList :=
    dedupAcc_subset _ _ _ (List.mem_of_mem_filter h)
  unfold Reaction.coeffOf
  exact List.count_pos_iff.mpr hmem

theorem Frac.pow_num (a : Frac) (n : Nat) : (a.pow n).num = a.num ^ n := by
  induction n with
  | zero => rfl
  | succ n ih => rw [Frac.pow, Frac.mul, ih, pow_succ]

theorem get?_isSome_of_lt (l : List α) (i : Nat) (h : i < l.length) :
    (l.get? i).isSome := by
  rw [List.get?_eq_getElem?, List.getElem?_eq_getElem h]
  rfl

/-- Each entry of a list with `any isNone = false` at a valid index is
a known value. -/
theorem known_at_of_any_false {l : List (Option Frac)}
    (h : l.any Option.isNone = false) {i : Nat} (hi : i < l.length) :
    ∃ v, (l.get? i).bind id = some v := by
  obtain ⟨o, ho⟩ := Option.isSome_iff_exists.mp (get?_isSome_of_lt l i hi)
  have hmem : o ∈ l := List.get?_mem ho
  cases o with
  | none =>
      exfalso
      rw [List.any_eq_false] at h
      have := h none hmem
      simp at this
  | some v => exact ⟨v, by rw [ho]; rfl⟩

/-- The resolution/Kc fold succeeds and appends one value per index
when every index resolves and reactant-side powers are nonzero. -/
theorem eqFold_some (r : Reaction) (st en : List (Option Frac)) (ch : Nat)
    (change mult : Frac) (chCoef : Nat) :
    ∀ (l : List Nat) (acc : List Frac) (kc : Frac),
    (∀ i ∈ l, ∃ cmpd v, r.constituents.get? i = some cmpd ∧
        r.resolvedVal st en ch change mult chCoef i = some v ∧
        (cmpd ∈ r.reactant_formulas → (v.pow (r.coeffOf cmpd)).isZero = false)) →
    ∃ vals kcf,
      l.foldl (eqStep r st en ch change mult chCoef) (some (acc, kc)) =
        some (acc ++ vals, kcf) ∧ vals.length = l.length
  | [], acc, kc, _ => ⟨[], kc, by simp, rfl⟩
  | i :: l, acc, kc, h => by
      obtain ⟨cmpd, v, hc, hv, hnz⟩ := h i (by simp)
      simp only [List.foldl_cons]
      have hstep : eqStep r st en ch change mult chCoef (some (acc, kc)) i =
          some (acc ++ [v],
            if cmpd ∈ r.reactant_formulas then
              kc.mul (v.pow (r.coeffOf cmpd)).inv
            else kc.mul (v.pow (r.coeffOf cmpd))) := by
        unfold eqStep
        dsimp only
        rw [hc]
        dsimp only
        rw [hv]
        dsimp only
        by_cases hm : cmpd ∈ r.reactant_formulas
        · rw [if_pos hm, if_pos hm, if_neg (by rw [hnz hm]; simp)]
        · rw [if_neg hm, if_neg hm]
      rw [hstep]
      obtain ⟨vals, kcf, hfold, hlen⟩ := eqFold_some r st en ch change mult
        chCoef l (acc ++ [v]) _ (fun j hj => h j (by simp [hj]))
      refine ⟨v :: vals, kcf, ?_, by simp [hlen]⟩
      rw [hfold]
      simp

/-- C9.  Parts 1 and 2 (missing-data errors) hold as claimed; part 3
(amended) additionally requires every reactant-side resolved
concentration to be nonzero, since the equilibrium-constant product
divides by it (`ZeroDivisionError` otherwise). -/
theorem claim_C9 :
    (∀ (r : Reaction) (s e : List (Option Frac)),
      s.any Option.isNone = true → r.equilibrium_concentrations s e = none) ∧
    (∀ (r : Reaction) (s e : List (Option Frac)),
      e.all Option.isNone = true → r.equilibrium_concentrations s e = none) ∧
    (∀ (r : Reaction) (s e : List (Option Frac)) (ch : Nat) (ec sc : Frac)
        (chCmpd : List Char),
      r.is_balanced = true →
      s.length = e.length → e.length = r.constituents.length →
      s.any Option.isNone = false → e.all Option.isNone = false →
      findLastSome e = some ch →
      (e.get? ch).bind id = some ec →
      (s.get? ch).bind id = some sc →
      r.constituents.get? ch = some chCmpd →
      (∀ i, i < e.length → ∀ v,
        r.resolvedVal s e ch (ec.sub sc)
          (if (ec.sub sc).gtZero then Frac.ofInt 1 else Frac.ofInt (-1))
          (r.coeffOf chCmpd) i = some v →
        (∀ cmpd, r.constituents.get? i = some cmpd →
          cmpd ∈ r.reactant_formulas → v.num ≠ 0)) →
      ∃ vals kc,
        r.equilibrium_concentrations s e = some (r.constituents.zip vals, kc) ∧
          vals.length = r.constituents.length) := by
  refine ⟨?_, ?_, ?_⟩
  · intro r s e h
    unfold Reaction.equilibrium_concentrations
    cases hb : (if r.is_balanced then some r else r.balanceSolve) with
    | none => rfl
    | some r' =>
        dsimp only [Option.bind]
        by_cases hl : s.length ≠ e.length ∧ e.length ≠ r'.constituents.length
        · rw [if_pos hl]
        · rw [if_neg hl, if_pos h]
  · intro r s e h
    unfold Reaction.equilibrium_concentrations
    cases hb : (if r.is_balanced then some r else r.balanceSolve) with
    | none => rfl
    | some r' =>
        dsimp only [Option.bind]
        by_cases hl : s.length ≠ e.length ∧ e.length ≠ r'.constituents.length
        · rw [if_pos hl]
        · rw [if_neg hl]
          by_cases ha : s.any Option.isNone = true
          · rw [if_pos ha]
          · rw [if_neg ha, if_pos h]
  · intro r s e ch ec sc chCmpd hb hlen1 hlen2 hsany heall hch hec hsc hcc hnz
    unfold Reaction.equilibrium_concentrations
    rw [if_pos hb, Option.some_bind]
    rw [if_neg (by omega)]
    rw [if_neg (by rw [hsany]; simp), if_neg (by rw [heall]; simp)]
    rw [hch]
    dsimp only
    rw [hec, hsc, hcc]
    dsimp only
    have hcond : ∀ i ∈ List.range e.length,
        ∃ cmpd v, r.constituents.get? i = some cmpd ∧
          r.resolvedVal s e ch (ec.sub sc)
            (if (ec.sub sc).gtZero then Frac.ofInt 1 else Frac.ofInt (-1))
            (r.coeffOf chCmpd) i = some v ∧
          (cmpd ∈ r.reactant_formulas →
            (v.pow (r.coeffOf cmpd)).isZero = false) := by
      intro i hi
      have hilt : i < e.length := List.mem_range.mp hi
      obtain ⟨cmpd, hcmpd⟩ := Option.isSome_iff_exists.mp
        (get?_isSome_of_lt r.constituents i (hlen2 ▸ hilt))
      have hval : ∃ v,
          r.resolvedVal s e ch (ec.sub sc)
            (if (ec.sub sc).gtZero then Frac.ofInt 1 else Frac.ofInt (-1))
            (r.coeffOf chCmpd) i = some v := by
        unfold Reaction.resolvedVal
        rw [hcmpd]
        dsimp only
        by_cases hich : i = ch
        · rw [if_pos hich]
          exact ⟨ec, hich ▸ hec⟩
        · rw [if_neg hich]
          obtain ⟨si, hsi⟩ := known_at_of_any_false (l := s) hsany
            (by rw [hlen1]; exact hilt)
          rw [hsi]
          exact ⟨_, rfl⟩
      obtain ⟨v, hv⟩ := hval
      refine ⟨cmpd, v, hcmpd, hv, ?_⟩
      intro hmem
      have hvnz := hnz i hilt v hv cmpd hcmpd hmem
      have hcpos : 1 ≤ r.coeffOf cmpd := by
        apply constituents_coeff_pos
        exact List.get?_mem hcmpd
      unfold Frac.isZero
      rw [Frac.pow_num]
      simp only [decide_eq_false_iff_not]
      exact pow_ne_zero _ hvnz
    obtain ⟨vals, kcf, hfold, hlenv⟩ := eqFold_some r s e ch (ec.sub sc)
      (if (ec.sub sc).gtZero then Frac.ofInt 1 else Frac.ofInt (-1))
      (r.coeffOf chCmpd) (List.range e.length) [] (Frac.ofInt 1) hcond
    rw [hfold]
    exact ⟨vals, kcf, rfl, by rw [hlenv]; simp; omega⟩

/-- C9 counterexample for the claim as stated: on the balanced reaction
`H₂ + I₂ --> 2 HI`, starting `[1, 2, 0]` and ending `[None, None, 2]`
have no missing starting entry and a known ending entry, yet the call
fails — the resolved H₂ concentration is `1 + 2·(1/2)·(−1) = 0` and the
Kc product divides by it. -/
theorem claim_C9_counterexample :
    ¬ (∀ (r : Reaction) (s e : List (Option Frac)),
        r.is_balanced = true → s.length = e.length →
        e.length = r.constituents.length →
        s.any Option.isNone = false → e.all Option.isNone = false →
        ∃ out, r.equilibrium_concentrations s e = some out) := by
  intro h
  obtain ⟨out, hout⟩ := h rHI [some 1, some 2, some 0] [none, none, some 2]
    (by decide) (by decide) (by decide) (by decide) (by decide)
  have : rHI.equilibrium_concentrations [some 1, some 2, some 0]
      [none, none, some 2] = none := by decide
  rw [this] at hout
  cases hout

/-- Witness for C9: an error case and a successful resolution on
`H₂ + I₂ --> 2 HI`. -/
theorem claim_C9_witness :
    rHI.equilibrium_concentrations [some 1, none] [some 1, some 1] = none ∧
    (∃ vals kc,
      rHI.equilibrium_concentrations
          [some ⟨1, 1000⟩, some ⟨2, 1000⟩, some 0]
          [none, none, some ⟨187, 100000⟩] =
        some (rHI.constituents.zip vals, kc) ∧
      vals.length = rHI.constituents.length) := by
  constructor
  · exact claim_C9.1 rHI [some 1, none] [some 1, some 1] (by decide)
  · exact claim_C9.2.2 rHI [some ⟨1, 1000⟩, some ⟨2, 1000⟩, some 0]
      [none, none, some ⟨187, 100000⟩] 2 ⟨187, 100000⟩ (Frac.ofInt 0)
      ['H', '₁', 'I', '₁'] (by decide) (by decide) (by decide) (by decide)
      (by decide) (by decide) (by decide) (by decide) (by decide)
      (by decide)

theorem Frac.eqv_toQ {a b : Frac} (ha : a.Ok) (hb : b.Ok) :
    a.eqv b = true ↔ a.toQ = b.toQ := by
  unfold Frac.eqv Frac.toQ
  rw [decide_eq_true_eq, div_eq_div_iff (by exact_mod_cast ha.ne')
    (by exact_mod_cast hb.ne')]
  constructor
  · intro h; exact_mod_cast h
  · intro h; exact_mod_cast h

theorem Frac.eqv_zero {a : Frac} : a.eqv (Frac.ofInt 0) = true ↔ a.num = 0 := by
  simp [Frac.eqv, Frac.ofInt]

theorem Frac.toQ_zero_of_num {a : Frac} (h : a.num = 0) : a.toQ = 0 := by
  simp [Frac.toQ, h]

theorem Frac.toQ_nonpos {a : Frac} (ha : a.Ok) : a.toQ ≤ 0 ↔ a.num ≤ 0 := by
  have hd : (0 : ℚ) < (a.den : ℚ) := by exact_mod_cast ha
  unfold Frac.toQ
  rw [div_nonpos_iff]
  constructor
  · rintro (⟨h1, h2⟩ | ⟨h1, h2⟩)
    · have : (a.num : ℚ) ≤ 0 := by linarith
      exact_mod_cast this
    · exact_mod_cast h1
  · intro h
    exact Or.inr ⟨by exact_mod_cast h, le_of_lt hd⟩

theorem Frac.q_pos {a : Frac} (ha : a.Ok) : 1 ≤ a.q := by
  have hden : 0 < a.den.natAbs := by
    rw [Int.natAbs_pos]; exact ha.ne'
  have hg : 0 < Nat.gcd a.num.natAbs a.den.natAbs :=
    Nat.gcd_pos_of_pos_right _ hden
  exact Nat.div_pos (Nat.le_of_dvd hden (Nat.gcd_dvd_right _ _)) hg

/-- When the denominator-normalizing factor `q` divides `L`, the
truncating division in the scaling step is exact. -/
theorem Frac.tdiv_exact {f : Frac} (hOk : f.Ok) {L : Nat} (hq : f.q ∣ L) :
    ((((L : Int) * f.num).tdiv f.den : Int) : ℚ) = (L : ℚ) * f.toQ := by
  have hden0 : f.den ≠ 0 := hOk.ne'
  have hdQ : (f.den : ℚ) ≠ 0 := Int.cast_ne_zero.mpr hden0
  set g := Nat.gcd f.num.natAbs f.den.natAbs with hge
  have hgd : g ∣ f.den.natAbs := Nat.gcd_dvd_right _ _
  have hgn : g ∣ f.num.natAbs := Nat.gcd_dvd_left _ _
  have hden_fact : f.den.natAbs = g * f.q := by
    unfold Frac.q
    rw [← hge, Nat.mul_div_cancel' hgd]
  obtain ⟨t, ht⟩ := hq
  obtain ⟨u, hu⟩ := hgn
  have hdvdN : f.den.natAbs ∣ L * f.num.natAbs := by
    refine ⟨t * u, ?_⟩
    rw [ht, hu, hden_fact]; ring
  have hdvd : f.den ∣ (L : Int) * f.num := by
    rw [← Int.natAbs_dvd_natAbs]
    simpa [Int.natAbs_mul] using hdvdN
  obtain ⟨k, hk⟩ := hdvd
  rw [hk, Int.mul_tdiv_cancel_left k hden0]
  have hkQ : (L : ℚ) * (f.num : ℚ) = (f.den : ℚ) * (k : ℚ) := by
    exact_mod_cast hk
  rw [Frac.toQ, ← mul_div_assoc, hkQ, mul_comm, mul_div_assoc, div_self hdQ,
    mul_one]

theorem get?_lt_of_some {l : List α} {i : Nat} {a : α} (h : l.get? i = some a) :
    i < l.length := by
  by_contra hc
  rw [List.get?_eq_none.mpr (Nat.le_of_not_lt hc)] at h
  exact Option.noConfusion h

theorem getRow_Ok {rows : List Row} (h : RowsOk rows) (k j : Nat) :
    (getRow rows k j).Ok := by
  unfold getRow
  cases hg : rows.get? k with
  | none => exact Frac.Ok.ofInt 0
  | some row => exact h row (List.get?_mem hg) j

theorem mapRows_length (f : Nat → Row → Row) :
    ∀ (k : Nat) (l : List Row), (mapRows f k l).length = l.length := by
  intro k l
  induction l generalizing k with
  | nil => rfl
  | cons row rest ih => simp [mapRows, ih]

theorem mapRows_get? (f : Nat → Row → Row) :
    ∀ (l : List Row) (k i : Nat),
      (mapRows f k l).get? i = (l.get? i).map (f (k + i)) := by
  intro l
  induction l with
  | nil => intro k i; simp [mapRows]
  | cons row rest ih =>
      intro k i
      cases i with
      | zero => simp [mapRows]
      | succ i =>
          show (mapRows f (k + 1) rest).get? i = (rest.get? i).map (f (k + (i + 1)))
          rw [ih (k + 1) i]
          have : k + 1 + i = k + (i + 1) := by omega
          rw [this]

theorem getRow_mapRows {f : Nat → Row → Row} {rows : List Row} {i : Nat}
    (hi : i < rows.length) :
    getRow (mapRows f 0 rows) i = f i (getRow rows i) := by
  unfold getRow
  rw [mapRows_get?]
  obtain ⟨row, hrow⟩ := Option.isSome_iff_exists.mp (get?_isSome_of_lt rows i hi)
  rw [hrow]
  simp

theorem mapRows_mem {f : Nat → Row → Row} {rows : List Row} {row' : Row}
    (h : row' ∈ mapRows f 0 rows) :
    ∃ i, i < rows.length ∧ row' = f i (getRow rows i) := by
  obtain ⟨i, hi⟩ := List.mem_iff_get?.mp h
  rw [mapRows_get?] at hi
  cases hg : rows.get? i with
  | none => rw [hg] at hi; exact Option.noConfusion hi
  | some row =>
      rw [hg] at hi
      refine ⟨i, get?_lt_of_some hg, ?_⟩
      have : getRow rows i = row := by unfold getRow; rw [hg]; rfl
      rw [this]
      simpa using hi.symm

theorem mapRows_mem_of_lt {f : Nat → Row → Row} {rows : List Row} {i : Nat}
    (hi : i < rows.length) : f i (getRow rows i) ∈ mapRows f 0 rows := by
  rw [List.mem_iff_get?]
  refine ⟨i, ?_⟩
  rw [mapRows_get?]
  obtain ⟨row, hrow⟩ := Option.isSome_iff_exists.mp (get?_isSome_of_lt rows i hi)
  rw [hrow]
  have : getRow rows i = row := by unfold getRow; rw [hrow]; rfl
  simp [this]

theorem dotQ_eq_zero {n : Nat} {row : Row} {x : Nat → ℚ}
    (h : ∀ j, j < n → (row j).toQ = 0) : dotQ n row x = 0 :=
  Finset.sum_eq_zero fun j hj => by
    rw [h j (Finset.mem_range.mp hj), zero_mul]

theorem dotQ_scale (n : Nat) (x : Nat → ℚ) (c : Frac) (row : Row) :
    dotQ n (fun j => c.mul (row j)) x = c.toQ * dotQ n row x := by
  unfold dotQ
  rw [Finset.mul_sum]
  refine Finset.sum_congr rfl fun j _ => ?_
  rw [Frac.toQ_mul]; ring

theorem dotQ_sub_mul (n : Nat) (x : Nat → ℚ) (row prow : Row) (c : Frac)
    (hOk : ∀ j, (row j).Ok) (hc : c.Ok) (hpOk : ∀ j, (prow j).Ok) :
    dotQ n (fun jj => (row jj).sub (c.mul (prow jj))) x
      = dotQ n row x - c.toQ * dotQ n prow x := by
  unfold dotQ
  rw [Finset.mul_sum, ← Finset.sum_sub_distrib]
  refine Finset.sum_congr rfl fun j _ => ?_
  rw [Frac.toQ_sub (hOk j) (hc.mul (hpOk j)), Frac.toQ_mul]; ring

theorem findPivot_spec {rows : List Row} {j r0 i : Nat}
    (h : findPivot rows j r0 = some i) :
    r0 ≤ i ∧ i < rows.length ∧ (getRow rows i j).num ≠ 0 := by
  unfold findPivot at h
  have hp := List.find?_some h
  have hm := List.mem_of_find?_eq_some h
  obtain ⟨t, ht⟩ := List.mem_iff_get?.mp hm
  rw [(List.range rows.length).get?_drop r0 t] at ht
  have hbound : r0 + t < (List.range rows.length).length := get?_lt_of_some ht
  rw [List.length_range] at hbound
  rw [List.get?_range hbound] at ht
  have hvi : r0 + t = i := Option.some_injective _ ht
  refine ⟨by omega, by omega, ?_⟩
  simp only [decide_eq_true_eq] at hp
  intro hz
  rw [show (getRow rows i j).isZero = true by
    simp [Frac.isZero, hz]] at hp
  exact Bool.noConfusion hp

theorem swapRows_RowsOk {rows : List Row} {a b : Nat} (h : RowsOk rows) :
    RowsOk (swapRows rows a b) := by
  intro row' hrow' j
  obtain ⟨i, hi, hEq⟩ := mapRows_mem hrow'
  rw [hEq]
  split_ifs <;> exact getRow_Ok h _ j

theorem scaleRow_RowsOk {rows : List Row} {a : Nat} {c : Frac} (h : RowsOk rows)
    (hc : c.Ok) : RowsOk (scaleRow rows a c) := by
  intro row' hrow' j
  obtain ⟨i, hi, hEq⟩ := mapRows_mem hrow'
  rw [hEq]
  split_ifs
  · exact hc.mul (getRow_Ok h i j)
  · exact getRow_Ok h i j

theorem clearCol_RowsOk {rows : List Row} {r j0 : Nat} (h : RowsOk rows) :
    RowsOk (clearCol rows r j0) := by
  intro row' hrow' j
  obtain ⟨i, hi, hEq⟩ := mapRows_mem hrow'
  rw [hEq]
  split_ifs
  · exact getRow_Ok h i j
  · exact (getRow_Ok h i j).sub ((getRow_Ok h i j0).mul (getRow_Ok h r j))

theorem swapRows_getRow_left {rows : List Row} {a : Nat} (b : Nat)
    (ha : a < rows.length) : getRow (swapRows rows a b) a = getRow rows b := by
  unfold swapRows
  rw [getRow_mapRows ha]
  simp

theorem swapRows_ker {rows : List Row} {a b n : Nat} {x : Nat → ℚ}
    (ha : a < rows.length) (hb : b < rows.length)
    (hK : KernQ (swapRows rows a b) n x) : KernQ rows n x := by
  intro row hrow
  obtain ⟨i, hi⟩ := List.mem_iff_get?.mp hrow
  have hilt : i < rows.length := get?_lt_of_some hi
  have hrowi : getRow rows i = row := by unfold getRow; rw [hi]; rfl
  by_cases hia : i = a
  · have hv := hK _ (@mapRows_mem_of_lt
      (fun k row => if k = a then getRow rows b
        else if k = b then getRow rows a else row) rows _ hb)
    dsimp only at hv
    by_cases hba : b = a
    · rw [if_pos hba] at hv
      rw [← hrowi, hia, ← hba]
      exact hv
    · rw [if_neg hba, if_pos rfl] at hv
      rw [← hrowi, hia]
      exact hv
  · by_cases hib : i = b
    · have hv := hK _ (@mapRows_mem_of_lt
        (fun k row => if k = a then getRow rows b
          else if k = b then getRow rows a else row) rows _ ha)
      dsimp only at hv
      rw [if_pos rfl] at hv
      rw [← hrowi, hib]
      exact hv
    · have hv := hK _ (@mapRows_mem_of_lt
        (fun k row => if k = a then getRow rows b
          else if k = b then getRow rows a else row) rows _ hilt)
      dsimp only at hv
      rw [if_neg hia, if_neg hib] at hv
      rw [← hrowi]
      exact hv

theorem scaleRow_ker {rows : List Row} {a n : Nat} {c : Frac} {x : Nat → ℚ}
    (ha : a < rows.length) (hc : c.toQ ≠ 0)
    (hK : KernQ (scaleRow rows a c) n x) : KernQ rows n x := by
  intro row hrow
  obtain ⟨i, hi⟩ := List.mem_iff_get?.mp hrow
  have hilt : i < rows.length := get?_lt_of_some hi
  have hrowi : getRow rows i = row := by unfold getRow; rw [hi]; rfl
  by_cases hia : i = a
  · have hv := hK _ (@mapRows_mem_of_lt
      (fun k row => if k = a then (fun j => c.mul (row j)) else row) rows _ ha)
    dsimp only at hv
    rw [if_pos rfl, dotQ_scale] at hv
    rcases mul_eq_zero.mp hv with h | h
    · exact absurd h hc
    · rw [← hrowi, hia]; exact h
  · have hv := hK _ (@mapRows_mem_of_lt
      (fun k row => if k = a then (fun j => c.mul (row j)) else row) rows _ hilt)
    dsimp only at hv
    rw [if_neg hia] at hv
    rw [← hrowi]
    exact hv

theorem clearCol_ker {rows : List Row} {r j0 n : Nat} {x : Nat → ℚ}
    (hr : r < rows.length) (hOk : RowsOk rows)
    (hK : KernQ (clearCol rows r j0) n x) : KernQ rows n x := by
  have hpiv : dotQ n (getRow rows r) x = 0 := by
    have hv := hK _ (@mapRows_mem_of_lt
      (fun k row => if k = r then row
        else fun jj => (row jj).sub ((row j0).mul (getRow rows r jj))) rows _ hr)
    dsimp only at hv
    rw [if_pos rfl] at hv
    exact hv
  intro row hrow
  obtain ⟨i, hi⟩ := List.mem_iff_get?.mp hrow
  have hilt : i < rows.length := get?_lt_of_some hi
  have hrowi : getRow rows i = row := by unfold getRow; rw [hi]; rfl
  by_cases hir : i = r
  · rw [← hrowi, hir]; exact hpiv
  · have hv := hK _ (@mapRows_mem_of_lt
      (fun k row => if k = r then row
        else fun jj => (row jj).sub ((row j0).mul (getRow rows r jj))) rows _ hilt)
    dsimp only at hv
    rw [if_neg hir] at hv
    rw [dotQ_sub_mul n x _ _ _ (fun j => getRow_Ok hOk i j) (getRow_Ok hOk i j0)
      (fun j => getRow_Ok hOk r j), hpiv, mul_zero, sub_zero] at hv
    rw [← hrowi]
    exact hv

/-- Gauss–Jordan elimination keeps all denominators positive and never
shrinks the rational kernel: any assignment annihilating the reduced
rows annihilates the original rows. -/
theorem rrefGo_inv : ∀ (fuel j r : Nat) (rows : List Row) (piv : List Nat),
    RowsOk rows →
    RowsOk (rrefGo fuel j r rows piv).1 ∧
      ∀ n x, KernQ (rrefGo fuel j r rows piv).1 n x → KernQ rows n x := by
  intro fuel
  induction fuel with
  | zero =>
      intro j r rows piv h
      exact ⟨h, fun n x hk => hk⟩
  | succ fuel ih =>
      intro j r rows piv h
      cases hfp : findPivot rows j r with
      | none =>
          simp only [rrefGo, hfp]
          exact ih (j + 1) r rows piv h
      | some i =>
          obtain ⟨hri, hilt, hnz⟩ := findPivot_spec hfp
          have hrlt : r < rows.length := Nat.lt_of_le_of_lt hri hilt
          simp only [rrefGo, hfp]
          have h1 : RowsOk (swapRows rows r i) := swapRows_RowsOk h
          have hlen1 : (swapRows rows r i).length = rows.length :=
            mapRows_length _ _ _
          have hpOk : (getRow (swapRows rows r i) r j).Ok := getRow_Ok h1 r j
          have hpnz : (getRow (swapRows rows r i) r j).num ≠ 0 := by
            rw [swapRows_getRow_left i hrlt]
            exact hnz
          have hinvOk : (getRow (swapRows rows r i) r j).inv.Ok :=
            hpOk.inv hpnz
          have h2 : RowsOk (scaleRow (swapRows rows r i) r
              (getRow (swapRows rows r i) r j).inv) := scaleRow_RowsOk h1 hinvOk
          have hlen2 : (scaleRow (swapRows rows r i) r
              (getRow (swapRows rows r i) r j).inv).length = rows.length := by
            rw [scaleRow, mapRows_length, hlen1]
          have h3 : RowsOk (clearCol (scaleRow (swapRows rows r i) r
              (getRow (swapRows rows r i) r j).inv) r j) := clearCol_RowsOk h2
          obtain ⟨hok, hker⟩ := ih (j + 1) (r + 1) _ (piv ++ [j]) h3
          refine ⟨hok, fun n x hk => ?_⟩
          have hk3 := hker n x hk
          have hk2 := clearCol_ker (by rw [hlen2]; exact hrlt) h2 hk3
          have hinv_ne : (getRow (swapRows rows r i) r j).inv.toQ ≠ 0 := by
            rw [Frac.toQ_inv]
            exact inv_ne_zero (fun hz =>
              hpnz ((Frac.toQ_eq_zero hpOk).mp hz))
          have hk1 := scaleRow_ker (by rw [hlen1]; exact hrlt) hinv_ne hk2
          exact swapRows_ker hrlt hilt hk1

theorem matrixOf_RowsOk (r : Reaction) : RowsOk r.matrixOf := by
  intro row hrow j
  unfold Reaction.matrixOf at hrow
  obtain ⟨ei, _, hEq⟩ := List.mem_map.mp hrow
  rw [← hEq]
  dsimp only
  rw [List.get?_map]
  cases hd : r.distinctCompounds.get? j with
  | none => exact Frac.Ok.ofInt 0
  | some c =>
      simp only [Option.map_some']
      unfold Reaction.colOf
      rw [List.get?_map]
      cases hs : r.seenSyms.get? ei with
      | none => exact Frac.Ok.ofInt 0
      | some m =>
          simp only [Option.map_some', Option.getD_some]
          split_ifs <;> exact Frac.Ok.ofInt _

theorem finsum_zip {α β : Type} :
    ∀ (l1 : List α) (l2 : List β) (g : α → β → ℚ) (F : Nat → ℚ),
    l2.length = l1.length →
    (∀ j a b, l1.get? j = some a → l2.get? j = some b → F j = g a b) →
    ∑ j in Finset.range l1.length, F j
      = ((l1.zip l2).map (fun p => g p.1 p.2)).sum := by
  intro l1
  induction l1 with
  | nil => intro l2 g F _ _; simp
  | cons a l1 ih =>
      intro l2 g F hlen hF
      cases l2 with
      | nil => simp at hlen
      | cons b l2 =>
          rw [List.length_cons, Finset.sum_range_succ', List.zip_cons_cons,
            List.map_cons, List.sum_cons]
          rw [hF 0 a b rfl rfl]
          rw [ih l2 g (fun j => F (j + 1)) (by simpa using hlen)
            (fun j a' b' h1 h2 => hF (j + 1) a' b' (by simpa using h1)
              (by simpa using h2))]
          ring

theorem sum_filter_split {α : Type} (P : α → Bool) (f : α → ℚ) :
    ∀ (l : List α),
    (l.map f).sum
      = ((l.filter P).map f).sum + ((l.filter (fun x => ! P x)).map f).sum := by
  intro l
  induction l with
  | nil => simp
  | cons a l ih =>
      by_cases h : P a <;>
        simp [List.filter_cons, h, ih] <;> ring

theorem sum_map_neg {α : Type} (l : List α) (f : α → ℚ) :
    (l.map (fun x => -(f x))).sum = -((l.map f).sum) := by
  induction l with
  | nil => simp
  | cons a l ih => simp [ih]; ring

theorem sum_map_natCast {α : Type} (l : List α) (f : α → Nat) :
    (l.map (fun x => ((f x : Nat) : ℚ))).sum = (((l.map f).sum : Nat) : ℚ) := by
  induction l with
  | nil => simp
  | cons a l ih => simp [ih]

theorem sum_two_support {n i k : Nat} (f : Nat → ℚ) (hi : i < n) (hk : k < n)
    (hik : i ≠ k) (h0 : ∀ j, j < n → j ≠ i → j ≠ k → f j = 0) :
    ∑ j in Finset.range n, f j = f i + f k := by
  have hsub : ({i, k} : Finset Nat) ⊆ Finset.range n := by
    intro x hx
    rcases Finset.mem_insert.mp hx with h | h
    · rw [h]; exact Finset.mem_range.mpr hi
    · rw [Finset.mem_singleton] at h
      rw [h]; exact Finset.mem_range.mpr hk
  rw [← Finset.sum_subset hsub (fun x hx hnx => by
    simp only [Finset.mem_insert, Finset.mem_singleton, not_or] at hnx
    exact h0 x (Finset.mem_range.mp hx) hnx.1 hnx.2)]
  rw [Finset.sum_insert (by simp [hik]), Finset.sum_singleton]

theorem filter_length_eq {α : Type} (p : α → Bool) :
    ∀ (l : List α), (l.filter p).length = l.length → l.filter p = l := by
  intro l
  induction l with
  | nil => intro _; rfl
  | cons a l ih =>
      intro h
      by_cases hp : p a
      · rw [List.filter_cons_of_pos hp] at h ⊢
        rw [ih (by simpa using h)]
      · rw [List.filter_cons_of_neg hp] at h
        have hle := List.length_filter_le p l
        rw [List.length_cons] at h
        omega

theorem q_dvd_foldr_lcm :
    ∀ (l : List Frac) (f : Frac), f ∈ l →
      f.q ∣ l.foldr (fun g a => Nat.lcm g.q a) 1 := by
  intro l
  induction l with
  | nil => intro f hf; cases hf
  | cons g l ih =>
      intro f hf
      rcases List.mem_cons.mp hf with h | h
      · rw [h]; exact Nat.dvd_lcm_left _ _
      · exact (ih f h).trans (Nat.dvd_lcm_right _ _)

theorem foldr_lcm_pos :
    ∀ (l : List Frac), (∀ f ∈ l, 1 ≤ f.q) →
      1 ≤ l.foldr (fun g a => Nat.lcm g.q a) 1 := by
  intro l
  induction l with
  | nil => intro _; exact le_refl 1
  | cons g l ih =>
      intro h
      exact Nat.lcm_pos (h g (by simp)) (ih (fun f hf => h f (by simp [hf])))

/-!
### Occurrence sums of the rebuilt sides
-/

theorem dictGet?_mem_nodup {d : Dict} (hnd : (d.map (fun kv => kv.1)).Nodup)
    {kv : Sym × Nat} (hkv : kv ∈ d) : dictGet? d kv.1 = some kv.2 := by
  induction d with
  | nil => cases hkv
  | cons e d ih =>
      rw [List.map_cons, List.nodup_cons] at hnd
      rcases List.mem_cons.mp hkv with h | h
      · rw [h]
        unfold dictGet?
        rw [if_pos rfl]
      · unfold dictGet?
        rw [if_neg, ih hnd.2 h]
        intro he
        exact hnd.1 (he ▸ List.mem_map.mpr ⟨kv, h, rfl⟩)

theorem dictVal_of_get?_none {d : Dict} {k : Sym} (h : dictGet? d k = none) :
    dictVal d k = 0 := by
  unfold dictVal
  rw [h]
  rfl

theorem dictGet?_cons (e : Sym × Nat) (d : Dict) (k : Sym) :
    dictGet? (e :: d) k = if e.1 = k then some e.2 else dictGet? d k := rfl

theorem mem_keys_of_get?_some {d : Dict} {k : Sym} {w : Nat}
    (h : dictGet? d k = some w) : k ∈ d.map (fun kv => kv.1) := by
  induction d with
  | nil => exact Option.noConfusion h
  | cons e d ih =>
      rw [dictGet?_cons] at h
      by_cases he : e.1 = k
      · rw [List.map_cons, ← he]
        exact List.mem_cons_self _ _
      · rw [if_neg he] at h
        exact List.mem_cons_of_mem _ (ih h)

theorem dictGet?_dictAdd (d : Dict) (k0 : Sym) (v : Nat) (k : Sym) :
    dictGet? (dictAdd d k0 v) k =
      if k0 = k then some ((dictGet? d k).getD 0 + v) else dictGet? d k := by
  induction d with
  | nil =>
      by_cases h : k0 = k <;> simp [dictAdd, dictGet?, h]
  | cons e d ih =>
      by_cases he : e.1 = k0
      · by_cases hk : e.1 = k
        · have hk0 : k0 = k := by rw [← he, hk]
          simp [dictAdd, dictGet?_cons, he, hk, hk0]
        · have hk0 : ¬ (k0 = k) := fun h => hk (by rw [he, h])
          simp [dictAdd, dictGet?_cons, he, hk, hk0]
      · by_cases hk : e.1 = k
        · have hk0 : ¬ (k0 = k) := fun h => he (by rw [hk, h])
          have hk0' : ¬ (k = k0) := fun h => hk0 h.symm
          simp [dictAdd, dictGet?_cons, he, hk, hk0, hk0']
        · simp [dictAdd, dictGet?_cons, he, hk, ih]

theorem dictVal_dictAdd (d : Dict) (k0 : Sym) (v : Nat) (k : Sym) :
    dictVal (dictAdd d k0 v) k = dictVal d k + (if k0 = k then v else 0) := by
  unfold dictVal
  rw [dictGet?_dictAdd]
  by_cases h : k0 = k <;> simp [h]

theorem keys_dictAdd_mem {d : Dict} {k0 : Sym} {v : Nat} {k : Sym} :
    k ∈ (dictAdd d k0 v).map (fun kv => kv.1)
      ↔ k ∈ d.map (fun kv => kv.1) ∨ k = k0 := by
  rw [keys_dictAdd]
  by_cases h : k0 ∈ d.map (fun kv => kv.1)
  · rw [if_pos h]
    constructor
    · exact Or.inl
    · rintro (hm | he)
      · exact hm
      · exact he ▸ h
  · rw [if_neg h]
    simp [List.mem_append]

theorem nodup_keys_dictAdd {d : Dict} {k0 : Sym} {v : Nat}
    (h : (d.map (fun kv => kv.1)).Nodup) :
    ((dictAdd d k0 v).map (fun kv => kv.1)).Nodup := by
  rw [keys_dictAdd]
  by_cases hm : k0 ∈ d.map (fun kv => kv.1)
  · rw [if_pos hm]; exact h
  · rw [if_neg hm]
    rw [List.nodup_append]
    exact ⟨h, List.nodup_singleton k0, by simpa using hm⟩

theorem pos_dictAdd {d : Dict} {k0 : Sym} {v : Nat}
    (h : ∀ kv ∈ d, 1 ≤ kv.2) (hv : 1 ≤ v) :
    ∀ kv ∈ dictAdd d k0 v, 1 ≤ kv.2 := by
  induction d with
  | nil =>
      intro kv hkv
      rw [List.mem_singleton.mp hkv]
      exact hv
  | cons e d ih =>
      intro kv hkv
      unfold dictAdd at hkv
      by_cases he : e.1 = k0
      · rw [if_pos he] at hkv
        rcases List.mem_cons.mp hkv with h' | h'
        · rw [h']
          have := h e (by simp)
          omega
        · exact h kv (by simp [h'])
      · rw [if_neg he] at hkv
        rcases List.mem_cons.mp hkv with h' | h'
        · rw [h']; exact h e (by simp)
        · exact ih (fun kv' hkv' => h kv' (by simp [hkv'])) kv h'

/-- Folding one compound occurrence dict into an accumulator adds its
counts (provided its keys are distinct). -/
theorem foldAdd_val (k : Sym) :
    ∀ (occ : Dict) (d : Dict), ((occ.map (fun kv => kv.1)).Nodup) →
    dictVal (occ.foldl (fun d kv => dictAdd d kv.1 kv.2) d) k
      = dictVal d k + dictVal occ k := by
  intro occ
  induction occ with
  | nil =>
      intro d _
      have h0 : dictVal ([] : Dict) k = 0 := rfl
      rw [List.foldl_nil, h0]
      omega
  | cons e occ ih =>
      intro d hnd
      rw [List.map_cons, List.nodup_cons] at hnd
      rw [List.foldl_cons, ih (dictAdd d e.1 e.2) hnd.2, dictVal_dictAdd]
      by_cases hk : e.1 = k
      · have hocc : dictGet? occ k = none := by
          cases hg : dictGet? occ k with
          | none => rfl
          | some w =>
              exfalso
              apply hnd.1
              rw [hk]
              exact mem_keys_of_get?_some hg
        have h1 : dictVal (e :: occ) k = e.2 := by
          unfold dictVal
          rw [dictGet?_cons, if_pos hk]
          rfl
        have h2 : dictVal occ k = 0 := dictVal_of_get?_none hocc
        rw [if_pos hk, h1, h2]
        omega
      · have h1 : dictVal (e :: occ) k = dictVal occ k := by
          unfold dictVal
          rw [dictGet?_cons, if_neg hk]
        rw [if_neg hk, h1]
        omega

theorem buildOcc_val (k : Sym) :
    ∀ (l : List Compound) (d : Dict),
    (∀ c ∈ l, ((c.occurences.map (fun kv => kv.1)).Nodup)) →
    dictVal (l.foldl
      (fun d c => c.occurences.foldl (fun d kv => dictAdd d kv.1 kv.2) d) d) k
      = dictVal d k + ((l.map (fun c => occVal c k)).sum) := by
  intro l
  induction l with
  | nil =>
      intro d _
      show dictVal d k = dictVal d k + 0
      rfl
  | cons c l ih =>
      intro d hnd
      rw [List.foldl_cons, ih _ (fun c' hc' => hnd c' (by simp [hc'])),
        foldAdd_val k c.occurences d (hnd c (by simp))]
      show _ = dictVal d k + (occVal c k + (l.map (fun c => occVal c k)).sum)
      have : dictVal c.occurences k = occVal c k := rfl
      omega

theorem dictVal_buildOcc (l : List Compound) (k : Sym)
    (hnd : ∀ c ∈ l, ((c.occurences.map (fun kv => kv.1)).Nodup)) :
    dictVal (buildOcc l) k = ((l.map (fun c => occVal c k)).sum) := by
  unfold buildOcc
  rw [buildOcc_val k l [] hnd]
  have h0 : dictVal ([] : Dict) k = 0 := rfl
  rw [h0, Nat.zero_add]

theorem foldAdd_keys_nodup :
    ∀ (occ : Dict) (d : Dict), (d.map (fun kv => kv.1)).Nodup →
      ((occ.foldl (fun d kv => dictAdd d kv.1 kv.2) d).map
        (fun kv => kv.1)).Nodup := by
  intro occ
  induction occ with
  | nil => intro d hd; exact hd
  | cons e occ ih =>
      intro d hd
      rw [List.foldl_cons]
      exact ih _ (nodup_keys_dictAdd hd)

theorem foldAdd_pos :
    ∀ (occ : Dict) (d : Dict), (∀ kv ∈ occ, 1 ≤ kv.2) → (∀ kv ∈ d, 1 ≤ kv.2) →
      ∀ kv ∈ occ.foldl (fun d kv => dictAdd d kv.1 kv.2) d, 1 ≤ kv.2 := by
  intro occ
  induction occ with
  | nil => intro d _ hd; exact hd
  | cons e occ ih =>
      intro d hocc hd
      rw [List.foldl_cons]
      exact ih _ (fun kv hkv => hocc kv (by simp [hkv]))
        (pos_dictAdd hd (hocc e (by simp)))

theorem nodup_keys_buildOcc (l : List Compound) :
    ((buildOcc l).map (fun kv => kv.1)).Nodup := by
  unfold buildOcc
  suffices h : ∀ (l : List Compound) (d : Dict),
      (d.map (fun kv => kv.1)).Nodup →
      ((l.foldl (fun d c => c.occurences.foldl
        (fun d kv => dictAdd d kv.1 kv.2) d) d).map (fun kv => kv.1)).Nodup by
    exact h l [] List.nodup_nil
  intro l
  induction l with
  | nil => intro d hd; exact hd
  | cons c l ih =>
      intro d hd
      rw [List.foldl_cons]
      exact ih _ (foldAdd_keys_nodup c.occurences d hd)

theorem pos_buildOcc (l : List Compound)
    (h : ∀ c ∈ l, ∀ kv ∈ c.occurences, 1 ≤ kv.2) :
    ∀ kv ∈ buildOcc l, 1 ≤ kv.2 := by
  unfold buildOcc
  suffices hs : ∀ (l : List Compound) (d : Dict),
      (∀ c ∈ l, ∀ kv ∈ c.occurences, 1 ≤ kv.2) → (∀ kv ∈ d, 1 ≤ kv.2) →
      ∀ kv ∈ l.foldl (fun d c => c.occurences.foldl
        (fun d kv => dictAdd d kv.1 kv.2) d) d, 1 ≤ kv.2 by
    exact hs l [] h (fun kv hkv => by cases hkv)
  intro l
  induction l with
  | nil => intro d _ hd; exact hd
  | cons c l ih =>
      intro d hl hd
      rw [List.foldl_cons]
      exact ih _ (fun c' hc' => hl c' (by simp [hc']))
        (foldAdd_pos c.occurences d (hl c (by simp)) hd)

theorem repl_flat_occ_sum (k : Sym) :
    ∀ (pl : List (Compound × Nat)),
    ((((pl.map (fun pc => List.replicate pc.2 pc.1)).flatten).map
      (fun c => occVal c k)).sum)
      = ((pl.map (fun pc => pc.2 * occVal pc.1 k)).sum) := by
  intro pl
  induction pl with
  | nil => simp
  | cons pc pl ih =>
      rw [List.map_cons, List.flatten_cons, List.map_append, List.sum_append,
        ih, List.map_cons, List.sum_cons, List.map_replicate,
        List.sum_replicate, smul_eq_mul]

theorem dedupByFormula_subset :
    ∀ (seen : List (List Char)) (l : List Compound) (c : Compound),
      c ∈ dedupByFormula seen l → c ∈ l := by
  intro seen l
  induction l generalizing seen with
  | nil => intro c hc; cases hc
  | cons a l ih =>
      intro c hc
      unfold dedupByFormula at hc
      by_cases hm : a.formula ∈ seen
      · rw [if_pos hm] at hc
        exact List.mem_cons_of_mem _ (ih seen c hc)
      · rw [if_neg hm] at hc
        rcases List.mem_cons.mp hc with h | h
        · exact h ▸ List.mem_cons_self _ _
        · exact List.mem_cons_of_mem _ (ih _ c h)

theorem mem_dedupAcc [DecidableEq α] :
    ∀ (seen l : List α) (x : α), x ∈ l → x ∈ dedupAcc seen l ∨ x ∈ seen := by
  intro seen l
  induction l generalizing seen with
  | nil => intro x hx; cases hx
  | cons a l ih =>
      intro x hx
      unfold dedupAcc
      by_cases hm : a ∈ seen
      · rw [if_pos hm]
        rcases List.mem_cons.mp hx with h | h
        · exact Or.inr (h ▸ hm)
        · exact ih seen x h
      · rw [if_neg hm]
        rcases List.mem_cons.mp hx with h | h
        · exact Or.inl (h ▸ List.mem_cons_self _ _)
        · rcases ih (a :: seen) x h with h' | h'
          · exact Or.inl (List.mem_cons_of_mem _ h')
          · rcases List.mem_cons.mp h' with h'' | h''
            · exact Or.inl (h'' ▸ List.mem_cons_self _ _)
            · exact Or.inr h''

theorem mem_drop_range {m k i : Nat} (h1 : k ≤ i) (h2 : i < m) :
    i ∈ (List.range m).drop k := by
  have h : ((List.range m).drop k).get? (i - k) = some i := by
    rw [(List.range m).get?_drop k (i - k), show k + (i - k) = i by omega]
    exact List.get?_range h2
  exact List.get?_mem h

theorem rref_RowsOk (r : Reaction) :
    RowsOk (rref r.matrixOf r.distinctCompounds.length).1 :=
  (rrefGo_inv _ 0 0 _ [] (matrixOf_RowsOk r)).1

theorem rref_ker (r : Reaction) (n' : Nat) (x : Nat → ℚ)
    (h : KernQ (rref r.matrixOf r.distinctCompounds.length).1 n' x) :
    KernQ r.matrixOf n' x :=
  (rrefGo_inv _ 0 0 _ [] (matrixOf_RowsOk r)).2 n' x h

theorem sfrac_Ok (r : Reaction) (i : Nat) : (r.sfrac i).Ok :=
  getRow_Ok (rref_RowsOk r) i _

theorem srow_Ok (r : Reaction) (i j : Nat) : (r.srow i j).Ok :=
  getRow_Ok (rref_RowsOk r) i j

theorem solsOf_length (r : Reaction) :
    r.solsOf.length = (rref r.matrixOf r.distinctCompounds.length).1.length :=
  List.length_map _ _

theorem solsOf_get? (r : Reaction) (i : Nat)
    (hi : i < (rref r.matrixOf r.distinctCompounds.length).1.length) :
    r.solsOf.get? i = some (r.sfrac i) := by
  unfold Reaction.solsOf Reaction.sfrac Reaction.srow
  rw [List.get?_map]
  obtain ⟨row, hrow⟩ := Option.isSome_iff_exists.mp (get?_isSome_of_lt _ i hi)
  rw [hrow]
  unfold getRow
  rw [hrow]
  rfl

theorem sfrac_q_dvd (r : Reaction) (i : Nat)
    (hi : i < (rref r.matrixOf r.distinctCompounds.length).1.length) :
    (r.sfrac i).q ∣ r.lcmOf := by
  unfold Reaction.lcmOf
  exact q_dvd_foldr_lcm _ _ (List.get?_mem (solsOf_get? r i hi))

theorem lcmOf_pos (r : Reaction) : 1 ≤ r.lcmOf := by
  unfold Reaction.lcmOf
  apply foldr_lcm_pos
  intro f hf
  unfold Reaction.solsOf at hf
  obtain ⟨row, hrow, hEq⟩ := List.mem_map.mp hf
  rw [← hEq]
  exact Frac.q_pos (rref_RowsOk r row hrow _)

/-- Unpacking of the single-free-variable shape into pointwise facts
about the reduced rows. -/
theorem sfvShape_spec {r : Reaction} (h : r.sfvShape = true) :
    1 ≤ r.distinctCompounds.length ∧
    r.distinctCompounds.length - 1
      ≤ (rref r.matrixOf r.distinctCompounds.length).1.length ∧
    (∀ i, i < r.distinctCompounds.length - 1 →
      (r.srow i i).eqv (Frac.ofInt 1) = true) ∧
    (∀ i, i < r.distinctCompounds.length - 1 →
      ∀ j, j < r.distinctCompounds.length → j ≠ i →
        j ≠ r.distinctCompounds.length - 1 →
        (r.srow i j).eqv (Frac.ofInt 0) = true) ∧
    (∀ i, r.distinctCompounds.length - 1 ≤ i →
      i < (rref r.matrixOf r.distinctCompounds.length).1.length →
      ∀ j, j < r.distinctCompounds.length →
        (r.srow i j).eqv (Frac.ofInt 0) = true) := by
  simp only [Reaction.sfvShape, Bool.and_eq_true, decide_eq_true_eq,
    List.all_eq_true, List.mem_range] at h
  obtain ⟨⟨⟨h1, h2⟩, h3⟩, h4⟩ := h
  refine ⟨h1, h2, ?_, ?_, ?_⟩
  · intro i hi
    have hin : i < r.distinctCompounds.length := by omega
    have := h3 i hi i hin
    rw [if_pos rfl] at this
    exact this
  · intro i hi j hj hji hjn
    have := h3 i hi j hj
    rw [if_neg hji, if_neg hjn] at this
    exact this
  · intro i hge hlt j hj
    exact h4 i (mem_drop_range hge hlt) j hj

theorem sfvSignOk_spec {r : Reaction} (h : r.sfvSignOk = true) :
    ∀ i, i < (rref r.matrixOf r.distinctCompounds.length).1.length →
      (r.sfrac i).num * (r.sfrac i).den ≤ 0 := by
  simp only [Reaction.sfvSignOk, List.all_eq_true, List.mem_range,
    decide_eq_true_eq] at h
  exact h

/-- Characterization of the final coefficient list under the shape
assumption: the scaled nonzero entries in order, then the lcm. -/
theorem finStage_spec (n L : Nat) (sols : List Frac) (nz fin : List Nat)
    (hnz : nz = ((sols.map (fun f => ((L : Int) * f.num).tdiv f.den)).map
      Int.natAbs).filter (fun a => a ≠ 0))
    (hfin : fin = if n > nz.length then nz ++ [L] else nz)
    (hn1 : 1 ≤ n) (hnR : n - 1 ≤ sols.length)
    (hzero : ∀ i f, n - 1 ≤ i → sols.get? i = some f → f.num = 0)
    (hL : 1 ≤ L)
    (hsucc : n ≤ fin.length) :
    fin.length = n ∧
    (∀ i, i < n - 1 → fin.get? i = (sols.get? i).map
      (fun f => (((L : Int) * f.num).tdiv f.den).natAbs)) ∧
    fin.get? (n - 1) = some L ∧
    (∀ a ∈ fin, 1 ≤ a) := by
  have hmm : (sols.map (fun f => ((L : Int) * f.num).tdiv f.den)).map Int.natAbs
      = sols.map (fun f => (((L : Int) * f.num).tdiv f.den).natAbs) :=
    List.map_map _ _ _
  have hdropnil : (((sols.drop (n - 1)).map
      (fun f => (((L : Int) * f.num).tdiv f.den).natAbs)).filter
        (fun a => a ≠ 0)) = [] := by
    rw [List.filter_eq_nil_iff]
    intro a ha
    obtain ⟨f, hf, hgf⟩ := List.mem_map.mp ha
    obtain ⟨t, ht⟩ := List.mem_iff_get?.mp hf
    rw [sols.get?_drop (n - 1) t] at ht
    have hnum : f.num = 0 := hzero _ f (by omega) ht
    rw [← hgf, hnum]
    simp
  have hnzA : nz = ((sols.take (n - 1)).map
      (fun f => (((L : Int) * f.num).tdiv f.den).natAbs)).filter
        (fun a => a ≠ 0) := by
    rw [hnz, hmm]
    conv_lhs => rw [← List.take_append_drop (n - 1) sols]
    rw [List.map_append, List.filter_append, hdropnil, List.append_nil]
  have hAlen : ((sols.take (n - 1)).map
      (fun f => (((L : Int) * f.num).tdiv f.den).natAbs)).length = n - 1 := by
    rw [List.length_map, List.length_take]
    omega
  have hlen1 : nz.length ≤ n - 1 := by
    rw [hnzA]
    calc (((sols.take (n - 1)).map _).filter _).length
        ≤ ((sols.take (n - 1)).map
            (fun f => (((L : Int) * f.num).tdiv f.den).natAbs)).length :=
          List.length_filter_le _ _
      _ = n - 1 := hAlen
  have hfin2 : fin = nz ++ [L] := by
    rw [hfin, if_pos (by omega : n > nz.length)]
  have hsucc2 : n ≤ nz.length + 1 := by
    rw [hfin2, List.length_append] at hsucc
    simpa using hsucc
  have hnzlen : nz.length = n - 1 := by omega
  have hnzeq : nz = (sols.take (n - 1)).map
      (fun f => (((L : Int) * f.num).tdiv f.den).natAbs) := by
    rw [hnzA]
    apply filter_length_eq
    rw [← hnzA, hnzlen, hAlen]
  refine ⟨?_, ?_, ?_, ?_⟩
  · rw [hfin2, List.length_append, hnzlen]
    simp
    omega
  · intro i hi
    rw [hfin2, List.get?_append (by rw [hnzlen]; exact hi), hnzeq,
      List.get?_map, List.get?_take hi]
  · rw [hfin2, List.get?_append_right (by omega), hnzlen]
    rw [show n - 1 - (n - 1) = 0 by omega]
    rfl
  · intro a ha
    rw [hfin2] at ha
    rcases List.mem_append.mp ha with h | h
    · rw [hnzA] at h
      have := List.of_mem_filter h
      simp only [ne_eq, decide_not] at this
      rcases Nat.eq_zero_or_pos a with h0 | h0
      · rw [h0] at this
        simp at this
      · exact h0
    · rw [List.mem_singleton.mp h]
      exact hL

theorem finOf_spec (r : Reaction)
    (hshape : r.sfvShape = true)
    (hsucc : r.distinctCompounds.length ≤ r.finOf.length) :
    r.finOf.length = r.distinctCompounds.length ∧
    (∀ i, i < r.distinctCompounds.length - 1 →
      r.finOf.get? i = some (r.scaledAt i).natAbs) ∧
    r.finOf.get? (r.distinctCompounds.length - 1) = some r.lcmOf ∧
    (∀ a ∈ r.finOf, 1 ≤ a) := by
  obtain ⟨hn1, hnR, hdiag, hoff, hzero⟩ := sfvShape_spec hshape
  have hzero' : ∀ i f, r.distinctCompounds.length - 1 ≤ i →
      r.solsOf.get? i = some f → f.num = 0 := by
    intro i f hge hget
    have hilt : i < r.solsOf.length := get?_lt_of_some hget
    rw [solsOf_length] at hilt
    have hf : f = r.sfrac i := by
      have := solsOf_get? r i hilt
      rw [hget] at this
      exact Option.some_injective _ this
    have hz := hzero i hge hilt (r.distinctCompounds.length - 1) (by omega)
    rw [hf]
    exact Frac.eqv_zero.mp hz
  obtain ⟨hlen, hget, hlast, hpos⟩ := finStage_spec
    r.distinctCompounds.length r.lcmOf r.solsOf r.nzOf r.finOf rfl rfl hn1
    (by rw [solsOf_length]; exact hnR) hzero' (lcmOf_pos r) hsucc
  refine ⟨hlen, ?_, hlast, hpos⟩
  intro i hi
  rw [hget i hi]
  have hilt : i < (rref r.matrixOf r.distinctCompounds.length).1.length := by
    omega
  rw [solsOf_get? r i hilt]
  rfl

/-- The final coefficient assignment lies in the kernel of the reduced
matrix (this is where sign coherence and exact divisibility enter). -/
theorem fin_kernel (r : Reaction)
    (hshape : r.sfvShape = true) (hsign : r.sfvSignOk = true)
    (hsucc : r.distinctCompounds.length ≤ r.finOf.length) :
    KernQ (rref r.matrixOf r.distinctCompounds.length).1
      r.distinctCompounds.length r.xQ := by
  obtain ⟨hn1, hnR, hdiag, hoff, hzero⟩ := sfvShape_spec hshape
  obtain ⟨hlen, hget, hlast, hpos⟩ := finOf_spec r hshape hsucc
  have hsign' := sfvSignOk_spec hsign
  intro row hrow
  obtain ⟨i, hi⟩ := List.mem_iff_get?.mp hrow
  have hilt : i < (rref r.matrixOf r.distinctCompounds.length).1.length :=
    get?_lt_of_some hi
  have hrowi : r.srow i = row := by
    unfold Reaction.srow getRow
    rw [hi]
    rfl
  by_cases hlt : i < r.distinctCompounds.length - 1
  · have hxlast : r.xQ (r.distinctCompounds.length - 1) = (r.lcmOf : ℚ) := by
      unfold Reaction.xQ
      rw [hlast]
      rfl
    have hden : 0 < (r.sfrac i).den := sfrac_Ok r i
    have hnum_le : (r.sfrac i).num ≤ 0 := by
      have hs := hsign' i hilt
      by_contra hposn
      push_neg at hposn
      have := mul_pos hposn hden
      linarith
    have htoQ_le : (r.sfrac i).toQ ≤ 0 :=
      (Frac.toQ_nonpos (sfrac_Ok r i)).mpr hnum_le
    have hexact : ((r.scaledAt i : Int) : ℚ) = (r.lcmOf : ℚ) * (r.sfrac i).toQ :=
      Frac.tdiv_exact (sfrac_Ok r i) (sfrac_q_dvd r i hilt)
    have hscaled_le : ((r.scaledAt i : Int) : ℚ) ≤ 0 := by
      rw [hexact]
      nlinarith [htoQ_le, show (0:ℚ) ≤ (r.lcmOf : ℚ) by positivity]
    have hx_i : r.xQ i = -((r.lcmOf : ℚ) * (r.sfrac i).toQ) := by
      unfold Reaction.xQ
      rw [hget i hlt]
      show (((r.scaledAt i).natAbs : Nat) : ℚ) = _
      rw [Int.cast_natAbs, Int.cast_abs, abs_of_nonpos hscaled_le, hexact]
    have hrow_i_toQ : (row i).toQ = 1 := by
      rw [← hrowi]
      have h1 := (Frac.eqv_toQ (srow_Ok r i i) (Frac.Ok.ofInt 1)).mp (hdiag i hlt)
      rw [Frac.toQ_ofInt] at h1
      simpa using h1
    have hsum := sum_two_support (n := r.distinctCompounds.length)
      (i := i) (k := r.distinctCompounds.length - 1)
      (f := fun j => (row j).toQ * r.xQ j)
      (by omega) (by omega) (by omega)
      (fun j hj hji hjn => by
        show (row j).toQ * r.xQ j = 0
        have hz := hoff i hlt j hj hji hjn
        have hz' : (row j).toQ = 0 := by
          rw [← hrowi]
          exact Frac.toQ_zero_of_num (Frac.eqv_zero.mp hz)
        rw [hz', zero_mul])
    unfold dotQ
    rw [hsum]
    show (row i).toQ * r.xQ i
        + (row (r.distinctCompounds.length - 1)).toQ
          * r.xQ (r.distinctCompounds.length - 1) = 0
    rw [hrow_i_toQ, one_mul, hx_i, hxlast]
    have hfr : row (r.distinctCompounds.length - 1) = r.sfrac i := by
      rw [← hrowi]
      rfl
    rw [hfr]
    ring
  · apply dotQ_eq_zero
    intro j hj
    rw [← hrowi]
    exact Frac.toQ_zero_of_num
      (Frac.eqv_zero.mp (hzero i (by omega) hilt j hj))

/-- Per-element conservation of the solved coefficients: for every
symbol, the coefficient-weighted atom counts of the reactant-side
distinct compounds and of the product-side distinct compounds agree. -/
theorem elem_balance (r : Reaction)
    (hWFp : ∀ c ∈ r.compounds, ∀ kv ∈ c.occurences, 1 ≤ kv.2)
    (hdisj : ∀ f ∈ r.reactant_formulas, f ∉ r.product_formulas)
    (hshape : r.sfvShape = true) (hsign : r.sfvSignOk = true)
    (hsucc : r.distinctCompounds.length ≤ r.finOf.length) (m : Sym) :
    ((((r.distinctCompounds.zip r.finOf).filter
        (fun pc => pc.1.formula ∈ r.reactant_formulas)).map
      (fun pc => pc.2 * occVal pc.1 m)).sum)
    = ((((r.distinctCompounds.zip r.finOf).filter
        (fun pc => pc.1.formula ∈ r.product_formulas)).map
      (fun pc => pc.2 * occVal pc.1 m)).sum) := by
  have hsub : ∀ p : Compound × Nat, p ∈ r.distinctCompounds.zip r.finOf →
      p.1 ∈ r.compounds := fun p hp =>
    dedupByFormula_subset [] r.compounds p.1 (List.of_mem_zip hp).1
  by_cases hm : m ∈ r.seenSyms
  · obtain ⟨ei, hei⟩ := List.mem_iff_get?.mp hm
    have heilt : ei < r.seenSyms.length := get?_lt_of_some hei
    have hK : KernQ r.matrixOf r.distinctCompounds.length r.xQ :=
      rref_ker r _ _ (fin_kernel r hshape hsign hsucc)
    have hrowmem : (fun j => (((r.distinctCompounds.map r.colOf).get? j).map
        (fun col => (col.get? ei).getD (Frac.ofInt 0))).getD (Frac.ofInt 0))
        ∈ r.matrixOf := by
      simp only [Reaction.matrixOf]
      exact List.mem_map.mpr ⟨ei, List.mem_range.mpr heilt, rfl⟩
    have hdot := hK _ hrowmem
    have hlen : r.finOf.length = r.distinctCompounds.length :=
      (finOf_spec r hshape hsucc).1
    have hzip := finsum_zip r.distinctCompounds r.finOf
      (fun c b => (if c.formula ∈ r.product_formulas then -((occVal c m : ℚ))
        else (occVal c m : ℚ)) * (b : ℚ))
      (fun j => ((fun j => (((r.distinctCompounds.map r.colOf).get? j).map
        (fun col => (col.get? ei).getD (Frac.ofInt 0))).getD (Frac.ofInt 0)) j).toQ
          * r.xQ j)
      hlen
      (fun j a b hja hjb => by
        dsimp only
        rw [List.get?_map, hja]
        simp only [Option.map_some']
        unfold Reaction.colOf
        rw [List.get?_map, hei]
        simp only [Option.map_some', Option.getD_some]
        have hx : r.xQ j = (b : ℚ) := by
          unfold Reaction.xQ
          rw [hjb]
          rfl
        rw [hx]
        by_cases hpf : a.formula ∈ r.product_formulas
        · rw [if_pos hpf, if_pos hpf, Frac.toQ_ofInt]
          push_cast
          ring
        · rw [if_neg hpf, if_neg hpf, Frac.toQ_ofInt]
          push_cast
          ring)
    have hzipsum : (((r.distinctCompounds.zip r.finOf).map
        (fun p => (if p.1.formula ∈ r.product_formulas then -((occVal p.1 m : ℚ))
          else (occVal p.1 m : ℚ)) * (p.2 : ℚ))).sum) = 0 := by
      rw [← hzip]
      exact hdot
    have hsplit := sum_filter_split
      (fun pc => pc.1.formula ∈ r.product_formulas)
      (fun p => (if p.1.formula ∈ r.product_formulas then -((occVal p.1 m : ℚ))
        else (occVal p.1 m : ℚ)) * (p.2 : ℚ))
      (r.distinctCompounds.zip r.finOf)
    have hprodpart : (((r.distinctCompounds.zip r.finOf).filter
          (fun pc => pc.1.formula ∈ r.product_formulas)).map
        (fun p => (if p.1.formula ∈ r.product_formulas then -((occVal p.1 m : ℚ))
          else (occVal p.1 m : ℚ)) * (p.2 : ℚ))).sum
        = -((((r.distinctCompounds.zip r.finOf).filter
          (fun pc => pc.1.formula ∈ r.product_formulas)).map
        (fun p => ((occVal p.1 m : ℚ)) * (p.2 : ℚ))).sum) := by
      rw [← sum_map_neg]
      apply congrArg List.sum
      apply List.map_congr_left
      intro p hp
      have hpf : p.1.formula ∈ r.product_formulas := by
        have h := List.of_mem_filter hp
        simp only [decide_eq_true_eq] at h
        exact h
      rw [if_pos hpf]
      ring
    have hfiltcong : (r.distinctCompounds.zip r.finOf).filter
          (fun pc => !(decide (pc.1.formula ∈ r.product_formulas)))
        = (r.distinctCompounds.zip r.finOf).filter
          (fun pc => pc.1.formula ∈ r.reactant_formulas) := by
      apply List.filter_congr
      intro p hp
      have hcomp : p.1 ∈ r.reactants ++ r.products := hsub p hp
      rcases List.mem_append.mp hcomp with hr | hp2
      · have hrf : p.1.formula ∈ r.reactant_formulas :=
          List.mem_map.mpr ⟨p.1, hr, rfl⟩
        have hnp : p.1.formula ∉ r.product_formulas := hdisj _ hrf
        simp [hrf, hnp]
      · have hpf : p.1.formula ∈ r.product_formulas :=
          List.mem_map.mpr ⟨p.1, hp2, rfl⟩
        have hnr : p.1.formula ∉ r.reactant_formulas :=
          fun hrf => hdisj _ hrf hpf
        simp [hpf, hnr]
    have hreactpart : (((r.distinctCompounds.zip r.finOf).filter
          (fun pc => !(decide (pc.1.formula ∈ r.product_formulas)))).map
        (fun p => (if p.1.formula ∈ r.product_formulas then -((occVal p.1 m : ℚ))
          else (occVal p.1 m : ℚ)) * (p.2 : ℚ))).sum
        = (((r.distinctCompounds.zip r.finOf).filter
          (fun pc => pc.1.formula ∈ r.reactant_formulas)).map
        (fun p => ((occVal p.1 m : ℚ)) * (p.2 : ℚ))).sum := by
      rw [hfiltcong]
      apply congrArg List.sum
      apply List.map_congr_left
      intro p hp
      have hrf : p.1.formula ∈ r.reactant_formulas := by
        have h := List.of_mem_filter hp
        simp only [decide_eq_true_eq] at h
        exact h
      have hnp : p.1.formula ∉ r.product_formulas := hdisj _ hrf
      rw [if_neg hnp]
    have hcast : ∀ (T : List (Compound × Nat)),
        ((T.map (fun p => ((occVal p.1 m : ℚ)) * (p.2 : ℚ))).sum)
          = (((T.map (fun p => p.2 * occVal p.1 m)).sum : Nat) : ℚ) := by
      intro T
      induction T with
      | nil => simp
      | cons p T ih =>
          simp only [List.map_cons, List.sum_cons, ih]
          push_cast
          ring
    have hcomb : (0 : ℚ)
        = (((r.distinctCompounds.zip r.finOf).filter
            (fun pc => pc.1.formula ∈ r.product_formulas)).map
          (fun p => (if p.1.formula ∈ r.product_formulas
            then -((occVal p.1 m : ℚ)) else (occVal p.1 m : ℚ)) * (p.2 : ℚ))).sum
        + (((r.distinctCompounds.zip r.finOf).filter
            (fun pc => !(decide (pc.1.formula ∈ r.product_formulas)))).map
          (fun p => (if p.1.formula ∈ r.product_formulas
            then -((occVal p.1 m : ℚ)) else (occVal p.1 m : ℚ)) * (p.2 : ℚ))).sum := by
      rw [← hzipsum]
      exact hsplit
    rw [hprodpart, hreactpart, hcast, hcast] at hcomb
    have hfinal : (((((r.distinctCompounds.zip r.finOf).filter
          (fun pc => pc.1.formula ∈ r.reactant_formulas)).map
        (fun pc => pc.2 * occVal pc.1 m)).sum : Nat) : ℚ)
        = ((((((r.distinctCompounds.zip r.finOf).filter
          (fun pc => pc.1.formula ∈ r.product_formulas)).map
        (fun pc => pc.2 * occVal pc.1 m)).sum : Nat) : ℚ)) := by
      linarith
    exact_mod_cast hfinal
  · have hz : ∀ p : Compound × Nat, p ∈ r.distinctCompounds.zip r.finOf →
        occVal p.1 m = 0 := by
      intro p hp
      by_contra hnz
      have hcomp : p.1 ∈ r.compounds := hsub p hp
      obtain ⟨w, hw⟩ : ∃ w, dictGet? p.1.occurences m = some w := by
        cases hg : dictGet? p.1.occurences m with
        | none =>
            exfalso
            apply hnz
            unfold occVal
            rw [hg]
            rfl
        | some w => exact ⟨w, rfl⟩
      obtain ⟨kv, hkv, hkv1⟩ :=
        List.mem_map.mp (mem_keys_of_get?_some hw)
      have hkvpos : 1 ≤ kv.2 := hWFp p.1 hcomp kv hkv
      have hsyms : m ∈ p.1.elementsSyms := by
        unfold Compound.elementsSyms
        apply List.mem_flatten.mpr
        refine ⟨List.replicate kv.2 kv.1, List.mem_map.mpr ⟨kv, hkv, rfl⟩, ?_⟩
        rw [hkv1]
        exact List.mem_replicate.mpr ⟨by omega, rfl⟩
      have hflat : m ∈ flatSyms r.compounds := by
        unfold flatSyms
        exact List.mem_flatten.mpr
          ⟨p.1.elementsSyms, List.mem_map.mpr ⟨p.1, hcomp, rfl⟩, hsyms⟩
      rcases mem_dedupAcc [] (flatSyms r.compounds) m hflat with h | h
      · exact hm h
      · cases h
    have hz1 : ∀ T : List (Compound × Nat),
        (∀ p ∈ T, p ∈ r.distinctCompounds.zip r.finOf) →
        ((T.map (fun pc => pc.2 * occVal pc.1 m)).sum) = 0 := by
      intro T hT
      apply List.sum_eq_zero
      intro x hx
      obtain ⟨p, hp, hpx⟩ := List.mem_map.mp hx
      rw [← hpx, hz p (hT p hp), Nat.mul_zero]
    rw [hz1 _ (fun p hp => List.mem_of_mem_filter hp),
      hz1 _ (fun p hp => List.mem_of_mem_filter hp)]

/-- Two dicts with distinct keys, positive values and equal value
functions are equal as Python dicts. -/
theorem pyDictEq_of_val (d1 d2 : Dict)
    (hnd1 : (d1.map (fun kv => kv.1)).Nodup)
    (hnd2 : (d2.map (fun kv => kv.1)).Nodup)
    (hp1 : ∀ kv ∈ d1, 1 ≤ kv.2) (hp2 : ∀ kv ∈ d2, 1 ≤ kv.2)
    (hval : ∀ m, dictVal d1 m = dictVal d2 m) :
    pyDictEq d1 d2 = true := by
  unfold pyDictEq
  rw [Bool.and_eq_true, List.all_eq_true, List.all_eq_true]
  simp only [decide_eq_true_eq]
  constructor
  · intro kv hkv
    have h1 : dictGet? d1 kv.1 = some kv.2 := dictGet?_mem_nodup hnd1 hkv
    have hv1 : dictVal d1 kv.1 = kv.2 := by
      unfold dictVal
      rw [h1]
      rfl
    have hvp : 1 ≤ dictVal d2 kv.1 := by
      rw [← hval kv.1, hv1]
      exact hp1 kv hkv
    cases hg : dictGet? d2 kv.1 with
    | none =>
        rw [dictVal_of_get?_none hg] at hvp
        omega
    | some w =>
        have hw : w = kv.2 := by
          have h2 : dictVal d2 kv.1 = w := by
            unfold dictVal
            rw [hg]
            rfl
          rw [← h2, ← hval kv.1, hv1]
        rw [hw]
  · intro kv hkv
    have h2 : dictGet? d2 kv.1 = some kv.2 := dictGet?_mem_nodup hnd2 hkv
    have hv2 : dictVal d2 kv.1 = kv.2 := by
      unfold dictVal
      rw [h2]
      rfl
    have hvp : 1 ≤ dictVal d1 kv.1 := by
      rw [hval kv.1, hv2]
      exact hp2 kv hkv
    cases hg : dictGet? d1 kv.1 with
    | none =>
        rw [dictVal_of_get?_none hg] at hvp
        omega
    | some w =>
        have hw : w = kv.2 := by
          have h1 : dictVal d1 kv.1 = w := by
            unfold dictVal
            rw [hg]
            rfl
          rw [← h1, hval kv.1, hv2]
        rw [hw]

theorem mem_rebuilt_side (r : Reaction) (P : Compound × Nat → Bool)
    (c : Compound)
    (hc : c ∈ (((r.distinctCompounds.zip r.finOf).filter P).map
      (fun pc => List.replicate pc.2 pc.1)).flatten) : c ∈ r.compounds := by
  obtain ⟨blk, hblk, hcblk⟩ := List.mem_flatten.mp hc
  obtain ⟨pc, hpc, hpcblk⟩ := List.mem_map.mp hblk
  rw [← hpcblk] at hcblk
  rw [List.eq_of_mem_replicate hcblk]
  exact dedupByFormula_subset [] r.compounds pc.1
    (List.of_mem_zip (List.mem_of_mem_filter hpc)).1

/-- **C1** (corrected).  For every Reaction with well-formed compound
occurrence maps (distinct keys, positive counts) and disjoint reactant
and product formula sets, whose element-conservation system satisfies
the single-free-variable shape and whose solution column is
sign-coherent (all entries nonpositive), any reaction returned by
`balance()` has `reactant_occurences == product_occurences`, i.e. is
balanced.  Without the sign-coherence condition the claim as stated is
refuted by `claim_C1_counterexample`: taking absolute values of a
mixed-sign solution destroys the kernel relation. -/
theorem claim_C1 (r r' : Reaction)
    (hWFn : ∀ c ∈ r.compounds, ((c.occurences.map (fun kv => kv.1)).Nodup))
    (hWFp : ∀ c ∈ r.compounds, ∀ kv ∈ c.occurences, 1 ≤ kv.2)
    (hdisj : ∀ f ∈ r.reactant_formulas, f ∉ r.product_formulas)
    (hshape : r.sfvShape = true)
    (hsign : r.sfvSignOk = true)
    (hbal : r.balance = some r') :
    r'.is_balanced = true := by
  unfold Reaction.balance at hbal
  by_cases hb : r.is_balanced
  · rw [if_pos hb] at hbal
    rw [← Option.some_injective _ hbal]
    exact hb
  · rw [if_neg hb] at hbal
    unfold Reaction.balanceSolve at hbal
    dsimp only at hbal
    by_cases hsucc : r.distinctCompounds.length ≤ r.finOf.length
    · rw [if_pos hsucc] at hbal
      rw [← Option.some_injective _ hbal]
      unfold Reaction.is_balanced Reaction.reactant_occurences
        Reaction.product_occurences
      dsimp only
      have hval : ∀ m,
          dictVal (buildOcc (((r.distinctCompounds.zip r.finOf).filter
            (fun pc => pc.1.formula ∈ r.reactant_formulas)).map
              (fun pc => List.replicate pc.2 pc.1)).flatten) m
          = dictVal (buildOcc (((r.distinctCompounds.zip r.finOf).filter
            (fun pc => pc.1.formula ∈ r.product_formulas)).map
              (fun pc => List.replicate pc.2 pc.1)).flatten) m := by
        intro m
        rw [dictVal_buildOcc _ m
            (fun c hc => hWFn c (mem_rebuilt_side r _ c hc)),
          dictVal_buildOcc _ m
            (fun c hc => hWFn c (mem_rebuilt_side r _ c hc)),
          repl_flat_occ_sum, repl_flat_occ_sum]
        exact elem_balance r hWFp hdisj hshape hsign hsucc m
      exact pyDictEq_of_val _ _ (nodup_keys_buildOcc _) (nodup_keys_buildOcc _)
        (pos_buildOcc _ (fun c hc => hWFp c (mem_rebuilt_side r _ c hc)))
        (pos_buildOcc _ (fun c hc => hWFp c (mem_rebuilt_side r _ c hc)))
        hval
    · rw [if_neg hsucc] at hbal
      exact absurd hbal (by simp)

/-- **C1 counterexample**: `rMixed` (H2O + H2 --> O) has well-formed
occurrence maps, disjoint sides, and satisfies the single-free-variable
assumption, yet `balance()` returns it unchanged and it is not
balanced: its solution column has mixed signs (`sfvSignOk = false`),
and the absolute-value step erases the sign information.  This refutes
the claim as stated. -/
theorem claim_C1_counterexample :
    (∀ c ∈ rMixed.compounds, ((c.occurences.map (fun kv => kv.1)).Nodup)) ∧
    (∀ c ∈ rMixed.compounds, ∀ kv ∈ c.occurences, 1 ≤ kv.2) ∧
    (∀ f ∈ rMixed.reactant_formulas, f ∉ rMixed.product_formulas) ∧
    rMixed.sfvShape = true ∧ rMixed.sfvSignOk = false ∧
    rMixed.balance = some rMixed ∧ rMixed.is_balanced = false := by
  decide

/-- **C1 witness**: the hypotheses of `claim_C1` are satisfiable — on
H2 + O2 --> H2O the balancer returns 2 H2 + O2 --> 2 H2O, which the
theorem certifies as balanced. -/
theorem claim_C1_witness :
    (∀ c ∈ rWater.compounds, ((c.occurences.map (fun kv => kv.1)).Nodup)) ∧
    (∀ c ∈ rWater.compounds, ∀ kv ∈ c.occurences, 1 ≤ kv.2) ∧
    (∀ f ∈ rWater.reactant_formulas, f ∉ rWater.product_formulas) ∧
    rWater.sfvShape = true ∧ rWater.sfvSignOk = true ∧
    rWater.balance = some rBal ∧ rBal.is_balanced = true :=
  ⟨by decide, by decide, by decide, by decide, by decide, by decide,
    claim_C1 rWater rBal (by decide) (by decide) (by decide) (by decide)
      (by decide) (by decide)⟩

theorem dedupAcc_append [DecidableEq α] :
    ∀ (l1 l2 seen : List α),
      dedupAcc seen (l1 ++ l2)
        = dedupAcc seen l1 ++ dedupAcc (accAfter seen l1) l2 := by
  intro l1
  induction l1 with
  | nil => intro l2 seen; rfl
  | cons a l1 ih =>
      intro l2 seen
      by_cases h : a ∈ seen
      · simp only [List.cons_append, dedupAcc, accAfter, if_pos h]
        exact ih l2 seen
      · simp only [List.cons_append, dedupAcc, accAfter, if_neg h,
          List.append_eq]
        rw [ih l2 (a :: seen)]

theorem accAfter_mem [DecidableEq α] :
    ∀ (l seen : List α) (x : α), x ∈ accAfter seen l ↔ x ∈ seen ∨ x ∈ l := by
  intro l
  induction l with
  | nil => intro seen x; simp [accAfter]
  | cons a l ih =>
      intro seen x
      by_cases h : a ∈ seen
      · simp only [accAfter, if_pos h, ih, List.mem_cons]
        constructor
        · rintro (h1 | h1)
          · exact Or.inl h1
          · exact Or.inr (Or.inr h1)
        · rintro (h1 | h1 | h1)
          · exact Or.inl h1
          · exact Or.inl (h1 ▸ h)
          · exact Or.inr h1
      · simp only [accAfter, if_neg h, ih, List.mem_cons]
        tauto

theorem dedupAcc_sub_append [DecidableEq α] :
    ∀ (B Y seen : List α), (∀ x ∈ B, x ∈ seen) →
      dedupAcc seen (B ++ Y) = dedupAcc seen Y := by
  intro B
  induction B with
  | nil => intro Y seen _; rfl
  | cons b B ih =>
      intro Y seen h
      simp only [List.cons_append, dedupAcc, if_pos (h b (List.mem_cons_self b B))]
      exact ih Y seen (fun x hx => h x (List.mem_cons_of_mem b hx))

theorem dedupAcc_congr [DecidableEq α] :
    ∀ (l s1 s2 : List α), (∀ x, x ∈ s1 ↔ x ∈ s2) →
      dedupAcc s1 l = dedupAcc s2 l := by
  intro l
  induction l with
  | nil => intro s1 s2 _; rfl
  | cons a l ih =>
      intro s1 s2 h
      by_cases h1 : a ∈ s1
      · have h2 : a ∈ s2 := (h a).mp h1
        simp only [dedupAcc, if_pos h1, if_pos h2]
        exact ih s1 s2 h
      · have h2 : a ∉ s2 := fun hx => h1 ((h a).mpr hx)
        simp only [dedupAcc, if_neg h1, if_neg h2]
        rw [ih (a :: s1) (a :: s2)
          (fun x => by simp only [List.mem_cons, h x])]

theorem flatSyms_cons (c : Compound) (l : List Compound) :
    flatSyms (c :: l) = c.elementsSyms ++ flatSyms l := by
  simp [flatSyms]

/-- Symbols of replicated copies are symbols of the original. -/
theorem mem_flatSyms_replicate {x : Sym} {m : Nat} {c : Compound}
    (h : x ∈ flatSyms (List.replicate m c)) : x ∈ c.elementsSyms := by
  unfold flatSyms at h
  obtain ⟨blk, hblk, hxb⟩ := List.mem_flatten.mp h
  rw [List.map_replicate] at hblk
  rw [← List.eq_of_mem_replicate hblk]
  exact hxb

theorem flatSyms_append (l1 l2 : List Compound) :
    flatSyms (l1 ++ l2) = flatSyms l1 ++ flatSyms l2 := by
  simp [flatSyms]

/-- Expanding each compound of a pair list into a positive number of
copies does not change the deduplicated symbol trace. -/
theorem dedupAcc_flatSyms_expand :
    ∀ (pl : List (Compound × Nat)) (seen : List Sym),
      (∀ pc ∈ pl, 1 ≤ pc.2) →
      dedupAcc seen
        (flatSyms ((pl.map (fun pc => List.replicate pc.2 pc.1)).flatten))
        = dedupAcc seen (flatSyms (pl.map (fun pc => pc.1))) := by
  intro pl
  induction pl with
  | nil => intro seen _; rfl
  | cons pc pl ih =>
      intro seen hpos
      have hc := hpos pc (List.mem_cons_self pc pl)
      obtain ⟨m, hm⟩ : ∃ m, pc.2 = m + 1 := ⟨pc.2 - 1, by omega⟩
      have hL : flatSyms (((pc :: pl).map
            (fun pc => List.replicate pc.2 pc.1)).flatten)
          = pc.1.elementsSyms
            ++ (flatSyms (List.replicate m pc.1)
              ++ flatSyms ((pl.map (fun pc => List.replicate pc.2 pc.1)).flatten)) := by
        rw [List.map_cons, List.flatten_cons, hm, List.replicate_succ,
          List.cons_append, flatSyms_cons, flatSyms_append]
      rw [hL, List.map_cons, flatSyms_cons, dedupAcc_append]
      rw [dedupAcc_sub_append (flatSyms (List.replicate m pc.1)) _ _
        (fun x hx => (accAfter_mem _ _ _).mpr
          (Or.inr (mem_flatSyms_replicate hx)))]
      rw [ih _ (fun q hq => hpos q (List.mem_cons_of_mem pc hq))]
      rw [dedupAcc_append]

theorem dedupByFormula_cons (c : Compound) (rest : List Compound)
    (seen : List (List Char)) :
    dedupByFormula seen (c :: rest)
      = if c.formula ∈ seen then dedupByFormula seen rest
        else c :: dedupByFormula (c.formula :: seen) rest := rfl

theorem dedupByFormula_replicate_append :
    ∀ (m : Nat) (c : Compound) (seen : List (List Char)) (X : List Compound),
      c.formula ∈ seen →
      dedupByFormula seen (List.replicate m c ++ X) = dedupByFormula seen X := by
  intro m
  induction m with
  | zero => intro c seen X _; rfl
  | succ m ih =>
      intro c seen X h
      rw [List.replicate_succ, List.cons_append]
      show dedupByFormula seen (c :: (List.replicate m c ++ X)) = _
      rw [dedupByFormula_cons, if_pos h]
      exact ih c seen X h

/-- Expanding each compound of a pair list into a positive number of
copies does not change the formula-deduplicated compound list. -/
theorem dedupBy_expand :
    ∀ (pl : List (Compound × Nat)) (seen : List (List Char)),
      (∀ pc ∈ pl, 1 ≤ pc.2) →
      dedupByFormula seen ((pl.map (fun pc => List.replicate pc.2 pc.1)).flatten)
        = dedupByFormula seen (pl.map (fun pc => pc.1)) := by
  intro pl
  induction pl with
  | nil => intro seen _; rfl
  | cons pc pl ih =>
      intro seen hpos
      have hc := hpos pc (List.mem_cons_self pc pl)
      obtain ⟨m, hm⟩ : ∃ m, pc.2 = m + 1 := ⟨pc.2 - 1, by omega⟩
      rw [List.map_cons, List.flatten_cons, hm, List.replicate_succ,
        List.cons_append, List.map_cons]
      show dedupByFormula seen (pc.1 :: (List.replicate m pc.1
        ++ (pl.map (fun pc => List.replicate pc.2 pc.1)).flatten)) = _
      by_cases h : pc.1.formula ∈ seen
      · rw [dedupByFormula_cons, dedupByFormula_cons, if_pos h, if_pos h,
          dedupByFormula_replicate_append m pc.1 seen _ h]
        exact ih seen (fun q hq => hpos q (List.mem_cons_of_mem pc hq))
      · rw [dedupByFormula_cons, dedupByFormula_cons, if_neg h, if_neg h,
          dedupByFormula_replicate_append m pc.1 _ _ (List.mem_cons_self _ _)]
        rw [ih _ (fun q hq => hpos q (List.mem_cons_of_mem pc hq))]

theorem dedupByFormula_append :
    ∀ (l1 l2 : List Compound) (seen : List (List Char)),
      dedupByFormula seen (l1 ++ l2)
        = dedupByFormula seen l1 ++ dedupByFormula (formAfter seen l1) l2 := by
  intro l1
  induction l1 with
  | nil => intro l2 seen; rfl
  | cons a l1 ih =>
      intro l2 seen
      by_cases h : a.formula ∈ seen
      · simp only [List.cons_append, dedupByFormula, formAfter, if_pos h,
          List.append_eq]
        exact ih l2 seen
      · simp only [List.cons_append, dedupByFormula, formAfter, if_neg h,
          List.append_eq]
        rw [ih l2 (a.formula :: seen)]

theorem formAfter_mem :
    ∀ (l : List Compound) (seen : List (List Char)) (f : List Char),
      f ∈ formAfter seen l ↔ f ∈ seen ∨ ∃ c ∈ l, c.formula = f := by
  intro l
  induction l with
  | nil => intro seen f; simp [formAfter]
  | cons a l ih =>
      intro seen f
      by_cases h : a.formula ∈ seen
      · simp only [formAfter, if_pos h, ih, List.mem_cons]
        constructor
        · rintro (h1 | ⟨c, hc, hcf⟩)
          · exact Or.inl h1
          · exact Or.inr ⟨c, Or.inr hc, hcf⟩
        · rintro (h1 | ⟨c, hc | hc, hcf⟩)
          · exact Or.inl h1
          · exact Or.inl (by rw [← hcf, hc]; exact h)
          · exact Or.inr ⟨c, hc, hcf⟩
      · simp only [formAfter, if_neg h, ih, List.mem_cons]
        constructor
        · rintro (h1 | ⟨c, hc, hcf⟩)
          · rcases h1 with h2 | h2
            · exact Or.inr ⟨a, Or.inl rfl, h2.symm⟩
            · exact Or.inl h2
          · exact Or.inr ⟨c, Or.inr hc, hcf⟩
        · rintro (h1 | ⟨c, hc | hc, hcf⟩)
          · exact Or.inl (Or.inr h1)
          · exact Or.inl (Or.inl (by rw [← hcf, hc]))
          · exact Or.inr ⟨c, hc, hcf⟩

theorem dedupByFormula_keys :
    ∀ (l : List Compound) (seen : List (List Char)),
      ((dedupByFormula seen l).map (fun c => c.formula)).Nodup ∧
      (∀ c ∈ dedupByFormula seen l, c.formula ∉ seen) := by
  intro l
  induction l with
  | nil => intro seen; exact ⟨List.nodup_nil, fun c hc => absurd hc (by simp [dedupByFormula])⟩
  | cons a l ih =>
      intro seen
      by_cases h : a.formula ∈ seen
      · simp only [dedupByFormula, if_pos h]
        exact ih seen
      · simp only [dedupByFormula, if_neg h]
        obtain ⟨ihn, ihs⟩ := ih (a.formula :: seen)
        constructor
        · rw [List.map_cons, List.nodup_cons]
          refine ⟨?_, ihn⟩
          intro hmem
          obtain ⟨c, hc, hcf⟩ := List.mem_map.mp hmem
          exact ihs c hc (hcf ▸ List.mem_cons_self _ _)
        · intro c hc
          rcases List.mem_cons.mp hc with h1 | h1
          · rw [h1]; exact h
          · exact fun hs => ihs c h1 (List.mem_cons_of_mem _ hs)

theorem dedupByFormula_self :
    ∀ (l : List Compound) (seen : List (List Char)),
      ((l.map (fun c => c.formula)).Nodup) →
      (∀ c ∈ l, c.formula ∉ seen) →
      dedupByFormula seen l = l := by
  intro l
  induction l with
  | nil => intro seen _ _; rfl
  | cons a l ih =>
      intro seen hnd hns
      rw [List.map_cons, List.nodup_cons] at hnd
      show dedupByFormula seen (a :: l) = a :: l
      rw [dedupByFormula_cons, if_neg (hns a (List.mem_cons_self a l))]
      rw [ih (a.formula :: seen) hnd.2]
      intro c hc
      intro hmem
      rcases List.mem_cons.mp hmem with h1 | h1
      · exact hnd.1 (h1 ▸ List.mem_map.mpr ⟨c, hc, rfl⟩)
      · exact hns c (List.mem_cons_of_mem a hc) h1

/-- Collapsing duplicate-formula compounds (whose symbol blocks agree)
does not change the deduplicated symbol trace. -/
theorem dedupAcc_flatSyms_dedupBy :
    ∀ (l : List Compound) (seenF : List (List Char)) (seenS : List Sym),
      (∀ c1 ∈ l, ∀ c2 ∈ l, c1.formula = c2.formula →
        c1.elementsSyms = c2.elementsSyms) →
      (∀ c ∈ l, c.formula ∈ seenF → ∀ s ∈ c.elementsSyms, s ∈ seenS) →
      dedupAcc seenS (flatSyms l)
        = dedupAcc seenS (flatSyms (dedupByFormula seenF l)) := by
  intro l
  induction l with
  | nil => intro seenF seenS _ _; rfl
  | cons c l ih =>
      intro seenF seenS hdup habs
      by_cases h : c.formula ∈ seenF
      · rw [show dedupByFormula seenF (c :: l) = dedupByFormula seenF l from by
          rw [dedupByFormula_cons, if_pos h]]
        rw [flatSyms_cons]
        rw [dedupAcc_sub_append c.elementsSyms _ _
          (fun x hx => habs c (List.mem_cons_self c l) h x hx)]
        exact ih seenF seenS
          (fun c1 h1 c2 h2 he =>
            hdup c1 (List.mem_cons_of_mem c h1) c2 (List.mem_cons_of_mem c h2) he)
          (fun c' hc' hf s hs =>
            habs c' (List.mem_cons_of_mem c hc') hf s hs)
      · rw [show dedupByFormula seenF (c :: l)
            = c :: dedupByFormula (c.formula :: seenF) l from by
          rw [dedupByFormula_cons, if_neg h]]
        rw [flatSyms_cons, flatSyms_cons, dedupAcc_append, dedupAcc_append]
        congr 1
        apply ih (c.formula :: seenF) (accAfter seenS c.elementsSyms)
          (fun c1 h1 c2 h2 he =>
            hdup c1 (List.mem_cons_of_mem c h1) c2 (List.mem_cons_of_mem c h2) he)
        intro c' hc' hf s hs
        rcases List.mem_cons.mp hf with h1 | h1
        · have hsyms : c'.elementsSyms = c.elementsSyms :=
            hdup c' (List.mem_cons_of_mem c hc') c (List.mem_cons_self c l) h1
          exact (accAfter_mem _ _ _).mpr (Or.inr (hsyms ▸ hs))
        · exact (accAfter_mem _ _ _).mpr
            (Or.inl (habs c' (List.mem_cons_of_mem c hc') h1 s hs))

theorem nzOf_pos (r : Reaction) : ∀ a ∈ r.nzOf, 1 ≤ a := by
  intro a ha
  unfold Reaction.nzOf at ha
  have h2 : a ≠ 0 := by simpa using List.of_mem_filter ha
  omega

theorem finOf_pos (r : Reaction) : ∀ a ∈ r.finOf, 1 ≤ a := by
  intro a ha
  unfold Reaction.finOf at ha
  by_cases h : r.distinctCompounds.length > r.nzOf.length
  · rw [if_pos h] at ha
    rcases List.mem_append.mp ha with h1 | h1
    · exact nzOf_pos r a h1
    · rw [List.mem_singleton.mp h1]
      exact lcmOf_pos r
  · rw [if_neg h] at ha
    exact nzOf_pos r a ha

theorem zip_get? {α β : Type} :
    ∀ (l1 : List α) (l2 : List β) (i : Nat) (a : α) (b : β),
      l1.get? i = some a → l2.get? i = some b →
      (l1.zip l2).get? i = some (a, b) := by
  intro l1
  induction l1 with
  | nil => intro l2 i a b h1 _; cases h1
  | cons x l1 ih =>
      intro l2 i a b h1 h2
      cases l2 with
      | nil => cases h2
      | cons y l2 =>
          cases i with
          | zero =>
              simp only [List.get?] at h1 h2
              simp [List.zip_cons_cons, Option.some_injective _ h1,
                Option.some_injective _ h2]
          | succ i =>
              simpa [List.zip_cons_cons] using
                ih l2 i a b (by simpa using h1) (by simpa using h2)

theorem balanceSolve_eq (r : Reaction) :
    r.balanceSolve
      = if r.distinctCompounds.length ≤ r.finOf.length then some r.rebuilt
        else none := rfl

theorem rebuilt_compounds_sub (r : Reaction) :
    ∀ c ∈ r.rebuilt.compounds, c ∈ r.compounds := by
  intro c hc
  rcases List.mem_append.mp hc with h | h
  · exact mem_rebuilt_side r _ c h
  · exact mem_rebuilt_side r _ c h

/-- A distinct compound's formula occurs on the rebuilt side filtered
by `F` exactly when it lies in `F`. -/
theorem mem_formulas_rebuilt (r : Reaction) (F : List (List Char))
    (c : Compound) (hc : c ∈ r.distinctCompounds)
    (hsucc : r.distinctCompounds.length ≤ r.finOf.length) :
    (c.formula ∈ ((((r.distinctCompounds.zip r.finOf).filter
        (fun pc => pc.1.formula ∈ F)).map
        (fun pc => List.replicate pc.2 pc.1)).flatten).map
          (fun c => c.formula))
      ↔ c.formula ∈ F := by
  constructor
  · intro h
    obtain ⟨c', hc', hf⟩ := List.mem_map.mp h
    obtain ⟨blk, hblk, hcb⟩ := List.mem_flatten.mp hc'
    obtain ⟨pc, hpc, hpcb⟩ := List.mem_map.mp hblk
    rw [← hpcb] at hcb
    have hc'eq : c' = pc.1 := List.eq_of_mem_replicate hcb
    have hP : pc.1.formula ∈ F := by
      have h1 := List.of_mem_filter hpc
      simp only [decide_eq_true_eq] at h1
      exact h1
    rw [← hf, hc'eq]
    exact hP
  · intro h
    obtain ⟨t, ht⟩ := List.mem_iff_get?.mp hc
    have htlt : t < r.distinctCompounds.length := get?_lt_of_some ht
    obtain ⟨cnt, hcnt⟩ := Option.isSome_iff_exists.mp
      (get?_isSome_of_lt r.finOf t (by omega))
    have hzipmem : (c, cnt) ∈ r.distinctCompounds.zip r.finOf :=
      List.get?_mem (zip_get? _ _ t c cnt ht hcnt)
    have hfil : (c, cnt) ∈ (r.distinctCompounds.zip r.finOf).filter
        (fun pc => pc.1.formula ∈ F) :=
      List.mem_filter.mpr ⟨hzipmem, by simp [h]⟩
    have hcntpos : 1 ≤ cnt := finOf_pos r cnt (List.get?_mem hcnt)
    apply List.mem_map.mpr
    refine ⟨c, ?_, rfl⟩
    apply List.mem_flatten.mpr
    exact ⟨List.replicate cnt c, List.mem_map.mpr ⟨(c, cnt), hfil, rfl⟩,
      List.mem_replicate.mpr ⟨by omega, rfl⟩⟩

theorem rebuilt_react_iff (r : Reaction) (c : Compound)
    (hc : c ∈ r.distinctCompounds)
    (hsucc : r.distinctCompounds.length ≤ r.finOf.length) :
    c.formula ∈ r.rebuilt.reactant_formulas
      ↔ c.formula ∈ r.reactant_formulas :=
  mem_formulas_rebuilt r r.reactant_formulas c hc hsucc

theorem rebuilt_prod_iff (r : Reaction) (c : Compound)
    (hc : c ∈ r.distinctCompounds)
    (hsucc : r.distinctCompounds.length ≤ r.finOf.length) :
    c.formula ∈ r.rebuilt.product_formulas
      ↔ c.formula ∈ r.product_formulas :=
  mem_formulas_rebuilt r r.product_formulas c hc hsucc

theorem rebuilt_ds (r : Reaction)
    (hdisj : ∀ f ∈ r.reactant_formulas, f ∉ r.product_formulas)
    (hsucc : r.distinctCompounds.length ≤ r.finOf.length) :
    r.rebuilt.distinctCompounds = r.distinctCompounds := by
  have hcounts : ∀ pc ∈ ((r.distinctCompounds.zip r.finOf).filter
        (fun pc => pc.1.formula ∈ r.reactant_formulas))
      ++ ((r.distinctCompounds.zip r.finOf).filter
        (fun pc => pc.1.formula ∈ r.product_formulas)), 1 ≤ pc.2 := by
    intro pc hpc
    have hmem : pc ∈ r.distinctCompounds.zip r.finOf := by
      rcases List.mem_append.mp hpc with h | h
      · exact List.mem_of_mem_filter h
      · exact List.mem_of_mem_filter h
    exact finOf_pos r pc.2 (List.of_mem_zip hmem).2
  have h1 : r.rebuilt.distinctCompounds
      = dedupByFormula [] (((((r.distinctCompounds.zip r.finOf).filter
          (fun pc => pc.1.formula ∈ r.reactant_formulas))
        ++ ((r.distinctCompounds.zip r.finOf).filter
          (fun pc => pc.1.formula ∈ r.product_formulas))).map
        (fun pc => List.replicate pc.2 pc.1)).flatten) := by
    show dedupByFormula []
        (((((r.distinctCompounds.zip r.finOf).filter
            (fun pc => pc.1.formula ∈ r.reactant_formulas)).map
          (fun pc => List.replicate pc.2 pc.1)).flatten)
        ++ ((((r.distinctCompounds.zip r.finOf).filter
            (fun pc => pc.1.formula ∈ r.product_formulas)).map
          (fun pc => List.replicate pc.2 pc.1)).flatten)) = _
    rw [← List.flatten_append, ← List.map_append]
  rw [h1, dedupBy_expand _ [] hcounts, List.map_append]
  have hfR : (((r.distinctCompounds.zip r.finOf).filter
        (fun pc => pc.1.formula ∈ r.reactant_formulas)).map
      (fun pc => pc.1))
      = r.distinctCompounds.filter
        (fun c => c.formula ∈ r.reactant_formulas) := by
    rw [show r.distinctCompounds.filter
        (fun c => c.formula ∈ r.reactant_formulas)
      = ((r.distinctCompounds.zip r.finOf).map Prod.fst).filter
        (fun c => c.formula ∈ r.reactant_formulas) from by
      rw [List.map_fst_zip _ _ hsucc]]
    rw [List.filter_map]
    rfl
  have hfP : (((r.distinctCompounds.zip r.finOf).filter
        (fun pc => pc.1.formula ∈ r.product_formulas)).map
      (fun pc => pc.1))
      = r.distinctCompounds.filter
        (fun c => c.formula ∈ r.product_formulas) := by
    rw [show r.distinctCompounds.filter
        (fun c => c.formula ∈ r.product_formulas)
      = ((r.distinctCompounds.zip r.finOf).map Prod.fst).filter
        (fun c => c.formula ∈ r.product_formulas) from by
      rw [List.map_fst_zip _ _ hsucc]]
    rw [List.filter_map]
    rfl
  rw [hfR, hfP]
  have hds_split : r.distinctCompounds
      = dedupByFormula [] r.reactants
        ++ dedupByFormula (formAfter [] r.reactants) r.products := by
    show dedupByFormula [] (r.reactants ++ r.products) = _
    exact dedupByFormula_append r.reactants r.products []
  have hsub1 : ∀ c ∈ dedupByFormula [] r.reactants,
      c.formula ∈ r.reactant_formulas := fun c hc =>
    List.mem_map.mpr ⟨c, dedupByFormula_subset [] r.reactants c hc, rfl⟩
  have hsub2 : ∀ c ∈ dedupByFormula (formAfter [] r.reactants) r.products,
      c.formula ∈ r.product_formulas := fun c hc =>
    List.mem_map.mpr ⟨c, dedupByFormula_subset _ r.products c hc, rfl⟩
  have hfilterR : r.distinctCompounds.filter
        (fun c => c.formula ∈ r.reactant_formulas)
      = dedupByFormula [] r.reactants := by
    rw [hds_split, List.filter_append]
    rw [List.filter_eq_self.mpr (fun c hc => by simp [hsub1 c hc])]
    rw [List.filter_eq_nil_iff.mpr (fun c hc => by
      simp only [decide_eq_true_eq]
      exact fun hrf => hdisj _ hrf (hsub2 c hc))]
    rw [List.append_nil]
  have hfilterP : r.distinctCompounds.filter
        (fun c => c.formula ∈ r.product_formulas)
      = dedupByFormula (formAfter [] r.reactants) r.products := by
    rw [hds_split, List.filter_append]
    rw [List.filter_eq_nil_iff.mpr (fun c hc => by
      simp only [decide_eq_true_eq]
      exact hdisj _ (hsub1 c hc))]
    rw [List.filter_eq_self.mpr (fun c hc => by simp [hsub2 c hc])]
    rw [List.nil_append]
  rw [hfilterR, hfilterP, ← hds_split]
  exact dedupByFormula_self r.distinctCompounds []
    (dedupByFormula_keys r.compounds []).1
    (fun c _ h => absurd h (List.not_mem_nil _))

theorem rebuilt_seen (r : Reaction)
    (hdup : ∀ c1 ∈ r.compounds, ∀ c2 ∈ r.compounds,
      c1.formula = c2.formula → c1 = c2)
    (hdisj : ∀ f ∈ r.reactant_formulas, f ∉ r.product_formulas)
    (hsucc : r.distinctCompounds.length ≤ r.finOf.length) :
    r.rebuilt.seenSyms = r.seenSyms := by
  have hdup' : ∀ c1 ∈ r.rebuilt.compounds, ∀ c2 ∈ r.rebuilt.compounds,
      c1.formula = c2.formula → c1.elementsSyms = c2.elementsSyms :=
    fun c1 h1 c2 h2 he => congrArg Compound.elementsSyms
      (hdup c1 (rebuilt_compounds_sub r c1 h1) c2
        (rebuilt_compounds_sub r c2 h2) he)
  have hdupS : ∀ c1 ∈ r.compounds, ∀ c2 ∈ r.compounds,
      c1.formula = c2.formula → c1.elementsSyms = c2.elementsSyms :=
    fun c1 h1 c2 h2 he => congrArg Compound.elementsSyms (hdup c1 h1 c2 h2 he)
  calc r.rebuilt.seenSyms
      = dedupAcc [] (flatSyms (dedupByFormula [] r.rebuilt.compounds)) :=
        dedupAcc_flatSyms_dedupBy r.rebuilt.compounds [] [] hdup'
          (fun c _ hf => absurd hf (List.not_mem_nil _))
    _ = dedupAcc [] (flatSyms r.distinctCompounds) := by
        rw [show dedupByFormula [] r.rebuilt.compounds
          = r.rebuilt.distinctCompounds from rfl, rebuilt_ds r hdisj hsucc]
    _ = r.seenSyms :=
        (dedupAcc_flatSyms_dedupBy r.compounds [] [] hdupS
          (fun c _ hf => absurd hf (List.not_mem_nil _))).symm

theorem rebuilt_matrix (r : Reaction)
    (hdup : ∀ c1 ∈ r.compounds, ∀ c2 ∈ r.compounds,
      c1.formula = c2.formula → c1 = c2)
    (hdisj : ∀ f ∈ r.reactant_formulas, f ∉ r.product_formulas)
    (hsucc : r.distinctCompounds.length ≤ r.finOf.length) :
    r.rebuilt.matrixOf = r.matrixOf := by
  have hds := rebuilt_ds r hdisj hsucc
  have hseen := rebuilt_seen r hdup hdisj hsucc
  have hcol : r.rebuilt.distinctCompounds.map r.rebuilt.colOf
      = r.distinctCompounds.map r.colOf := by
    rw [hds]
    apply List.map_congr_left
    intro c hc
    unfold Reaction.colOf
    rw [hseen]
    apply List.map_congr_left
    intro m _
    by_cases h : c.formula ∈ r.product_formulas
    · rw [if_pos h, if_pos ((rebuilt_prod_iff r c hc hsucc).mpr h)]
    · rw [if_neg h, if_neg (fun hh => h ((rebuilt_prod_iff r c hc hsucc).mp hh))]
  unfold Reaction.matrixOf
  rw [hcol, hseen]

theorem rebuilt_fin (r : Reaction)
    (hdup : ∀ c1 ∈ r.compounds, ∀ c2 ∈ r.compounds,
      c1.formula = c2.formula → c1 = c2)
    (hdisj : ∀ f ∈ r.reactant_formulas, f ∉ r.product_formulas)
    (hsucc : r.distinctCompounds.length ≤ r.finOf.length) :
    r.rebuilt.finOf = r.finOf := by
  have hds := rebuilt_ds r hdisj hsucc
  have hmat := rebuilt_matrix r hdup hdisj hsucc
  unfold Reaction.finOf Reaction.nzOf Reaction.lcmOf Reaction.solsOf
  rw [hmat, hds]

theorem rebuilt_solve (r : Reaction)
    (hdup : ∀ c1 ∈ r.compounds, ∀ c2 ∈ r.compounds,
      c1.formula = c2.formula → c1 = c2)
    (hdisj : ∀ f ∈ r.reactant_formulas, f ∉ r.product_formulas)
    (hsucc : r.distinctCompounds.length ≤ r.finOf.length) :
    r.rebuilt.balanceSolve = some r.rebuilt := by
  have hds := rebuilt_ds r hdisj hsucc
  have hfin := rebuilt_fin r hdup hdisj hsucc
  rw [balanceSolve_eq]
  rw [if_pos (by rw [hds, hfin]; exact hsucc)]
  congr 1
  have hA : r.rebuilt.rebuilt.reactants = r.rebuilt.reactants := by
    show ((((r.rebuilt.distinctCompounds.zip r.rebuilt.finOf).filter
        (fun pc => pc.1.formula ∈ r.rebuilt.reactant_formulas)).map
      (fun pc => List.replicate pc.2 pc.1)).flatten) = r.rebuilt.reactants
    rw [hds, hfin]
    rw [List.filter_congr (fun pc hpc =>
      (decide_eq_decide).mpr
        (rebuilt_react_iff r pc.1 (List.of_mem_zip hpc).1 hsucc))]
    rfl
  have hB : r.rebuilt.rebuilt.products = r.rebuilt.products := by
    show ((((r.rebuilt.distinctCompounds.zip r.rebuilt.finOf).filter
        (fun pc => pc.1.formula ∈ r.rebuilt.product_formulas)).map
      (fun pc => List.replicate pc.2 pc.1)).flatten) = r.rebuilt.products
    rw [hds, hfin]
    rw [List.filter_congr (fun pc hpc =>
      (decide_eq_decide).mpr
        (rebuilt_prod_iff r pc.1 (List.of_mem_zip hpc).1 hsucc))]
    rfl
  show (⟨r.rebuilt.rebuilt.reactants, r.rebuilt.rebuilt.products⟩ : Reaction)
    = ⟨r.rebuilt.reactants, r.rebuilt.products⟩
  rw [hA, hB]

/-- **C5**: `balance` is a no-op on an already-balanced reaction, and
applying it twice gives the same reactant and product sequences as
applying it once — under the well-formedness of reachable reactions
(compounds of equal formula are equal, and no formula appears on both
sides). -/
theorem claim_C5 (r r' : Reaction)
    (hdup : ∀ c1 ∈ r.compounds, ∀ c2 ∈ r.compounds,
      c1.formula = c2.formula → c1 = c2)
    (hdisj : ∀ f ∈ r.reactant_formulas, f ∉ r.product_formulas)
    (hbal : r.balance = some r') :
    (r.is_balanced = true → r' = r) ∧ r'.balance = some r' := by
  unfold Reaction.balance at hbal
  by_cases hb : r.is_balanced
  · rw [if_pos hb] at hbal
    have he := Option.some_injective _ hbal
    subst he
    exact ⟨fun _ => rfl, by unfold Reaction.balance; rw [if_pos hb]⟩
  · rw [if_neg hb] at hbal
    rw [balanceSolve_eq] at hbal
    by_cases hsucc : r.distinctCompounds.length ≤ r.finOf.length
    · rw [if_pos hsucc] at hbal
      have he := Option.some_injective _ hbal
      subst he
      refine ⟨fun hc => absurd hc hb, ?_⟩
      unfold Reaction.balance
      by_cases hb' : r.rebuilt.is_balanced
      · rw [if_pos hb']
      · rw [if_neg hb']
        exact rebuilt_solve r hdup hdisj hsucc
    · rw [if_neg hsucc] at hbal
      exact absurd hbal (by simp)

/-- **C5 witness**: on H2 + O2 --> H2O (unbalanced) and its balanced
result, both conjuncts are concrete. -/
theorem claim_C5_witness :
    (∀ c1 ∈ rWater.compounds, ∀ c2 ∈ rWater.compounds,
      c1.formula = c2.formula → c1 = c2) ∧
    (∀ f ∈ rWater.reactant_formulas, f ∉ rWater.product_formulas) ∧
    rWater.balance = some rBal ∧
    ((rWater.is_balanced = true → rBal = rWater) ∧ rBal.balance = some rBal) :=
  ⟨by decide, by decide, by decide,
    claim_C5 rWater rBal (by decide) (by decide) (by decide)⟩

theorem swapIdx_invol (p q i : Nat) : swapIdx p q (swapIdx p q i) = i := by
  unfold swapIdx
  split_ifs <;> omega

theorem swapIdx_lt {p q n : Nat} (hp : p < n) (hq : q < n) (i : Nat)
    (hi : i < n) : swapIdx p q i < n := by
  unfold swapIdx
  split_ifs <;> omega

theorem Frac.blt_asymm {a b : Frac} (h : a.blt b = true) : b.blt a = false := by
  unfold Frac.blt at h ⊢
  simp only [decide_eq_true_eq] at h
  simp only [decide_eq_false_iff_not, not_lt]
  linarith

theorem argminAux_stay :
    ∀ (l : List Frac) (i bi : Nat) (bv : Frac),
      (∀ y ∈ l, bv.blt y = true) → argminAux l i bi bv = bi := by
  intro l
  induction l with
  | nil => intro i bi bv _; rfl
  | cons x l ih =>
      intro i bi bv h
      unfold argminAux
      rw [if_neg (by
        rw [Frac.blt_asymm (h x (List.mem_cons_self x l))]
        exact fun hh => Bool.noConfusion hh)]
      exact ih (i + 1) bi bv (fun y hy => h y (List.mem_cons_of_mem x hy))

theorem argminAux_unique :
    ∀ (l : List Frac) (i bi : Nat) (bv : Frac) (k : Nat),
      k < l.length →
      (l.getD k (Frac.ofInt 0)).blt bv = true →
      (∀ j, j < l.length → j ≠ k →
        (l.getD k (Frac.ofInt 0)).blt (l.getD j (Frac.ofInt 0)) = true) →
      argminAux l i bi bv = i + k := by
  intro l
  induction l with
  | nil => intro i bi bv k hk _ _; cases hk
  | cons x l ih =>
      intro i bi bv k hk hbv hall
      cases k with
      | zero =>
          have hx : x.blt bv = true := hbv
          unfold argminAux
          rw [if_pos hx]
          rw [argminAux_stay l (i + 1) i x (fun y hy => by
            obtain ⟨t, ht⟩ := List.mem_iff_get?.mp hy
            have htlt : t < l.length := get?_lt_of_some ht
            have hgd : (x :: l).getD (t + 1) (Frac.ofInt 0) = y := by
              simp only [List.getD_cons_succ]
              unfold List.getD
              rw [ht]
              rfl
            have := hall (t + 1) (by simpa using htlt) (by omega)
            rw [hgd] at this
            exact this)]
          omega
      | succ k' =>
          have hk' : k' < l.length := by simpa using hk
          have hminx : ((x :: l).getD (k' + 1) (Frac.ofInt 0)).blt x = true := by
            have := hall 0 (by simp) (by omega)
            simpa using this
          by_cases hx : x.blt bv = true
          · unfold argminAux
            rw [if_pos hx]
            rw [ih (i + 1) i x k' hk' (by simpa using hminx)
              (fun j hj hjk => by
                have := hall (j + 1) (by simpa using hj) (by omega)
                simpa using this)]
            omega
          · unfold argminAux
            rw [if_neg hx]
            rw [ih (i + 1) bi bv k' hk' (by simpa using hbv)
              (fun j hj hjk => by
                have := hall (j + 1) (by simpa using hj) (by omega)
                simpa using this)]
            omega

/-- `np.argmin` returns the position of a strict minimum. -/
theorem argminList_unique (d : List Frac) (k : Nat)
    (hk : k < d.length)
    (hall : ∀ j, j < d.length → j ≠ k →
      (d.getD k (Frac.ofInt 0)).blt (d.getD j (Frac.ofInt 0)) = true) :
    argminList d = k := by
  cases d with
  | nil => cases hk
  | cons x l =>
      unfold argminList
      cases k with
      | zero =>
          exact argminAux_stay l 1 0 x (fun y hy => by
            obtain ⟨t, ht⟩ := List.mem_iff_get?.mp hy
            have htlt : t < l.length := get?_lt_of_some ht
            have hgd : (x :: l).getD (t + 1) (Frac.ofInt 0) = y := by
              simp only [List.getD_cons_succ]
              unfold List.getD
              rw [ht]
              rfl
            have := hall (t + 1) (by simpa using htlt) (by omega)
            rw [hgd] at this
            exact this)
      | succ k' =>
          have hk' : k' < l.length := by simpa using hk
          show argminAux l 1 0 x = k' + 1
          have hres := argminAux_unique l 1 0 x k' hk'
            (by
              have := hall 0 (by simp) (by omega)
              simpa using this)
            (fun j hj hjk => by
              have := hall (j + 1) (by simpa using hj) (by omega)
              simpa using this)
          rw [hres]
          omega

theorem mapM_loop_some {α β : Type} (f : α → Option β) (g : α → β) :
    ∀ (l : List α) (acc : List β), (∀ a ∈ l, f a = some (g a)) →
      List.mapM.loop f l acc = some (acc.reverse ++ l.map g) := by
  intro l
  induction l with
  | nil => intro acc _; simp [List.mapM.loop]
  | cons a l ih =>
      intro acc h
      simp only [List.mapM.loop, h a (List.mem_cons_self a l), Option.some_bind,
        Option.bind_eq_bind]
      rw [ih (g a :: acc) (fun a' ha' => h a' (List.mem_cons_of_mem a ha'))]
      simp

theorem mapM_some {α β : Type} {f : α → Option β} {g : α → β} {l : List α}
    (h : ∀ a ∈ l, f a = some (g a)) : l.mapM f = some (l.map g) := by
  have := mapM_loop_some f g l [] h
  simpa [List.mapM] using this

theorem getLast?_set {α : Type} (l : List α) (i : Nat) (x : α)
    (h : i + 1 < l.length) : (l.set i x).getLast? = l.getLast? := by
  rw [List.getLast?_eq_getElem? l, List.getLast?_eq_getElem? (l.set i x),
    List.length_set]
  rw [List.getElem?_set_ne (by omega)]

/-- The distinct-compound list begins with the distinct reactants. -/
theorem cl_split (r : Reaction) :
    r.distinctCompounds
      = dedupByFormula [] r.reactants
        ++ dedupByFormula (formAfter [] r.reactants) r.products := by
  show dedupByFormula [] (r.reactants ++ r.products) = _
  exact dedupByFormula_append r.reactants r.products []

theorem rs_le_cl (r : Reaction) :
    (dedupByFormula [] r.reactants).length ≤ r.distinctCompounds.length := by
  rw [cl_split, List.length_append]
  omega

theorem cl_front (r : Reaction) (i : Nat)
    (hi : i < (dedupByFormula [] r.reactants).length) :
    r.distinctCompounds.get? i = (dedupByFormula [] r.reactants).get? i := by
  rw [cl_split]
  exact List.get?_append hi

theorem get_amounts_eq (r : Reaction) (hb : r.is_balanced = true)
    (num : Nat) (key : AmtKey) (v : Frac)
    (h1 : 1 ≤ num) (h2 : num ≤ r.distinctCompounds.length) :
    r.get_amounts num key v = some (r.gaList num key v) := by
  unfold Reaction.get_amounts
  rw [if_pos hb, Option.some_bind]
  dsimp only
  rw [if_neg (by omega)]
  cases hic : r.distinctCompounds.get? (num - 1) with
  | none =>
      exfalso
      have := get?_isSome_of_lt r.distinctCompounds (num - 1) (by omega)
      rw [hic] at this
      exact Bool.noConfusion this
  | some ic =>
      unfold Reaction.gaList
      rw [hic]

/-- On a balanced reaction with the right number of arguments,
`limiting_reagent` returns the distinct reactant at the argmin of the
comparison vector. -/
theorem limiting_eq_data (r : Reaction) (args : List Frac) (mode : AmtKey)
    (hb : r.is_balanced = true)
    (hlen : args.length = (dedupByFormula [] r.reactants).length) :
    r.limiting_reagent args mode
      = (dedupByFormula [] r.reactants).get?
          (argminList (r.lrData args mode)) := by
  unfold Reaction.limiting_reagent
  rw [if_pos hb, Option.some_bind]
  dsimp only
  rw [if_neg (fun h => h hlen)]
  have hmapM : (List.range args.length).mapM (fun i =>
      r.get_amounts (i + 1) AmtKey.moles
        ((((((List.zip (dedupByFormula [] r.reactants) args).map
            (fun p => p.1.get_amounts mode p.2)).map
          (fun a => a.moles)).get? i).getD (Frac.ofInt 0))))
      = some ((List.range args.length).map (fun i =>
          r.gaList (i + 1) AmtKey.moles
            (((((List.zip (dedupByFormula [] r.reactants) args).map
              (fun p => p.1.get_amounts mode p.2)).map
                (fun a => a.moles)).get? i).getD (Frac.ofInt 0)))) :=
    mapM_some (fun i hi => get_amounts_eq r hb (i + 1) AmtKey.moles _
      (by omega) (by
        have h1 : i < args.length := List.mem_range.mp hi
        have h2 := rs_le_cl r
        omega))
  rw [hmapM, Option.some_bind]
  congr 1
  congr 1
  rw [List.map_map]
  unfold Reaction.lrData
  apply List.map_congr_left
  intro i hi
  have h1 : i < args.length := List.mem_range.mp hi
  have h2 := rs_le_cl r
  show ((r.gaList (i + 1) AmtKey.moles _).getLast?.map
      (fun am => am.get mode)).getD (Frac.ofInt 0) = _
  unfold Reaction.lrDatum
  rw [get_amounts_eq r hb (i + 1) AmtKey.moles _ (by omega) (by omega),
    Option.some_bind]

theorem count_perm_beq {α : Type} [BEq α] {l1 l2 : List α}
    (h : l1.Perm l2) (a : α) : l1.count a = l2.count a := by
  induction h with
  | nil => rfl
  | cons x _ ih => simp [List.count_cons, ih]
  | swap x y l => simp [List.count_cons]; omega
  | trans _ _ ih1 ih2 => exact ih1.trans ih2

theorem gaList_last (r : Reaction) (i : Nat) (key : AmtKey) (v : Frac)
    (ic : Compound) (hic : r.distinctCompounds.get? i = some ic)
    (hi1 : i + 1 < r.distinctCompounds.length) :
    (r.gaList (i + 1) key v).getLast?
      = (r.distinctCompounds.getLast?).map (fun c =>
          c.get_amounts AmtKey.moles
            (((ic.get_amounts key v).moles).mul (Frac.div
              (Frac.ofInt
                ((r.compounds.map (fun c => c.formula)).count c.formula))
              (Frac.ofInt
                ((r.compounds.map (fun c => c.formula)).count ic.formula))))) := by
  unfold Reaction.gaList
  rw [show i + 1 - 1 = i from rfl, hic]
  rw [getLast?_set _ _ _ (by rw [List.length_map]; omega)]
  rw [List.getLast?_map]

/-- **C7** (corrected).  Swapping two distinct reactants together with
their amount arguments leaves the reported limiting reagent unchanged
PROVIDED the comparison vector has a strict (unique) minimum; on ties
`np.argmin` picks the first minimum, which depends on the order
(`claim_C7_counterexample`).  Both reactions are balanced, have the
same compound-formula multiset, the same last distinct compound, and a
nonempty distinct-compound tail after the distinct reactants. -/
theorem claim_C7 (r1 r2 : Reaction) (args1 args2 : List Frac) (mode : AmtKey)
    (p q k : Nat)
    (hb1 : r1.is_balanced = true)
    (hb2 : r2.is_balanced = true)
    (hlen1 : args1.length = (dedupByFormula [] r1.reactants).length)
    (hlen2 : args2.length = args1.length)
    (hrslen : (dedupByFormula [] r2.reactants).length
      = (dedupByFormula [] r1.reactants).length)
    (hp : p < (dedupByFormula [] r1.reactants).length)
    (hq : q < (dedupByFormula [] r1.reactants).length)
    (hrs : ∀ i, i < (dedupByFormula [] r1.reactants).length →
      (dedupByFormula [] r2.reactants).get? i
        = (dedupByFormula [] r1.reactants).get? (swapIdx p q i))
    (hargs : ∀ i, i < args1.length →
      args2.get? i = args1.get? (swapIdx p q i))
    (htail1 : (dedupByFormula [] r1.reactants).length
      < r1.distinctCompounds.length)
    (htail2 : (dedupByFormula [] r2.reactants).length
      < r2.distinctCompounds.length)
    (hclEq : r2.distinctCompounds.getLast? = r1.distinctCompounds.getLast?)
    (hperm : (r2.compounds.map (fun c => c.formula)).Perm
      (r1.compounds.map (fun c => c.formula)))
    (hk : k < (r1.lrData args1 mode).length)
    (huniq : ∀ j, j < (r1.lrData args1 mode).length → j ≠ k →
      ((r1.lrData args1 mode).getD k (Frac.ofInt 0)).blt
        ((r1.lrData args1 mode).getD j (Frac.ofInt 0)) = true) :
    r2.limiting_reagent args2 mode = r1.limiting_reagent args1 mode := by
  have hdlen1 : (r1.lrData args1 mode).length = args1.length := by
    unfold Reaction.lrData
    rw [List.length_map, List.length_range]
  have hdlen2 : (r2.lrData args2 mode).length = args2.length := by
    unfold Reaction.lrData
    rw [List.length_map, List.length_range]
  have hlen2' : args2.length = (dedupByFormula [] r2.reactants).length := by
    omega
  have hGd : ∀ i, i < args1.length →
      (r2.lrData args2 mode).get? i
        = (r1.lrData args1 mode).get? (swapIdx p q i) := by
    intro i hi
    have hσi : swapIdx p q i < args1.length := by
      have := swapIdx_lt hp hq i (by omega)
      omega
    unfold Reaction.lrData
    rw [List.get?_map, List.get?_range (by omega : i < args2.length),
      List.get?_map, List.get?_range hσi]
    simp only [Option.map_some']
    congr 1
    obtain ⟨ic, hic1⟩ := Option.isSome_iff_exists.mp
      (get?_isSome_of_lt (dedupByFormula [] r1.reactants) (swapIdx p q i)
        (by omega))
    have hic2 : (dedupByFormula [] r2.reactants).get? i = some ic := by
      rw [hrs i (by omega), hic1]
    obtain ⟨a, ha1⟩ := Option.isSome_iff_exists.mp
      (get?_isSome_of_lt args1 (swapIdx p q i) (by omega))
    have ha2 : args2.get? i = some a := by
      rw [hargs i hi, ha1]
    have hv2 : ((((List.zip (dedupByFormula [] r2.reactants) args2).map
        (fun p => p.1.get_amounts mode p.2)).map
          (fun a => a.moles)).get? i)
        = some ((ic.get_amounts mode a).moles) := by
      rw [List.get?_map, List.get?_map, zip_get? _ _ i ic a hic2 ha2]
      rfl
    have hv1 : ((((List.zip (dedupByFormula [] r1.reactants) args1).map
        (fun p => p.1.get_amounts mode p.2)).map
          (fun a => a.moles)).get? (swapIdx p q i))
        = some ((ic.get_amounts mode a).moles) := by
      rw [List.get?_map, List.get?_map, zip_get? _ _ (swapIdx p q i) ic a hic1 ha1]
      rfl
    rw [hv2, hv1]
    unfold Reaction.lrDatum
    rw [get_amounts_eq r2 hb2 (i + 1) AmtKey.moles _ (by omega)
      (by have := htail2; omega)]
    rw [get_amounts_eq r1 hb1 (swapIdx p q i + 1) AmtKey.moles _ (by omega)
      (by have := htail1; omega)]
    rw [Option.some_bind, Option.some_bind]
    rw [gaList_last r2 i AmtKey.moles _ ic
      (by rw [cl_front r2 i (by omega)]; exact hic2)
      (by have := htail2; omega)]
    rw [gaList_last r1 (swapIdx p q i) AmtKey.moles _ ic
      (by rw [cl_front r1 (swapIdx p q i) (by omega)]; exact hic1)
      (by have := htail1; omega)]
    rw [hclEq]
    cases hlast : r1.distinctCompounds.getLast? with
    | none => rfl
    | some lastC =>
        simp only [Option.map_some', Option.getD_some]
        rw [count_perm_beq hperm, count_perm_beq hperm]
  have hgd : ∀ j, j < args1.length →
      (r2.lrData args2 mode).getD j (Frac.ofInt 0)
        = (r1.lrData args1 mode).getD (swapIdx p q j) (Frac.ofInt 0) := by
    intro j hj
    unfold List.getD
    rw [hGd j hj]
  have hmin1 : argminList (r1.lrData args1 mode) = k :=
    argminList_unique _ k hk huniq
  have hσk : swapIdx p q k < args1.length := by
    have := swapIdx_lt hp hq k (by omega)
    omega
  have hmin2 : argminList (r2.lrData args2 mode) = swapIdx p q k := by
    apply argminList_unique
    · omega
    · intro j hj hjk
      have hj' : j < args1.length := by omega
      rw [hgd j hj', hgd (swapIdx p q k) hσk, swapIdx_invol]
      apply huniq (swapIdx p q j)
      · have := swapIdx_lt hp hq j (by omega)
        omega
      · intro he
        apply hjk
        rw [← swapIdx_invol p q j, he]
  rw [limiting_eq_data r2 args2 mode hb2 hlen2',
    limiting_eq_data r1 args1 mode hb1 hlen1, hmin1, hmin2]
  rw [hrs (swapIdx p q k) (by omega), swapIdx_invol]

/-- **C7 counterexample**: rHHO is 2 H2 + O2 --> 2 H2O (balanced);
rOHH swaps reactant positions 0 and 2 of its reactant sequence.  With
2 moles of H2 and 1 mole of O2 the two anchors tie, and `np.argmin`
reports the first minimum: H2 for one order, O2 for the other — so the
claim as stated (without a unique-minimum hypothesis) is false. -/
theorem claim_C7_counterexample :
    rHHO.is_balanced = true ∧ rOHH.is_balanced = true ∧
    rHHO.reactants = [cH2, cH2, cO2] ∧ rOHH.reactants = [cO2, cH2, cH2] ∧
    dedupByFormula [] rHHO.reactants = [cH2, cO2] ∧
    dedupByFormula [] rOHH.reactants = [cO2, cH2] ∧
    rHHO.limiting_reagent [Frac.ofInt 2, Frac.ofInt 1] AmtKey.moles
      = some cH2 ∧
    rOHH.limiting_reagent [Frac.ofInt 1, Frac.ofInt 2] AmtKey.moles
      = some cO2 ∧
    cH2 ≠ cO2 := by
  decide

/-- **C7 witness**: with 2 moles of H2 against 100 moles of O2 the
minimum is unique, and both orders report H2 as limiting. -/
theorem claim_C7_witness :
    rOHH.limiting_reagent [Frac.ofInt 100, Frac.ofInt 2] AmtKey.moles
      = rHHO.limiting_reagent [Frac.ofInt 2, Frac.ofInt 100] AmtKey.moles :=
  claim_C7 rHHO rOHH [Frac.ofInt 2, Frac.ofInt 100]
    [Frac.ofInt 100, Frac.ofInt 2] AmtKey.moles 0 1 0
    (by decide) (by decide) (by decide) (by decide) (by decide) (by decide)
    (by decide) (by decide) (by decide) (by decide) (by decide) (by decide)
    (by decide) (by decide) (by decide)

end Chemlib
